import Mathlib

/-!
# A verification development for comemo's constrained-memoization core

This file gives a shallow embedding, in Lean, of the core runtime of the
comemo incremental-computation library (the `calltree.rs`, `memoize.rs`,
`call.rs`, `accelerate.rs` and `input.rs` modules) and proves the key
functional-correctness, invariant and error-handling properties of that
core.

Modelling conventions:
* `u128` hashes and `usize` indices are modelled as `Nat` (they are only
  compared for equality or order, never overflowed).
* `HashMap`/`HashSet` are modelled as association lists with distinct keys;
  `mput` replaces an existing binding in place or appends a fresh one, which
  matches `HashMap::insert` up to iteration order (which the code never
  relies on for these maps).
* `Slab` is modelled as an association list of live entries together with a
  counter handing out fresh keys.  The real slab allocator reuses freed
  slots; the properties proved below are independent of the allocation
  policy (they only require that a newly allocated key is not currently
  live), so the model allocates strictly fresh keys.
* SipHash-128 hashing of calls is abstracted into a parameter
  `hashC : C → Nat`.
* Interior mutability (the atomic `age` on cache entries) is modelled by
  returning the identity (slab key) of the touched leaf and an updated
  structure.
* Indexing a slab at an absent key panics in Rust; in the model the
  corresponding branches return an (unreachable, for well-formed trees)
  junk result, and well-formedness is established for every tree the
  program can actually build.
-/

set_option autoImplicit false

namespace Comemo

/-! ## Association-list maps (the model of `HashMap`) -/

/-- Lookup in an association-list map. -/
def mlookup {κ ν : Type} [DecidableEq κ] (m : List (κ × ν)) (k : κ) : Option ν :=
  (m.find? (fun p => p.1 = k)).map (·.2)

/-- `HashMap::insert`: replace the binding of `k` in place, or append it. -/
def mput {κ ν : Type} [DecidableEq κ] (m : List (κ × ν)) (k : κ) (v : ν) : List (κ × ν) :=
  if (m.find? (fun p => p.1 = k)).isSome then
    m.map (fun p => if p.1 = k then (k, v) else p)
  else
    m ++ [(k, v)]

/-! ## Slab arenas (the model of `slab::Slab`) -/

/-- A slab arena: live entries plus a fresh-key counter.  `alloc` returns a
key that is not currently live (the real allocator may reuse freed slots;
every property below is independent of that choice). -/
structure Slab (α : Type) where
  entries : List (Nat × α)
  fresh : Nat
deriving DecidableEq

namespace Slab

variable {α : Type}

def empty : Slab α := ⟨[], 0⟩

def get (s : Slab α) (i : Nat) : Option α := mlookup s.entries i

def holds (s : Slab α) (i : Nat) : Bool := (s.get i).isSome

def alloc (s : Slab α) (a : α) : Nat × Slab α :=
  (s.fresh, ⟨s.entries ++ [(s.fresh, a)], s.fresh + 1⟩)

def remove (s : Slab α) (i : Nat) : Slab α :=
  ⟨s.entries.filter (fun p => p.1 ≠ i), s.fresh⟩

def modify (s : Slab α) (i : Nat) (f : α → α) : Slab α :=
  ⟨s.entries.map (fun p => if p.1 = i then (i, f p.2) else p), s.fresh⟩

def size (s : Slab α) : Nat := s.entries.length
def size_remove_lt {s : Slab α} {i : Nat} {a : α} (h : s.get i = some a) :
    (s.remove i).size < s.size := by
  unfold get mlookup at h
  cases hf : s.entries.find? (fun p => p.1 = i) with
  | none => rw [hf] at h; cases h
  | some p =>
      have hmem : p ∈ s.entries := List.mem_of_find?_eq_some hf
      have hp : p.1 = i := by simpa using List.find?_some hf
      unfold remove size
      simp only
      apply List.length_filter_lt_length_iff_exists.mpr
      exact ⟨p, hmem, by simp [hp]⟩

end Slab

/-! ## `CallSequence` (calltree.rs): a deduplicated sequence of calls -/

/-- `CallSequence<C>`: raw calls in order (deduplicated via `map`), a map
from call hashes to vector indices, and a cursor for `next`. -/
structure CallSequence (C : Type) where
  vec : List (Option (C × Nat))
  map : List (Nat × Nat)
  cursor : Nat
deriving DecidableEq

namespace CallSequence

variable {C : Type}

/-- `CallSequence::new`. -/
def new : CallSequence C := ⟨[], [], 0⟩

variable (hashC : C → Nat)

/-- `CallSequence::insert`: inserts a pair of a call and its return hash.
Returns true when the pair was indeed inserted and false if the call was
deduplicated. -/
def insert (s : CallSequence C) (call : C) (ret : Nat) : Bool × CallSequence C :=
  match mlookup s.map (hashC call) with
  | none =>
      (true, ⟨s.vec ++ [some (call, ret)], mput s.map (hashC call) s.vec.length, s.cursor⟩)
  | some _ => (false, s)

/-- The debug assertion inside `CallSequence::insert` fires: the call's hash
is already indexed, the indexed slot still holds a pending pair, and the new
return hash differs from the recorded one ("found differing return values"). -/
def insertImpure (s : CallSequence C) (call : C) (ret : Nat) : Bool :=
  match mlookup s.map (hashC call) with
  | none => false
  | some i =>
      match s.vec.getD i none with
      | none => false
      | some (_, ret2) => ret != ret2

/-- How many pending (not yet taken) pairs the sequence holds.  Used as the
termination measure for the iteration functions. -/
def pend (s : CallSequence C) : Nat := s.vec.countP (fun o => o.isSome)

/-- `CallSequence::next`: retrieves the next call in order, removing it. -/
def next (s : CallSequence C) : Option ((C × Nat) × CallSequence C) :=
  if h : s.cursor < s.vec.length then
    match s.vec[s.cursor] with
    | some pair => some (pair, ⟨s.vec.set s.cursor none, s.map, s.cursor⟩)
    | none => next ⟨s.vec, s.map, s.cursor + 1⟩
  else
    none
termination_by s.vec.length - s.cursor
decreasing_by omega

/-- `CallSequence::extract`: retrieves the return hash of an arbitrary
upcoming call and removes that call from the sequence. -/
def extract (s : CallSequence C) (call : C) : Option Nat × CallSequence C :=
  match mlookup s.map (hashC call) with
  | none => (none, s)
  | some i =>
      match s.vec.getD i none with
      | none => (none, ⟨s.vec.set i none, s.map, s.cursor⟩)
      | some (_, ret) => (some ret, ⟨s.vec.set i none, s.map, s.cursor⟩)

/-- `FromIterator`: build a sequence by repeated insertion. -/
def fromList (pairs : List (C × Nat)) : CallSequence C :=
  pairs.foldl (fun s pr => (insert hashC s pr.1 pr.2).2) new

/-- The pending return hash the sequence records for (the hash of) a call:
the exact lookup `extract` performs. -/
def recorded (s : CallSequence C) (call : C) : Option Nat :=
  match mlookup s.map (hashC call) with
  | none => none
  | some i =>
      match s.vec.getD i none with
      | none => none
      | some (_, ret) => some ret


def countP_set_none {α : Type} :
    ∀ (l : List (Option α)) (i : Nat) (x : α), l[i]? = some (some x) →
      (l.set i none).countP (fun o => o.isSome) < l.countP (fun o => o.isSome)
  | [], i, x, h => by simp at h
  | a :: l, 0, x, h => by
      simp only [List.getElem?_cons_zero, Option.some.injEq] at h
      subst h
      simp [List.countP_cons]
  | a :: l, i + 1, x, h => by
      simp only [List.getElem?_cons_succ] at h
      have := countP_set_none l i x h
      simp only [List.set_cons_succ, List.countP_cons]
      omega

def getD_eq_some_pending {C : Type} {vec : List (Option (C × Nat))} {i : Nat}
    {pr : C × Nat} (h : vec.getD i none = some pr) : vec[i]? = some (some pr) := by
  rw [List.getD_eq_getElem?_getD] at h
  cases hv : vec[i]? with
  | none => rw [hv] at h; simp at h
  | some o => rw [hv] at h; simp at h; simp [hv, h]

def extract_pend_lt {s : CallSequence C} {call : C} {ret : Nat} {s' : CallSequence C}
    (h : extract hashC s call = (some ret, s')) : s'.pend < s.pend := by
  cases hmap : mlookup s.map (hashC call) with
  | none => simp [extract, hmap] at h
  | some i =>
      cases hv : s.vec.getD i none with
      | none =>
          rw [List.getD_eq_getElem?_getD] at hv
          simp [extract, hmap, hv] at h
      | some pr =>
          obtain ⟨c, r⟩ := pr
          have hv' := hv
          rw [List.getD_eq_getElem?_getD] at hv'
          simp only [extract, hmap, hv, hv', Prod.mk.injEq, Option.some.injEq] at h
          obtain ⟨h1, h2⟩ := h
          subst h2
          exact countP_set_none s.vec i (c, r) (getD_eq_some_pending hv)

def next_pend_lt {s : CallSequence C} {pair : C × Nat} {s' : CallSequence C}
    (h : next s = some (pair, s')) : s'.pend < s.pend := by
  induction s using next.induct with
  | case1 s hlt pr heq =>
      rw [next] at h
      simp only [dif_pos hlt, heq] at h
      simp only [Option.some.injEq, Prod.mk.injEq] at h
      obtain ⟨h1, h2⟩ := h
      subst h2
      have : s.vec[s.cursor]? = some (some pr) := by
        rw [List.getElem?_eq_getElem hlt, heq]
      exact countP_set_none s.vec s.cursor pr this
  | case2 s hlt heq ih =>
      rw [next] at h
      simp only [dif_pos hlt, heq] at h
      exact ih h
  | case3 s hlt =>
      rw [next] at h
      simp [dif_neg hlt] at h

/-- Well-formedness of a call sequence: every pending pair is indexed by the
map at its own position.  Sequences built by `insert` satisfy this. -/
def SeqWF (s : CallSequence C) : Prop :=
  ∀ i pr, s.vec[i]? = some (some pr) → mlookup s.map (hashC pr.1) = some i

end CallSequence

/-! ## `Constraint` (call.rs): the recording sink

`Constraint<T>` wraps `Inner { vec: Vec<(Call, u128)>, seen: HashSet<u128> }`
behind a mutex; the mutex disappears in the sequential model. -/

structure Constraint (C : Type) where
  vec : List (C × Nat)
  seen : List Nat
deriving DecidableEq

namespace Constraint

variable {C : Type} (hashC : C → Nat)

/-- `Constraint::new`. -/
def new : Constraint C := ⟨[], []⟩

/-- `Sink::emit` for `Constraint`: record the pair if the call's hash was not
seen before; report whether it was recorded. -/
def emit (c : Constraint C) (call : C) (ret : Nat) : Bool × Constraint C :=
  if hashC call ∈ c.seen then (false, c)
  else (true, ⟨c.vec ++ [(call, ret)], hashC call :: c.seen⟩)

end Constraint

/-! ## `TrackedSink` (input.rs): composition of sinks

A sink is modelled extensionally as a state transformer
`σ → C → Nat → Bool × σ`.  `TrackedSink { prev, sink }` composes an optional
outer sink `prev` with the current sink. -/

structure SinkFn (σ C : Type) where
  emit : σ → C → Nat → Bool × σ

/-- `TrackedSink::emit`: emit to the current sink first and, if it accepted
the pair and an outer sink exists, forward the pair to the outer sink. -/
def trackedEmit {σ₁ σ₂ C : Type} (current : SinkFn σ₁ C) (prev : Option (SinkFn σ₂ C))
    (st : σ₁ × σ₂) (call : C) (ret : Nat) : Bool × (σ₁ × σ₂) :=
  let r₁ := current.emit st.1 call ret
  if r₁.1 then
    match prev with
    | some p =>
        let r₂ := p.emit st.2 call ret
        (r₂.1, (r₁.2, r₂.2))
    | none => (true, (r₁.2, st.2))
  else
    (true, (r₁.2, st.2))

/-- The `Constraint` sink as a `SinkFn`. -/
def constraintSink {C : Type} (hashC : C → Nat) : SinkFn (Constraint C) C :=
  ⟨fun c call ret => Constraint.emit hashC c call ret⟩

/-! ## The accelerator (accelerate.rs)

Global state: the monotone id counter `ID` and the accelerator vector with
its offset, `ACCELERATORS: (usize, Vec<Accelerator>)`. -/

structure AccelState where
  idCtr : Nat
  offset : Nat
  vec : List (List (Nat × Nat))
deriving DecidableEq

namespace AccelState

/-- The initial global accelerator state. -/
def initial : AccelState := ⟨0, 0, []⟩

/-- `accelerate::id`: mint a fresh accelerator id (`fetch_add`). -/
def mintId (s : AccelState) : Nat × AccelState :=
  (s.idCtr, { s with idCtr := s.idCtr + 1 })

/-- `accelerate::evict`: set the offset to the current id counter and clear
every accelerator map (keeping the slots). -/
def evict (s : AccelState) : AccelState :=
  { s with offset := s.idCtr, vec := s.vec.map (fun _ => []) }

/-- `accelerate::resize`: grow the accelerator vector with empty maps. -/
def resize (s : AccelState) (len : Nat) : AccelState :=
  if len > s.vec.length then
    { s with vec := s.vec ++ List.replicate (len - s.vec.length) [] }
  else s

/-- `accelerate::get`: look up the accelerator for an id, resizing if the
slot does not exist yet, and failing if the id predates the offset. -/
def get (s : AccelState) (id : Nat) : Option (List (Nat × Nat)) × AccelState :=
  if id < s.offset then (none, s)
  else
    let i := id - s.offset
    if i ≥ s.vec.length then
      let s' := resize s (i + 1)
      if id < s'.offset then (none, s') else (s'.vec[id - s'.offset]?, s')
    else (s.vec[i]?, s)

/-- The operations a client can perform on the global accelerator state. -/
inductive Op
  | mint
  | evictOp
  | probe (id : Nat)

/-- Apply an operation, discarding its output. -/
def step (s : AccelState) : Op → AccelState
  | .mint => s.mintId.2
  | .evictOp => s.evict
  | .probe id => (s.get id).2

def run (s : AccelState) (ops : List Op) : AccelState := ops.foldl step s

end AccelState

/-! ### Pending-count lemmas (termination measure for tree insertion) -/

/-! ## `CallTree` (calltree.rs)

Node ids are `isize` values: non-negative encodes an inner-node id, negative
`-i-1` encodes leaf id `i` (`NodeId::inner` / `NodeId::leaf` / `kind`). -/

/-- `NodeId::inner`. -/
def NodeId.innerId (i : Nat) : Int := (i : Int)

/-- `NodeId::leaf`. -/
def NodeId.leafId (i : Nat) : Int := -(i : Int) - 1

/-- `NodeIdKind`. -/
inductive NodeIdKind
  | innerK (i : Nat)
  | leafK (i : Nat)
deriving DecidableEq

/-- `NodeId::kind`. -/
def nodeKind (n : Int) : NodeIdKind :=
  if 0 ≤ n then .innerK n.toNat else .leafK ((-n).toNat - 1)


/-- An inner node in the call tree. -/
structure InnerNode (C : Type) where
  call : C
  children : Nat
  parent : Option Nat
deriving DecidableEq

/-- A leaf node in the call tree. -/
structure LeafNode (T : Type) where
  value : T
  parent : Option Nat
deriving DecidableEq

/-- The call tree: two slab arenas, the per-key roots and the transition
edges keyed by `(inner_id, return_hash)`. -/
structure CallTree (C T : Type) where
  inner : Slab (InnerNode C)
  leaves : Slab (LeafNode T)
  start : List (Nat × Int)
  edges : List ((Nat × Nat) × Int)
deriving DecidableEq

/-- `InsertError`. -/
inductive InsertError
  | alreadyExists
  | missingCall
deriving DecidableEq

namespace CallTree

variable {C T : Type}

/-- `CallTree::new`. -/
def empty : CallTree C T := ⟨Slab.empty, Slab.empty, [], []⟩

/-- Whether an encoded node id refers to a live node in its arena. -/
def lives (inner : Slab (InnerNode C)) (leaves : Slab (LeafNode T)) (n : Int) : Bool :=
  match nodeKind n with
  | .innerK i => inner.holds i
  | .leafK i => leaves.holds i

/-- The traversal loop of `CallTree::get`, with explicit fuel (the loop
visits each inner node at most once on well-formed trees, so
`inner.size + 1` steps suffice; the fuel only makes the recursion total on
arbitrary trees).  Returns the leaf id (the identity of the returned
reference) together with its value. -/
def getAux (t : CallTree C T) (oracle : C → Nat) : Int → Nat → Option (Nat × T)
  | _, 0 => none
  | pos, fuel + 1 =>
      match nodeKind pos with
      | .leafK id => (t.leaves.get id).map (fun lf => (id, lf.value))
      | .innerK id =>
          match t.inner.get id with
          | none => none
          | some node =>
              match mlookup t.edges (id, oracle node.call) with
              | none => none
              | some next => t.getAux oracle next fuel

/-- `CallTree::get`, additionally exposing the leaf id of the result. -/
def getLeaf (t : CallTree C T) (key : Nat) (oracle : C → Nat) : Option (Nat × T) :=
  match mlookup t.start key with
  | none => none
  | some root => t.getAux oracle root (t.inner.size + 1)

/-- `CallTree::get`: retrieves the output value for the given key and
oracle. -/
def get (t : CallTree C T) (key : Nat) (oracle : C → Nat) : Option T :=
  (t.getLeaf key oracle).map (·.2)

/-- `CallTree::link`: creates a new link between two nodes. -/
def link (t : CallTree C T) (atStart : Bool) (key : Nat) (src : Option (Nat × Nat))
    (tgt : Int) : CallTree C T :=
  let t1 := if atStart then { t with start := mput t.start key tgt } else t
  match src with
  | none => t1
  | some pr =>
      { t1 with
        inner := t1.inner.modify pr.1 (fun n => { n with children := n.children + 1 }),
        edges := mput t1.edges pr tgt }

variable (hashC : C → Nat)

/-- The loop of `CallTree::insert`.  `cursor` and `pred` are the loop
variables (`cursor`/`predecessor`); the tree is threaded through so that the
partially updated tree is returned alongside any error. -/
def insertLoop (t : CallTree C T) (key : Nat) (value : T) (seq : CallSequence C)
    (cursor : Option Int) (pred : Option (Nat × Nat)) :
    CallTree C T × Option InsertError :=
  match pred, cursor with
  | none, some pos =>
      -- We may still be on an existing path.
      match nodeKind pos with
      | .leafK _ => (t, some .alreadyExists)
      | .innerK id =>
          match t.inner.get id with
          | none =>
              -- Unreachable on well-formed trees: slab indexing would panic.
              (t, some .missingCall)
          | some node =>
              match hext : CallSequence.extract hashC seq node.call with
              | (none, _) => (t, some .missingCall)
              | (some ret, seq') =>
                  match mlookup t.edges (id, ret) with
                  | some next =>
                      -- Still on an existing path.
                      t.insertLoop key value seq' (some next) none
                  | none =>
                      -- Starting to build a new path in the tree.
                      t.insertLoop key value seq' (some pos) (some (id, ret))
  | _, _ =>
      -- Adding a new node to the tree for the next call in the sequence.
      match hnext : CallSequence.next seq with
      | none =>
          if pred.isNone && cursor.isSome then (t, some .alreadyExists)
          else
            let al := t.leaves.alloc ⟨value, pred.map (·.1)⟩
            let t' := { t with leaves := al.2 }
            (t'.link cursor.isNone key pred (NodeId.leafId al.1), none)
      | some (pr, seq') =>
          let al := t.inner.alloc ⟨pr.1, 0, pred.map (·.1)⟩
          let t1 := { t with inner := al.2 }
          let t2 := t1.link cursor.isNone key pred (NodeId.innerId al.1)
          t2.insertLoop key value seq' (some (NodeId.innerId al.1)) (some (al.1, pr.2))
termination_by seq.pend
decreasing_by
  · exact CallSequence.extract_pend_lt hashC hext
  · exact CallSequence.extract_pend_lt hashC hext
  · exact CallSequence.next_pend_lt hnext

/-- `CallTree::insert`: inserts a key, a call sequence and its associated
value into the tree. -/
def insertTree (t : CallTree C T) (key : Nat) (seq : CallSequence C) (value : T) :
    CallTree C T × Option InsertError :=
  t.insertLoop hashC key value seq (mlookup t.start key) none

/-- The outcome of walking the existing path for a sequence (the first
regime of `CallTree::insert`, i.e. the iterations with
`predecessor = None`). -/
inductive WalkOutcome (C : Type)
  | reachedLeaf (pos : Int) (seq : CallSequence C)
  | missing (id : Nat) (seq : CallSequence C)
  | diverge (id ret : Nat) (pos : Int) (seq : CallSequence C)

/-- Walk the existing path from `pos`, extracting each inner node's call
from the sequence, until the traversal reaches a leaf, fails to extract, or
leaves the set of existing edges. -/
def walk (t : CallTree C T) (pos : Int) (seq : CallSequence C) : WalkOutcome C :=
  match nodeKind pos with
  | .leafK _ => .reachedLeaf pos seq
  | .innerK id =>
      match t.inner.get id with
      | none => .missing id seq
      | some node =>
          match hext : CallSequence.extract hashC seq node.call with
          | (none, s') => .missing id s'
          | (some ret, seq') =>
              match mlookup t.edges (id, ret) with
              | some next => t.walk next seq'
              | none => .diverge id ret pos seq'
termination_by seq.pend
decreasing_by exact CallSequence.extract_pend_lt hashC hext

/-- The parent-chain walk performed by `CallTree::retain` for a deleted
leaf: delete parents iteratively while the walked-from child is the only
child. -/
def pruneChain (inner : Slab (InnerNode C)) (p : Option Nat) : Slab (InnerNode C) :=
  match p with
  | none => inner
  | some pid =>
      match hg : inner.get pid with
      | none =>
          -- Unreachable on well-formed trees: slab indexing would panic.
          inner
      | some node =>
          if node.children > 1 then
            inner.modify pid (fun n => { n with children := n.children - 1 })
          else
            pruneChain (inner.remove pid) node.parent
termination_by inner.size
decreasing_by exact Slab.size_remove_lt hg

/-- The leaf pass of `CallTree::retain` (`self.leaves.retain(...)`): process
the leaf entries in order, keeping those whose (mutated) value passes `f`
and pruning the parent chain of those that fail. -/
def retainLeaves (f : T → T × Bool) :
    Slab (InnerNode C) → List (Nat × LeafNode T) →
      Slab (InnerNode C) × List (Nat × LeafNode T)
  | inn, [] => (inn, [])
  | inn, (id, lf) :: rest =>
      let r := f lf.value
      if r.2 then
        let rec' := retainLeaves f inn rest
        (rec'.1, (id, { lf with value := r.1 }) :: rec'.2)
      else
        retainLeaves f (pruneChain inn lf.parent) rest

/-- `CallTree::retain`: removes all call sequences from the tree for whose
values the predicate returns `false` (the predicate may mutate the value,
like the Rust `FnMut(&mut T) -> bool`). -/
def retain (t : CallTree C T) (f : T → T × Bool) : CallTree C T :=
  let pr := retainLeaves f t.inner t.leaves.entries
  let leaves' : Slab (LeafNode T) := ⟨pr.2, t.leaves.fresh⟩
  { inner := pr.1, leaves := leaves',
    edges := t.edges.filter (fun e => lives pr.1 leaves' e.2),
    start := t.start.filter (fun e => lives pr.1 leaves' e.2) }

end CallTree

/-! ## The per-function cache and the `memoize` entry point (memoize.rs) -/

/-- `CacheEntry`: a memoized result with its replayable mutable calls and
its eviction age (the atomic is modelled as a plain field). -/
structure CacheEntry (C Out : Type) where
  output : Out
  mutableCalls : List C
  age : Nat
deriving DecidableEq

/-- `CacheData`: the call tree of one memoized function. -/
structure CacheData (C Out : Type) where
  tree : CallTree C (CacheEntry C Out)
deriving DecidableEq

namespace CacheData

variable {C Out : Type} (hashC : C → Nat)

def emptyCache : CacheData C Out := ⟨CallTree.empty⟩

/-- `CacheData::evict`: age every entry by one and retain those whose new
age is at most `max_age`. -/
def evict (cd : CacheData C Out) (maxAge : Nat) : CacheData C Out :=
  ⟨cd.tree.retain (fun e =>
    let e' := { e with age := e.age + 1 }
    (e', decide (e'.age ≤ maxAge)))⟩

/-- `CacheData::lookup`: find a matching entry and reset its age to zero
(the atomic store is modelled by updating the found leaf). -/
def lookup (cd : CacheData C Out) (key : Nat) (oracle : C → Nat) :
    Option (CacheEntry C Out × CacheData C Out) :=
  match cd.tree.getLeaf key oracle with
  | none => none
  | some (lid, entry) =>
      some ({ entry with age := 0 },
        ⟨{ cd.tree with
            leaves := cd.tree.leaves.modify lid
              (fun lf => { lf with value := { lf.value with age := 0 } }) }⟩)

/-- `CacheData::insert`: insert the recorded immutable sequence together
with the output and mutable-call list as a fresh entry of age zero. -/
def insertData (cd : CacheData C Out) (key : Nat) (immutable : CallSequence C)
    (mutableCalls : List C) (output : Out) : CacheData C Out × Option InsertError :=
  let r := cd.tree.insertTree hashC key immutable ⟨output, mutableCalls, 0⟩
  (⟨r.1⟩, r.2)

end CacheData

/-- Whether the testing hook records the call as a hit or a miss. -/
inductive MemoOutcome
  | hit
  | miss
deriving DecidableEq

/-- The `memoize` entry point, at the cache level.  The function execution
is abstracted: `key` is the hash of the input's key part, `oracle c` is
`input.call(c)`, and running the user closure under the attached constraint
yields the recording `(immutable, mutableCalls)` and `output`.  `debug`
selects `debug_assertions`; the panic on `MissingCall` in debug builds is
modelled as `none`. -/
def memoize {C Out : Type} (hashC : C → Nat) (debug enabled : Bool)
    (cd : CacheData C Out) (key : Nat) (oracle : C → Nat)
    (immutable : CallSequence C) (mutableCalls : List C) (output : Out) :
    Option (Out × MemoOutcome × CacheData C Out) :=
  if !enabled then
    some (output, .miss, cd)
  else
    match CacheData.lookup cd key oracle with
    | some (entry, cd') => some (entry.output, .hit, cd')
    | none =>
        let r := CacheData.insertData hashC cd key immutable mutableCalls output
        match r.2 with
        | none => some (output, .miss, r.1)
        | some .alreadyExists =>
            -- A concurrent writer raced ahead; that's okay.
            some (output, .miss, r.1)
        | some .missingCall =>
            -- Non-determinism in the memoized function: panic in debug.
            if debug then none else some (output, .miss, r.1)




/-! ## Specification predicates -/

namespace CallSequence

/-- An oracle agrees with a sequence when it returns, for every call whose
hash the sequence has recorded, exactly the recorded return hash. -/
def agreesWith {C : Type} (hashC : C → Nat) (s : CallSequence C) (oracle : C → Nat) : Prop :=
  ∀ c r, recorded hashC s c = some r → oracle c = r

end CallSequence

namespace CallTree

variable {C T : Type}

/-- The number of outgoing edges of an inner node. -/
def outdeg (t : CallTree C T) (id : Nat) : Nat :=
  t.edges.countP (fun e => e.1.1 = id)

/-- The parent pointer of an inner node, if the node is live. -/
def parentOf (inn : Slab (InnerNode C)) (i : Nat) : Option Nat :=
  (inn.get i).bind (fun n => n.parent)

/-- The parent chain from an optional parent pointer, with explicit fuel. -/
def chainN (inn : Slab (InnerNode C)) : Option Nat → Nat → List Nat
  | none, _ => []
  | some _, 0 => []
  | some a, fuel + 1 => a :: chainN inn (parentOf inn a) fuel

/-- The parent chain from an optional parent pointer.  On well-formed trees
parent ids strictly decrease, so `inn.fresh` steps of fuel always complete
the chain. -/
def chain (inn : Slab (InnerNode C)) (p : Option Nat) : List Nat :=
  chainN inn p inn.fresh

/-- `getAux` reaches the leaf `lid` from `pos` under `oracle`. -/
inductive ReachesLeaf (t : CallTree C T) (oracle : C → Nat) : Int → Nat → Prop
  | leafR (pos : Int) (lid : Nat) (lf : LeafNode T) :
      nodeKind pos = .leafK lid → t.leaves.get lid = some lf →
      ReachesLeaf t oracle pos lid
  | stepR (pos : Int) (id : Nat) (node : InnerNode C) (next : Int) (lid : Nat) :
      nodeKind pos = .innerK id → t.inner.get id = some node →
      mlookup t.edges (id, oracle node.call) = some next →
      ReachesLeaf t oracle next lid →
      ReachesLeaf t oracle pos lid

/-- The full structural invariant of a call tree.  Every tree reachable from
the empty tree by `insert` and `retain` satisfies it. -/
structure WF (t : CallTree C T) : Prop where
  innerNodup : (t.inner.entries.map Prod.fst).Nodup
  leafNodup : (t.leaves.entries.map Prod.fst).Nodup
  innerBound : ∀ e ∈ t.inner.entries, e.1 < t.inner.fresh
  leafBound : ∀ e ∈ t.leaves.entries, e.1 < t.leaves.fresh
  startNodup : (t.start.map Prod.fst).Nodup
  edgeNodup : (t.edges.map Prod.fst).Nodup
  startLive : ∀ k n, mlookup t.start k = some n → lives t.inner t.leaves n = true
  edgeLive : ∀ pr n, mlookup t.edges pr = some n → lives t.inner t.leaves n = true
  edgeSrc : ∀ pr n, mlookup t.edges pr = some n → t.inner.holds pr.1 = true
  edgeInc : ∀ pr j, mlookup t.edges pr = some (NodeId.innerId j) → pr.1 < j
  parentLt : ∀ id n, t.inner.get id = some n → ∀ p, n.parent = some p → p < id
  childrenEq : ∀ id n, t.inner.get id = some n → n.children = t.outdeg id
  edgeParentInner : ∀ pr j, mlookup t.edges pr = some (NodeId.innerId j) →
      ∃ n, t.inner.get j = some n ∧ n.parent = some pr.1
  edgeParentLeaf : ∀ pr j, mlookup t.edges pr = some (NodeId.leafId j) →
      ∃ lf, t.leaves.get j = some lf ∧ lf.parent = some pr.1
  parentEdgeInner : ∀ j n p, t.inner.get j = some n → n.parent = some p →
      ∃ r, mlookup t.edges (p, r) = some (NodeId.innerId j)
  parentEdgeLeaf : ∀ j lf p, t.leaves.get j = some lf → lf.parent = some p →
      ∃ r, mlookup t.edges (p, r) = some (NodeId.leafId j)
  parentLiveInner : ∀ j n p, t.inner.get j = some n → n.parent = some p →
      t.inner.holds p = true
  parentLiveLeaf : ∀ j lf p, t.leaves.get j = some lf → lf.parent = some p →
      t.inner.holds p = true
  startRootInner : ∀ k j nd, mlookup t.start k = some (NodeId.innerId j) →
      t.inner.get j = some nd → nd.parent = none
  startRootLeaf : ∀ k j lf, mlookup t.start k = some (NodeId.leafId j) →
      t.leaves.get j = some lf → lf.parent = none
  uniqueIncoming : ∀ pr₁ pr₂ n, mlookup t.edges pr₁ = some n →
      mlookup t.edges pr₂ = some n → pr₁ = pr₂
  leafDescend : ∀ id nd, t.inner.get id = some nd →
      ∃ j lf, t.leaves.get j = some lf ∧ id ∈ chain t.inner lf.parent

/-- The invariant maintained by the loop of `CallTree::insert`: the full
structural invariant, except that an inner node need not have a leaf
descendant as long as it lies on the parent chain of the pending
predecessor (the new path being built ends at `pred` and is completed by a
leaf allocation when the loop stops). -/
structure LoopWF (t : CallTree C T) (pred : Option (Nat × Nat)) : Prop where
  innerNodup : (t.inner.entries.map Prod.fst).Nodup
  leafNodup : (t.leaves.entries.map Prod.fst).Nodup
  innerBound : ∀ e ∈ t.inner.entries, e.1 < t.inner.fresh
  leafBound : ∀ e ∈ t.leaves.entries, e.1 < t.leaves.fresh
  startNodup : (t.start.map Prod.fst).Nodup
  edgeNodup : (t.edges.map Prod.fst).Nodup
  startLive : ∀ k n, mlookup t.start k = some n → lives t.inner t.leaves n = true
  edgeLive : ∀ pr n, mlookup t.edges pr = some n → lives t.inner t.leaves n = true
  edgeSrc : ∀ pr n, mlookup t.edges pr = some n → t.inner.holds pr.1 = true
  edgeInc : ∀ pr j, mlookup t.edges pr = some (NodeId.innerId j) → pr.1 < j
  parentLt : ∀ id n, t.inner.get id = some n → ∀ p, n.parent = some p → p < id
  childrenEq : ∀ id n, t.inner.get id = some n → n.children = t.outdeg id
  edgeParentInner : ∀ pr j, mlookup t.edges pr = some (NodeId.innerId j) →
      ∃ n, t.inner.get j = some n ∧ n.parent = some pr.1
  edgeParentLeaf : ∀ pr j, mlookup t.edges pr = some (NodeId.leafId j) →
      ∃ lf, t.leaves.get j = some lf ∧ lf.parent = some pr.1
  parentEdgeInner : ∀ j n p, t.inner.get j = some n → n.parent = some p →
      ∃ r, mlookup t.edges (p, r) = some (NodeId.innerId j)
  parentEdgeLeaf : ∀ j lf p, t.leaves.get j = some lf → lf.parent = some p →
      ∃ r, mlookup t.edges (p, r) = some (NodeId.leafId j)
  parentLiveInner : ∀ j n p, t.inner.get j = some n → n.parent = some p →
      t.inner.holds p = true
  parentLiveLeaf : ∀ j lf p, t.leaves.get j = some lf → lf.parent = some p →
      t.inner.holds p = true
  startRootInner : ∀ k j nd, mlookup t.start k = some (NodeId.innerId j) →
      t.inner.get j = some nd → nd.parent = none
  startRootLeaf : ∀ k j lf, mlookup t.start k = some (NodeId.leafId j) →
      t.leaves.get j = some lf → lf.parent = none
  uniqueIncoming : ∀ pr₁ pr₂ n, mlookup t.edges pr₁ = some n →
      mlookup t.edges pr₂ = some n → pr₁ = pr₂
  leafDescendP : ∀ id nd, t.inner.get id = some nd →
      (∃ j lf, t.leaves.get j = some lf ∧ id ∈ chain t.inner lf.parent) ∨
      (∃ pr, pred = some pr ∧ id ∈ chain t.inner (some pr.1))

/-- The consistency properties the specification states for call trees:
edge and start targets exist, edge sources exist, parent chains consist of
existing inner nodes, and children counters equal outgoing-edge counts. -/
structure Consistent (t : CallTree C T) : Prop where
  startEx : ∀ k n, mlookup t.start k = some n → lives t.inner t.leaves n = true
  edgeEx : ∀ pr n, mlookup t.edges pr = some n →
      lives t.inner t.leaves n = true ∧ t.inner.holds pr.1 = true
  parentsInner : ∀ j n p, t.inner.get j = some n → n.parent = some p →
      t.inner.holds p = true
  parentsLeaf : ∀ j lf p, t.leaves.get j = some lf → lf.parent = some p →
      t.inner.holds p = true
  childrenCount : ∀ id n, t.inner.get id = some n → n.children = t.outdeg id

/-- The call-tree operations of the public interface. -/
inductive TreeOp (C T : Type)
  | insertOp (key : Nat) (pairs : List (C × Nat)) (value : T)
  | retainOp (f : T → T × Bool)

def applyOp (hashC : C → Nat) (t : CallTree C T) : TreeOp C T → CallTree C T
  | .insertOp key pairs v => (t.insertTree hashC key (CallSequence.fromList hashC pairs) v).1
  | .retainOp f => t.retain f

def applyOps (hashC : C → Nat) (t : CallTree C T) (ops : List (TreeOp C T)) : CallTree C T :=
  ops.foldl (applyOp hashC) t

/-- A leaf id is live in a list of leaf entries. -/
def leafIn (ls : List (Nat × LeafNode T)) (j : Nat) : Bool :=
  ls.any (fun e => e.1 = j)

/-- An inner node is live: some leaf in `ls` has it on its parent chain. -/
def innerLiveB (inn : Slab (InnerNode C)) (ls : List (Nat × LeafNode T)) (id : Nat) : Bool :=
  ls.any (fun e => id ∈ chain inn e.2.parent)

/-- Liveness of an encoded node id with respect to a leaf-entry list. -/
def childLiveB (inn : Slab (InnerNode C)) (ls : List (Nat × LeafNode T)) (n : Int) : Bool :=
  match nodeKind n with
  | .leafK j => leafIn ls j
  | .innerK j => innerLiveB inn ls j

/-- The number of outgoing edges of `id` whose target is live. -/
def liveOutdeg (t : CallTree C T) (ls : List (Nat × LeafNode T)) (id : Nat) : Nat :=
  t.edges.countP (fun e => e.1.1 = id && childLiveB t.inner ls e.2)

/-- The leaves that are live midway through `retain`: the survivors of the
processed prefix `P` plus the untouched suffix `L`. -/
def liveList (f : T → T × Bool) (P L : List (Nat × LeafNode T)) :
    List (Nat × LeafNode T) :=
  P.filter (fun e => (f e.2.value).2) ++ L

/-- The invariant maintained over the inner arena while the leaf pass of
`retain` runs: with `S` the still-relevant leaf entries (survivors of the
processed prefix plus the untouched suffix), exactly the inner nodes on the
parent chain of some entry of `S` are present, with their original call and
parent and with their children counter equal to their number of
live-targeted outgoing edges. -/
structure RetainInv (t : CallTree C T) (inn : Slab (InnerNode C))
    (S : List (Nat × LeafNode T)) : Prop where
  fr : inn.fresh = t.inner.fresh
  live : ∀ id, innerLiveB t.inner S id = true → ∃ n₀, t.inner.get id = some n₀ ∧
      inn.get id = some ⟨n₀.call, liveOutdeg t S id, n₀.parent⟩
  dead : ∀ id, innerLiveB t.inner S id = false → inn.get id = none

/-- `WalkOutcome` classifiers. -/
def WalkOutcome.isMissing {C : Type} : WalkOutcome C → Bool
  | .missing _ _ => true
  | _ => false

def WalkOutcome.isReachedLeaf {C : Type} : WalkOutcome C → Bool
  | .reachedLeaf _ _ => true
  | _ => false

end CallTree

namespace CacheData

variable {C Out : Type}

/-- `k` successive evictions with the same `max_age`. -/
def evictN (cd : CacheData C Out) (maxAge : Nat) : Nat → CacheData C Out
  | 0 => cd
  | k + 1 => (evictN cd maxAge k).evict maxAge

end CacheData

namespace CallTree

variable {C T : Type}

/-- `insert` only extends a tree: existing nodes survive (inner nodes
possibly with a larger children count, but the same call and parent),
and existing edges and roots are unchanged. -/
structure Extends (t t' : CallTree C T) : Prop where
  innerKeep : ∀ i n, t.inner.get i = some n →
      ∃ k, t'.inner.get i = some { n with children := n.children + k }
  leafKeep : ∀ i lf, t.leaves.get i = some lf → t'.leaves.get i = some lf
  edgeKeep : ∀ pr v, mlookup t.edges pr = some v → mlookup t'.edges pr = some v
  startKeep : ∀ k v, mlookup t.start k = some v → mlookup t'.start k = some v

/-- A decidable check of the `WF` invariant, quantifying only over the
entries actually present; `WF_of_dec` transfers it to `WF`.  Used to
establish well-formedness of small concrete trees by evaluation. -/
def WFdec [DecidableEq C] [DecidableEq T] (t : CallTree C T) : Bool :=
  (t.inner.entries.map Prod.fst).Nodup &&
  (t.leaves.entries.map Prod.fst).Nodup &&
  t.inner.entries.all (fun e => e.1 < t.inner.fresh) &&
  t.leaves.entries.all (fun e => e.1 < t.leaves.fresh) &&
  (t.start.map Prod.fst).Nodup &&
  (t.edges.map Prod.fst).Nodup &&
  t.start.all (fun e => lives t.inner t.leaves e.2) &&
  t.edges.all (fun e => lives t.inner t.leaves e.2) &&
  t.edges.all (fun e => t.inner.holds e.1.1) &&
  t.edges.all (fun e =>
    match nodeKind e.2 with
    | .innerK j => decide (e.1.1 < j)
    | .leafK _ => true) &&
  t.inner.entries.all (fun e =>
    match e.2.parent with
    | some p => decide (p < e.1)
    | none => true) &&
  t.inner.entries.all (fun e => decide (e.2.children = t.outdeg e.1)) &&
  t.edges.all (fun e =>
    match nodeKind e.2 with
    | .innerK j =>
        match t.inner.get j with
        | some n => decide (n.parent = some e.1.1)
        | none => false
    | .leafK j =>
        match t.leaves.get j with
        | some lf => decide (lf.parent = some e.1.1)
        | none => false) &&
  t.inner.entries.all (fun e =>
    match e.2.parent with
    | some p => t.edges.any (fun ed => decide (ed.1.1 = p) && decide (ed.2 = NodeId.innerId e.1))
    | none => true) &&
  t.leaves.entries.all (fun e =>
    match e.2.parent with
    | some p => t.edges.any (fun ed => decide (ed.1.1 = p) && decide (ed.2 = NodeId.leafId e.1))
    | none => true) &&
  t.inner.entries.all (fun e =>
    match e.2.parent with
    | some p => t.inner.holds p
    | none => true) &&
  t.leaves.entries.all (fun e =>
    match e.2.parent with
    | some p => t.inner.holds p
    | none => true) &&
  t.start.all (fun e =>
    match nodeKind e.2 with
    | .innerK j =>
        match t.inner.get j with
        | some n => decide (n.parent = none)
        | none => true
    | .leafK j =>
        match t.leaves.get j with
        | some lf => decide (lf.parent = none)
        | none => true) &&
  (t.edges.map (·.2)).Nodup &&
  t.inner.entries.all (fun e =>
    t.leaves.entries.any (fun lf => decide (e.1 ∈ chain t.inner lf.2.parent)))

/-- Where the loop of `insert` attaches the new path: the guarantee, for an
agreeing oracle, that the inserted leaf `lid` is reachable from the point
the loop was started at (a predecessor edge, an existing cursor position,
or a fresh root entry for `key`). -/
def InsertedAt (t : CallTree C T) (oracle : C → Nat) (key : Nat)
    (cursor : Option Int) (pred : Option (Nat × Nat)) (lid : Nat) : Prop :=
  match pred with
  | some pr => ∃ next, mlookup t.edges pr = some next ∧ ReachesLeaf t oracle next lid
  | none =>
      match cursor with
      | some pos => ReachesLeaf t oracle pos lid
      | none => ∃ root, mlookup t.start key = some root ∧ ReachesLeaf t oracle root lid

end CallTree

/-! ## Concrete instances used by the closed witness theorems -/

/-- A concrete hash function on `Nat` calls (injective, like a collision-free
SipHash). -/
def hashN : Nat → Nat := fun n => n

/-- A one-call sequence: call `5` returned hash `1`. -/
def exSeq1 : CallSequence Nat := CallSequence.fromList hashN [(5, 1)]

/-- One insertion into the empty tree: key `7`, sequence `exSeq1`,
value `42`. -/
def exIns1 : CallTree Nat Nat × Option InsertError :=
  (CallTree.empty : CallTree Nat Nat).insertTree hashN 7 exSeq1 42

/-- The explicit tree that insertion produces: a root inner node for call
`5` with an edge labelled `1` to the leaf holding `42`. -/
def exTree1 : CallTree Nat Nat :=
  ⟨⟨[(0, ⟨5, 1, none⟩)], 1⟩, ⟨[(0, ⟨42, some 0⟩)], 1⟩, [(7, NodeId.innerId 0)],
    [((0, 1), NodeId.leafId 0)]⟩

/-- The same tree at cache-entry type: output `42`, no mutable calls,
age `0`. -/
def exCacheTree : CallTree Nat (CacheEntry Nat Nat) :=
  ⟨⟨[(0, ⟨5, 1, none⟩)], 1⟩, ⟨[(0, ⟨⟨42, [], 0⟩, some 0⟩)], 1⟩, [(7, NodeId.innerId 0)],
    [((0, 1), NodeId.leafId 0)]⟩

/-- A concrete one-entry cache. -/
def exCache : CacheData Nat Nat := ⟨exCacheTree⟩

/-! ## Theorems -/

@[simp] theorem mlookup_nil {κ ν : Type} [DecidableEq κ] (k : κ) :
    mlookup ([] : List (κ × ν)) k = none := rfl

@[simp] theorem mlookup_cons {κ ν : Type} [DecidableEq κ] (a : κ × ν) (m : List (κ × ν)) (k : κ) :
    mlookup (a :: m) k = if a.1 = k then some a.2 else mlookup m k := by
  by_cases h : a.1 = k <;> simp [mlookup, List.find?, h]

theorem mlookup_append {κ ν : Type} [DecidableEq κ] (m₁ m₂ : List (κ × ν)) (k : κ) :
    mlookup (m₁ ++ m₂) k = ((mlookup m₁ k).orElse (fun _ => mlookup m₂ k)) := by
  induction m₁ with
  | nil => simp
  | cons a m ih => by_cases h : a.1 = k <;> simp [h, ih]

theorem mlookup_isSome_iff {κ ν : Type} [DecidableEq κ] (m : List (κ × ν)) (k : κ) :
    (mlookup m k).isSome ↔ ∃ v, (k, v) ∈ m := by
  induction m with
  | nil => simp
  | cons a m ih =>
    obtain ⟨ka, va⟩ := a
    by_cases h : ka = k
    · subst h; simp
    · simp only [mlookup_cons, if_neg h, ih, List.mem_cons, Prod.mk.injEq]
      constructor
      · rintro ⟨v, hv⟩; exact ⟨v, Or.inr hv⟩
      · rintro ⟨v, ⟨h1, _⟩ | hv⟩
        · exact absurd h1.symm h
        · exact ⟨v, hv⟩

theorem mlookup_eq_some_mem {κ ν : Type} [DecidableEq κ] {m : List (κ × ν)} {k : κ} {v : ν}
    (h : mlookup m k = some v) : (k, v) ∈ m := by
  induction m with
  | nil => simp at h
  | cons a m ih =>
    obtain ⟨ka, va⟩ := a
    by_cases ha : ka = k
    · simp only [mlookup_cons, if_pos ha] at h
      cases h; subst ha; exact List.mem_cons_self _ _
    · simp only [mlookup_cons, if_neg ha] at h
      exact List.mem_cons_of_mem _ (ih h)

theorem find_isSome_of_mlookup {κ ν : Type} [DecidableEq κ] {m : List (κ × ν)} {k : κ}
    (h : (mlookup m k).isSome) : (m.find? (fun p => p.1 = k)).isSome := by
  simpa [mlookup] using h

theorem mlookup_replace_self {κ ν : Type} [DecidableEq κ] {m : List (κ × ν)} {k : κ} (v : ν)
    (h : (mlookup m k).isSome) :
    mlookup (m.map (fun p => if p.1 = k then (k, v) else p)) k = some v := by
  induction m with
  | nil => simp at h
  | cons a m ih =>
    obtain ⟨ka, va⟩ := a
    by_cases ha : ka = k
    · subst ha; simp
    · simp only [mlookup_cons, if_neg ha] at h
      simpa [ha] using ih h

theorem mlookup_replace_ne {κ ν : Type} [DecidableEq κ] (m : List (κ × ν)) (k k' : κ) (v : ν)
    (h : k ≠ k') :
    mlookup (m.map (fun p => if p.1 = k then (k, v) else p)) k' = mlookup m k' := by
  induction m with
  | nil => simp
  | cons a m ih =>
    obtain ⟨ka, va⟩ := a
    by_cases ha : ka = k
    · subst ha; simp [mlookup_cons, h, ih]
    · simp only [List.map_cons, if_neg ha, mlookup_cons]
      by_cases ha' : ka = k'
      · simp [ha']
      · simp only [if_neg ha']
        exact ih

theorem mlookup_mput_self {κ ν : Type} [DecidableEq κ] (m : List (κ × ν)) (k : κ) (v : ν) :
    mlookup (mput m k v) k = some v := by
  unfold mput
  split
  · rename_i hfind
    exact mlookup_replace_self v (by simpa [mlookup] using hfind)
  · rename_i hfind
    rw [mlookup_append]
    cases h : mlookup m k with
    | none => simp [mlookup]
    | some w => exact absurd (find_isSome_of_mlookup (by simp [h])) hfind

theorem mlookup_mput_ne {κ ν : Type} [DecidableEq κ] (m : List (κ × ν)) (k k' : κ) (v : ν)
    (h : k ≠ k') : mlookup (mput m k v) k' = mlookup m k' := by
  unfold mput
  split
  · exact mlookup_replace_ne m k k' v h
  · rw [mlookup_append]
    cases hm : mlookup m k' with
    | none => simp [hm, mlookup_cons, h]
    | some w => simp [hm]

/-- If the key is absent, `mput` appends. -/
theorem mput_of_absent {κ ν : Type} [DecidableEq κ] {m : List (κ × ν)} {k : κ} (v : ν)
    (h : mlookup m k = none) : mput m k v = m ++ [(k, v)] := by
  unfold mput
  split
  · rename_i hfind
    exfalso
    rcases Option.isSome_iff_exists.mp hfind with ⟨p, hp⟩
    simp [mlookup, hp] at h
  · rfl

/-! ## Slab arenas (the model of `slab::Slab`) -/

namespace Slab

variable {α : Type}

@[simp] theorem get_empty (i : Nat) : (empty : Slab α).get i = none := rfl

end Slab

namespace CallSequence

variable {C : Type} (hashC : C → Nat)

theorem seqWF_new : SeqWF hashC (new : CallSequence C) := by
  intro i pr h
  simp [new] at h

theorem seqWF_insert {s : CallSequence C} (hs : SeqWF hashC s) (call : C) (ret : Nat) :
    SeqWF hashC (insert hashC s call ret).2 := by
  unfold insert
  cases hmap : mlookup s.map (hashC call) with
  | some j => exact hs
  | none =>
      intro i pr h
      simp only at h
      rcases lt_trichotomy i s.vec.length with hi | hi | hi
      · rw [List.getElem?_append, if_pos hi] at h
        have := hs i pr h
        by_cases hcc : hashC pr.1 = hashC call
        · rw [hcc] at this; rw [this] at hmap; cases hmap
        · rw [mlookup_mput_ne _ _ _ _ (fun hcp => hcc hcp.symm)]
          exact this
      · subst hi
        have : (s.vec ++ [some (call, ret)])[s.vec.length]? = some (some (call, ret)) := by
          simp
        rw [this] at h
        cases h
        simp only
        exact mlookup_mput_self _ _ _
      · have : (s.vec ++ [some (call, ret)])[i]? = none := by
          apply List.getElem?_eq_none
          simp; omega
        rw [this] at h; cases h

theorem seqWF_foldl (pairs : List (C × Nat)) (s : CallSequence C) (hs : SeqWF hashC s) :
    SeqWF hashC (pairs.foldl (fun s pr => (insert hashC s pr.1 pr.2).2) s) := by
  induction pairs generalizing s with
  | nil => exact hs
  | cons p ps ih => exact ih _ (seqWF_insert hashC hs p.1 p.2)

theorem seqWF_fromList (pairs : List (C × Nat)) : SeqWF hashC (fromList hashC pairs) :=
  seqWF_foldl hashC pairs new (seqWF_new hashC)

/-- Setting one slot to `none` removes at most that recorded pair. -/
theorem recorded_set_none {s : CallSequence C} {i cur : Nat} {c : C} {r : Nat}
    (h : recorded hashC ⟨s.vec.set i none, s.map, cur⟩ c = some r) :
    recorded hashC s c = some r := by
  unfold recorded at h ⊢
  cases hmap : mlookup s.map (hashC c) with
  | none => rw [hmap] at h; simp at h
  | some j =>
      rw [hmap] at h
      simp only at h ⊢
      by_cases hij : j = i
      · subst hij
        have : (s.vec.set j none).getD j none = none := by
          rw [List.getD_eq_getElem?_getD]
          cases hlt : Nat.decLt j s.vec.length with
          | isTrue hl => simp [List.getElem?_set_self, hl]
          | isFalse hl =>
              have : (s.vec.set j none)[j]? = none := by
                apply List.getElem?_eq_none
                simp; omega
              simp [this]
        rw [this] at h
        simp at h
      · have : (s.vec.set i none).getD j none = s.vec.getD j none := by
          rw [List.getD_eq_getElem?_getD, List.getD_eq_getElem?_getD,
            List.getElem?_set_ne (fun he => hij he.symm)]
        rw [this] at h
        exact h

/-- A successful `extract` returns exactly the recorded hash for the call. -/
theorem extract_eq_recorded {s : CallSequence C} {call : C} {ret : Nat} {s' : CallSequence C}
    (h : extract hashC s call = (some ret, s')) : recorded hashC s call = some ret := by
  unfold extract at h
  unfold recorded
  cases hmap : mlookup s.map (hashC call) with
  | none => rw [hmap] at h; simp at h
  | some i =>
      rw [hmap] at h
      simp only at h ⊢
      cases hv : s.vec.getD i none with
      | none => rw [hv] at h; simp at h
      | some pr => obtain ⟨c, r⟩ := pr; rw [hv] at h; simp_all

/-- What `extract` leaves behind: the matched slot is cleared. -/
theorem extract_some_shape {s : CallSequence C} {call : C} {ret : Nat} {s' : CallSequence C}
    (h : extract hashC s call = (some ret, s')) :
    ∃ i, mlookup s.map (hashC call) = some i ∧
      s' = ⟨s.vec.set i none, s.map, s.cursor⟩ := by
  unfold extract at h
  cases hmap : mlookup s.map (hashC call) with
  | none => rw [hmap] at h; simp at h
  | some i =>
      rw [hmap] at h
      simp only at h
      cases hv : s.vec.getD i none with
      | none => rw [hv] at h; simp at h
      | some pr =>
          obtain ⟨c, r⟩ := pr
          rw [hv] at h
          simp only [Prod.mk.injEq, Option.some.injEq] at h
          exact ⟨i, rfl, h.2.symm⟩

/-- What `next` yields: some slot is cleared, and under `SeqWF` the yielded
pair is recorded at its own hash. -/
theorem next_some_shape {s : CallSequence C} {pair : C × Nat} {s' : CallSequence C}
    (h : next s = some (pair, s')) :
    ∃ i cur, s.vec[i]? = some (some pair) ∧ s' = ⟨s.vec.set i none, s.map, cur⟩ := by
  induction s using next.induct with
  | case1 s hlt pr heq =>
      rw [next] at h
      simp only [dif_pos hlt, heq, Option.some.injEq, Prod.mk.injEq] at h
      obtain ⟨h1, h2⟩ := h
      subst h1
      refine ⟨s.cursor, s.cursor, ?_, h2.symm⟩
      rw [List.getElem?_eq_getElem hlt, heq]
  | case2 s hlt heq ih =>
      rw [next] at h
      simp only [dif_pos hlt, heq] at h
      rcases ih h with ⟨i, cur, hget, hs⟩
      exact ⟨i, cur, hget, hs⟩
  | case3 s hlt =>
      rw [next] at h
      simp [dif_neg hlt] at h

theorem next_recorded {s : CallSequence C} {pair : C × Nat} {s' : CallSequence C}
    (hwf : SeqWF hashC s) (h : next s = some (pair, s')) :
    recorded hashC s pair.1 = some pair.2 := by
  rcases next_some_shape h with ⟨i, cur, hget, _⟩
  have hmap := hwf i pair hget
  unfold recorded
  rw [hmap]
  simp only
  have : s.vec.getD i none = some pair := by
    rw [List.getD_eq_getElem?_getD, hget]; rfl
  rw [this]

theorem recorded_of_next {s : CallSequence C} {pair : C × Nat} {s' : CallSequence C}
    {c : C} {r : Nat} (h : next s = some (pair, s'))
    (hr : recorded hashC s' c = some r) : recorded hashC s c = some r := by
  rcases next_some_shape h with ⟨i, cur, _, hs⟩
  subst hs
  exact recorded_set_none hashC hr

theorem recorded_of_extract {s : CallSequence C} {call : C} {ret : Nat} {s' : CallSequence C}
    {c : C} {r : Nat} (h : extract hashC s call = (some ret, s'))
    (hr : recorded hashC s' c = some r) : recorded hashC s c = some r := by
  rcases extract_some_shape hashC h with ⟨i, _, hs⟩
  subst hs
  exact recorded_set_none hashC hr

theorem seqWF_set_none {s : CallSequence C} (hwf : SeqWF hashC s) (i : Nat) (cur : Nat) :
    SeqWF hashC (⟨s.vec.set i none, s.map, cur⟩ : CallSequence C) := by
  intro j pr h
  simp only at h
  by_cases hij : j = i
  · subst hij
    by_cases hj : j < s.vec.length
    · rw [List.getElem?_set_eq_of_lt none hj] at h
      simp at h
    · rw [List.getElem?_eq_none (by simp; omega)] at h
      cases h
  · rw [List.getElem?_set_ne (fun he => hij he.symm)] at h
    exact hwf j pr h

theorem seqWF_of_extract {s : CallSequence C} {call : C} {ret : Nat} {s' : CallSequence C}
    (hwf : SeqWF hashC s) (h : extract hashC s call = (some ret, s')) : SeqWF hashC s' := by
  rcases extract_some_shape hashC h with ⟨i, _, hs⟩
  subst hs
  exact seqWF_set_none hashC hwf i s.cursor

theorem seqWF_of_next {s : CallSequence C} {pair : C × Nat} {s' : CallSequence C}
    (hwf : SeqWF hashC s) (h : next s = some (pair, s')) : SeqWF hashC s' := by
  rcases next_some_shape h with ⟨i, cur, _, hs⟩
  subst hs
  exact seqWF_set_none hashC hwf i cur

end CallSequence

@[simp] theorem nodeKind_innerId (i : Nat) : nodeKind (NodeId.innerId i) = .innerK i := by
  simp [nodeKind, NodeId.innerId]

@[simp] theorem nodeKind_leafId (i : Nat) : nodeKind (NodeId.leafId i) = .leafK i := by
  unfold nodeKind NodeId.leafId
  rw [if_neg (by omega)]
  congr 1
  omega

theorem innerId_ne_leafId (i j : Nat) : NodeId.innerId i ≠ NodeId.leafId j := by
  unfold NodeId.innerId NodeId.leafId
  omega

theorem nodeKind_cases (n : Int) :
    (∃ i, n = NodeId.innerId i) ∨ (∃ i, n = NodeId.leafId i) := by
  by_cases h : 0 ≤ n
  · exact Or.inl ⟨n.toNat, by simp [NodeId.innerId, Int.toNat_of_nonneg h]⟩
  · refine Or.inr ⟨((-n).toNat - 1), ?_⟩
    unfold NodeId.leafId
    omega

/-! ### Unfolding equations for the insertion loop -/

namespace CallTree

variable {C T : Type} (hashC : C → Nat)

theorem insertLoop_leaf (t : CallTree C T) (key : Nat) (value : T) (seq : CallSequence C)
    (pos : Int) (id : Nat) (h : nodeKind pos = .leafK id) :
    insertLoop hashC t key value seq (some pos) none = (t, some .alreadyExists) := by
  rw [insertLoop.eq_def]
  simp [h]

theorem insertLoop_absent (t : CallTree C T) (key : Nat) (value : T) (seq : CallSequence C)
    (pos : Int) (id : Nat) (h : nodeKind pos = .innerK id) (hg : t.inner.get id = none) :
    insertLoop hashC t key value seq (some pos) none = (t, some .missingCall) := by
  rw [insertLoop.eq_def]
  simp [h, hg]

theorem insertLoop_noExtract (t : CallTree C T) (key : Nat) (value : T) (seq : CallSequence C)
    (pos : Int) (id : Nat) (node : InnerNode C) (s₂ : CallSequence C)
    (h : nodeKind pos = .innerK id) (hg : t.inner.get id = some node)
    (hext : CallSequence.extract hashC seq node.call = (none, s₂)) :
    insertLoop hashC t key value seq (some pos) none = (t, some .missingCall) := by
  rw [insertLoop.eq_def]
  simp only [h, hg]
  split
  · rfl
  · rename_i ret seq' heq
    rw [hext] at heq
    cases heq

theorem insertLoop_follow (t : CallTree C T) (key : Nat) (value : T) (seq : CallSequence C)
    (pos : Int) (id : Nat) (node : InnerNode C) (ret : Nat) (seq' : CallSequence C) (next : Int)
    (h : nodeKind pos = .innerK id) (hg : t.inner.get id = some node)
    (hext : CallSequence.extract hashC seq node.call = (some ret, seq'))
    (hedge : mlookup t.edges (id, ret) = some next) :
    insertLoop hashC t key value seq (some pos) none =
      insertLoop hashC t key value seq' (some next) none := by
  conv_lhs => rw [insertLoop.eq_def]
  simp only [h, hg]
  split
  · rename_i s₂ heq
    rw [hext] at heq
    cases heq
  · rename_i ret₂ seq₂ heq
    rw [hext] at heq
    obtain ⟨he1, he2⟩ := Prod.mk.injEq .. ▸ heq
    cases he1
    subst he2
    simp [hedge]

theorem insertLoop_diverge (t : CallTree C T) (key : Nat) (value : T) (seq : CallSequence C)
    (pos : Int) (id : Nat) (node : InnerNode C) (ret : Nat) (seq' : CallSequence C)
    (h : nodeKind pos = .innerK id) (hg : t.inner.get id = some node)
    (hext : CallSequence.extract hashC seq node.call = (some ret, seq'))
    (hedge : mlookup t.edges (id, ret) = none) :
    insertLoop hashC t key value seq (some pos) none =
      insertLoop hashC t key value seq' (some pos) (some (id, ret)) := by
  conv_lhs => rw [insertLoop.eq_def]
  simp only [h, hg]
  split
  · rename_i s₂ heq
    rw [hext] at heq
    cases heq
  · rename_i ret₂ seq₂ heq
    rw [hext] at heq
    obtain ⟨he1, he2⟩ := Prod.mk.injEq .. ▸ heq
    cases he1
    subst he2
    simp [hedge]

theorem insertLoop_stop (t : CallTree C T) (key : Nat) (value : T) (seq : CallSequence C)
    (cursor : Option Int) (pred : Option (Nat × Nat))
    (hnc : pred.isSome = true ∨ cursor = none) (hnext : CallSequence.next seq = none) :
    insertLoop hashC t key value seq cursor pred =
      (({ t with leaves := (t.leaves.alloc ⟨value, pred.map (·.1)⟩).2 } : CallTree C T).link
          cursor.isNone key pred (NodeId.leafId (t.leaves.alloc ⟨value, pred.map (·.1)⟩).1),
        none) := by
  rw [insertLoop.eq_def]
  rcases pred with _ | pr
  · rcases cursor with _ | pos
    · simp only []
      split
      · rfl
      · rename_i pr₂ seq₂ heq
        rw [hnext] at heq
        cases heq
    · simp at hnc
  · rcases cursor with _ | pos <;>
    · simp only []
      split
      · rfl
      · rename_i pr₂ seq₂ heq
        rw [hnext] at heq
        cases heq

theorem insertLoop_build (t : CallTree C T) (key : Nat) (value : T) (seq : CallSequence C)
    (cursor : Option Int) (pred : Option (Nat × Nat)) (pr : C × Nat) (seq' : CallSequence C)
    (hnc : pred.isSome = true ∨ cursor = none)
    (hnext : CallSequence.next seq = some (pr, seq')) :
    insertLoop hashC t key value seq cursor pred =
      insertLoop hashC
        (({ t with inner := (t.inner.alloc ⟨pr.1, 0, pred.map (·.1)⟩).2 } : CallTree C T).link
          cursor.isNone key pred (NodeId.innerId (t.inner.alloc ⟨pr.1, 0, pred.map (·.1)⟩).1))
        key value seq'
        (some (NodeId.innerId (t.inner.alloc ⟨pr.1, 0, pred.map (·.1)⟩).1))
        (some ((t.inner.alloc ⟨pr.1, 0, pred.map (·.1)⟩).1, pr.2)) := by
  conv_lhs => rw [insertLoop.eq_def]
  rcases pred with _ | p
  · rcases cursor with _ | pos
    · simp only []
      split
      · rename_i heq
        rw [hnext] at heq
        cases heq
      · rename_i pr₂ seq₂ heq
        rw [hnext] at heq
        injection heq with h1
        injection h1 with h2 h3
        subst h2
        subst h3
        rfl
    · simp at hnc
  · rcases cursor with _ | pos <;>
    · simp only []
      split
      · rename_i heq
        rw [hnext] at heq
        cases heq
      · rename_i pr₂ seq₂ heq
        rw [hnext] at heq
        injection heq with h1
        injection h1 with h2 h3
        subst h2
        subst h3
        rfl

/-! ### Unfolding equations for the existing-path walk -/

theorem walk_leaf (t : CallTree C T) (pos : Int) (seq : CallSequence C) (id : Nat)
    (h : nodeKind pos = .leafK id) : walk hashC t pos seq = .reachedLeaf pos seq := by
  rw [walk.eq_def]; simp [h]

theorem walk_absent (t : CallTree C T) (pos : Int) (seq : CallSequence C) (id : Nat)
    (h : nodeKind pos = .innerK id) (hg : t.inner.get id = none) :
    walk hashC t pos seq = .missing id seq := by
  rw [walk.eq_def]; simp [h, hg]

theorem walk_noExtract (t : CallTree C T) (pos : Int) (seq : CallSequence C) (id : Nat)
    (node : InnerNode C) (s₂ : CallSequence C)
    (h : nodeKind pos = .innerK id) (hg : t.inner.get id = some node)
    (hext : CallSequence.extract hashC seq node.call = (none, s₂)) :
    walk hashC t pos seq = .missing id s₂ := by
  rw [walk.eq_def]
  simp only [h, hg]
  split
  · rename_i s₃ heq
    rw [hext] at heq
    obtain ⟨he1, he2⟩ := Prod.mk.injEq .. ▸ heq
    subst he2
    rfl
  · rename_i ret seq' heq
    rw [hext] at heq
    cases heq

theorem walk_follow (t : CallTree C T) (pos : Int) (seq : CallSequence C) (id : Nat)
    (node : InnerNode C) (ret : Nat) (seq' : CallSequence C) (next : Int)
    (h : nodeKind pos = .innerK id) (hg : t.inner.get id = some node)
    (hext : CallSequence.extract hashC seq node.call = (some ret, seq'))
    (hedge : mlookup t.edges (id, ret) = some next) :
    walk hashC t pos seq = walk hashC t next seq' := by
  conv_lhs => rw [walk.eq_def]
  simp only [h, hg]
  split
  · rename_i s₂ heq
    rw [hext] at heq
    cases heq
  · rename_i ret₂ seq₂ heq
    rw [hext] at heq
    obtain ⟨he1, he2⟩ := Prod.mk.injEq .. ▸ heq
    cases he1
    subst he2
    simp [hedge]

theorem walk_diverge (t : CallTree C T) (pos : Int) (seq : CallSequence C) (id : Nat)
    (node : InnerNode C) (ret : Nat) (seq' : CallSequence C)
    (h : nodeKind pos = .innerK id) (hg : t.inner.get id = some node)
    (hext : CallSequence.extract hashC seq node.call = (some ret, seq'))
    (hedge : mlookup t.edges (id, ret) = none) :
    walk hashC t pos seq = .diverge id ret pos seq' := by
  rw [walk.eq_def]
  simp only [h, hg]
  split
  · rename_i s₂ heq
    rw [hext] at heq
    cases heq
  · rename_i ret₂ seq₂ heq
    rw [hext] at heq
    obtain ⟨he1, he2⟩ := Prod.mk.injEq .. ▸ heq
    cases he1
    subst he2
    simp [hedge]

/-! ### The build phase never fails; errors leave the tree unchanged -/

theorem insertLoop_noerr (seq : CallSequence C) (t : CallTree C T) (key : Nat) (value : T)
    (cursor : Option Int) (pred : Option (Nat × Nat))
    (hnc : pred.isSome = true ∨ cursor = none) :
    (insertLoop hashC t key value seq cursor pred).2 = none := by
  cases hnext : CallSequence.next seq with
  | none => rw [insertLoop_stop hashC t key value seq cursor pred hnc hnext]
  | some pr' =>
      obtain ⟨pr, seq'⟩ := pr'
      rw [insertLoop_build hashC t key value seq cursor pred pr seq' hnc hnext]
      exact insertLoop_noerr seq' _ key value _ _ (Or.inl rfl)
termination_by seq.pend
decreasing_by exact CallSequence.next_pend_lt hnext

/-- The phase-1 loop is described by `walk`: reaching a leaf yields
`AlreadyExists`, a failed extract yields `MissingCall`, and divergence
hands over to the (never-failing) build phase. -/
theorem insertLoop_walk (seq : CallSequence C) (t : CallTree C T) (key : Nat) (value : T)
    (pos : Int) :
    (∃ pos' s', walk hashC t pos seq = .reachedLeaf pos' s' ∧
        insertLoop hashC t key value seq (some pos) none = (t, some .alreadyExists)) ∨
    (∃ id s', walk hashC t pos seq = .missing id s' ∧
        insertLoop hashC t key value seq (some pos) none = (t, some .missingCall)) ∨
    (∃ id ret pos' s', walk hashC t pos seq = .diverge id ret pos' s' ∧
        insertLoop hashC t key value seq (some pos) none =
          insertLoop hashC t key value s' (some pos') (some (id, ret))) := by
  cases hk : nodeKind pos with
  | leafK lid =>
      exact Or.inl ⟨pos, seq, walk_leaf hashC t pos seq lid hk,
        insertLoop_leaf hashC t key value seq pos lid hk⟩
  | innerK id =>
      cases hg : t.inner.get id with
      | none =>
          exact Or.inr (Or.inl ⟨id, seq, walk_absent hashC t pos seq id hk hg,
            insertLoop_absent hashC t key value seq pos id hk hg⟩)
      | some node =>
          cases hext : CallSequence.extract hashC seq node.call with
          | mk o s₂ =>
              cases o with
              | none =>
                  exact Or.inr (Or.inl ⟨id, s₂,
                    walk_noExtract hashC t pos seq id node s₂ hk hg hext,
                    insertLoop_noExtract hashC t key value seq pos id node s₂ hk hg hext⟩)
              | some ret =>
                  cases hedge : mlookup t.edges (id, ret) with
                  | some next =>
                      rw [walk_follow hashC t pos seq id node ret s₂ next hk hg hext hedge,
                        insertLoop_follow hashC t key value seq pos id node ret s₂ next
                          hk hg hext hedge]
                      exact insertLoop_walk s₂ t key value next
                  | none =>
                      exact Or.inr (Or.inr ⟨id, ret, pos, s₂,
                        walk_diverge hashC t pos seq id node ret s₂ hk hg hext hedge,
                        insertLoop_diverge hashC t key value seq pos id node ret s₂
                          hk hg hext hedge⟩)
termination_by seq.pend
decreasing_by exact CallSequence.extract_pend_lt hashC hext

/-- `insert` fails with `MissingCall` exactly when the existing-path walk
fails to extract an inner node's call. -/
theorem insertTree_missing_iff (t : CallTree C T) (key : Nat) (seq : CallSequence C)
    (value : T) :
    (t.insertTree hashC key seq value).2 = some .missingCall ↔
      ∃ root, mlookup t.start key = some root ∧
        (walk hashC t root seq).isMissing = true := by
  unfold insertTree
  cases hs : mlookup t.start key with
  | none =>
      rw [insertLoop_noerr hashC seq t key value none none (Or.inr rfl)]
      simp
  | some root =>
      rcases insertLoop_walk hashC seq t key value root with
        ⟨p', s', hw, hr⟩ | ⟨id, s', hw, hr⟩ | ⟨id, ret, p', s', hw, hr⟩
      · rw [hr]
        simp [hw, WalkOutcome.isMissing]
      · rw [hr]
        simp [hw, WalkOutcome.isMissing]
      · rw [hr, insertLoop_noerr hashC s' t key value (some p') (some (id, ret)) (Or.inl rfl)]
        simp [hw, WalkOutcome.isMissing]

/-- `insert` fails with `AlreadyExists` exactly when the existing-path walk
reaches a leaf. -/
theorem insertTree_already_iff (t : CallTree C T) (key : Nat) (seq : CallSequence C)
    (value : T) :
    (t.insertTree hashC key seq value).2 = some .alreadyExists ↔
      ∃ root, mlookup t.start key = some root ∧
        (walk hashC t root seq).isReachedLeaf = true := by
  unfold insertTree
  cases hs : mlookup t.start key with
  | none =>
      rw [insertLoop_noerr hashC seq t key value none none (Or.inr rfl)]
      simp
  | some root =>
      rcases insertLoop_walk hashC seq t key value root with
        ⟨p', s', hw, hr⟩ | ⟨id, s', hw, hr⟩ | ⟨id, ret, p', s', hw, hr⟩
      · rw [hr]
        simp [hw, WalkOutcome.isReachedLeaf]
      · rw [hr]
        simp [hw, WalkOutcome.isReachedLeaf]
      · rw [hr, insertLoop_noerr hashC s' t key value (some p') (some (id, ret)) (Or.inl rfl)]
        simp [hw, WalkOutcome.isReachedLeaf]

/-- Any insertion error leaves the tree untouched: both error returns happen
before any node is allocated or linked. -/
theorem insertTree_error_unchanged (t : CallTree C T) (key : Nat) (seq : CallSequence C)
    (value : T) (e : InsertError)
    (h : (t.insertTree hashC key seq value).2 = some e) :
    (t.insertTree hashC key seq value).1 = t := by
  unfold insertTree at h ⊢
  cases hs : mlookup t.start key with
  | none =>
      rw [hs] at h
      rw [insertLoop_noerr hashC seq t key value none none (Or.inr rfl)] at h
      cases h
  | some root =>
      rw [hs] at h
      rcases insertLoop_walk hashC seq t key value root with
        ⟨p', s', hw, hr⟩ | ⟨id, s', hw, hr⟩ | ⟨id, ret, p', s', hw, hr⟩
      · rw [hr]
      · rw [hr]
      · rw [hr] at h
        rw [insertLoop_noerr hashC s' t key value (some p') (some (id, ret)) (Or.inl rfl)] at h
        cases h

end CallTree

/-! ### Concrete evaluation facts for the witnesses -/

theorem exSeq1_next : CallSequence.next exSeq1 = some ((5, 1), ⟨[none], [(5, 0)], 0⟩) := by
  rw [CallSequence.next.eq_def]
  decide

theorem exSeq1_next2 :
    CallSequence.next (⟨[none], [(5, 0)], 0⟩ : CallSequence Nat) = none := by
  rw [CallSequence.next.eq_def]
  simp only []
  rw [CallSequence.next.eq_def]
  decide

theorem exIns1_eq : exIns1 = (exTree1, none) := by
  unfold exIns1 CallTree.insertTree
  have h0 : mlookup (CallTree.empty : CallTree Nat Nat).start 7 = none := rfl
  rw [h0]
  rw [CallTree.insertLoop_build hashN _ 7 42 exSeq1 none none (5, 1)
    (⟨[none], [(5, 0)], 0⟩ : CallSequence Nat) (Or.inr rfl) exSeq1_next]
  show CallTree.insertLoop hashN
      ⟨⟨[(0, ⟨5, 0, none⟩)], 1⟩, ⟨[], 0⟩, [(7, NodeId.innerId 0)], []⟩ 7 42
      (⟨[none], [(5, 0)], 0⟩ : CallSequence Nat)
      (some (NodeId.innerId 0)) (some (0, 1)) = (exTree1, none)
  rw [CallTree.insertLoop_stop hashN _ 7 42 _ (some (NodeId.innerId 0)) (some (0, 1))
    (Or.inl rfl) exSeq1_next2]
  decide

/-- Walking `exSeq1` again over `exTree1` reaches the existing leaf. -/
theorem exWalk_already :
    CallTree.walk hashN exTree1 (NodeId.innerId 0) exSeq1 =
      .reachedLeaf (NodeId.leafId 0) ⟨[none], [(5, 0)], 0⟩ := by
  rw [CallTree.walk_follow hashN exTree1 (NodeId.innerId 0) exSeq1 0 ⟨5, 1, none⟩ 1
    (⟨[none], [(5, 0)], 0⟩ : CallSequence Nat) (NodeId.leafId 0)
    (by decide) (by decide) (by decide) (by decide)]
  exact CallTree.walk_leaf hashN exTree1 _ _ 0 (by decide)

/-- Walking a sequence missing call `5` over `exTree1` fails to extract. -/
theorem exWalk_missing :
    CallTree.walk hashN exTree1 (NodeId.innerId 0) (CallSequence.fromList hashN [(6, 2)]) =
      .missing 0 (CallSequence.fromList hashN [(6, 2)]) := by
  exact CallTree.walk_noExtract hashN exTree1 (NodeId.innerId 0) _ 0 ⟨5, 1, none⟩ _
    (by decide) (by decide) (by decide)

/-- The same two walk facts over the cache-entry-typed tree. -/
theorem exWalkCache_already :
    CallTree.walk hashN exCacheTree (NodeId.innerId 0) exSeq1 =
      .reachedLeaf (NodeId.leafId 0) ⟨[none], [(5, 0)], 0⟩ := by
  rw [CallTree.walk_follow hashN exCacheTree (NodeId.innerId 0) exSeq1 0 ⟨5, 1, none⟩ 1
    (⟨[none], [(5, 0)], 0⟩ : CallSequence Nat) (NodeId.leafId 0)
    (by decide) (by decide) (by decide) (by decide)]
  exact CallTree.walk_leaf hashN exCacheTree _ _ 0 (by decide)

theorem exWalkCache_missing :
    CallTree.walk hashN exCacheTree (NodeId.innerId 0) (CallSequence.fromList hashN [(6, 2)]) =
      .missing 0 (CallSequence.fromList hashN [(6, 2)]) := by
  exact CallTree.walk_noExtract hashN exCacheTree (NodeId.innerId 0) _ 0 ⟨5, 1, none⟩ _
    (by decide) (by decide) (by decide)

/-- An insertion-error result does not modify the cache tree. -/
theorem insertData_error_unchanged {C Out : Type} (hashC : C → Nat) (cd : CacheData C Out)
    (key : Nat) (imm : CallSequence C) (muts : List C) (output : Out) (e : InsertError)
    (h : (CacheData.insertData hashC cd key imm muts output).2 = some e) :
    (CacheData.insertData hashC cd key imm muts output).1 = cd := by
  unfold CacheData.insertData at h ⊢
  simp only at h ⊢
  have := CallTree.insertTree_error_unchanged hashC cd.tree key imm ⟨output, muts, 0⟩ e h
  rw [this]

/-! ### Claim C10: insert-error atomicity -/

/-- C10.  Whenever `CallTree::insert` returns an error (`AlreadyExists` or
`MissingCall`), the tree itself is left unchanged: no inner nodes, leaf
nodes, edges, or start entries are added or removed.  (Only the consumed
`CallSequence` argument may have been mutated; in the model the sequence is
a consumed value, so this is immediate.) -/
theorem c10_insert_error_atomic {C T : Type} (hashC : C → Nat) (t : CallTree C T)
    (key : Nat) (seq : CallSequence C) (value : T) (e : InsertError)
    (h : (t.insertTree hashC key seq value).2 = some e) :
    (t.insertTree hashC key seq value).1 = t :=
  CallTree.insertTree_error_unchanged hashC t key seq value e h

theorem c10_witness :
    (exTree1.insertTree hashN 7 exSeq1 99).2 = some InsertError.alreadyExists ∧
    (exTree1.insertTree hashN 7 exSeq1 99).1 = exTree1 := by
  have herr : (exTree1.insertTree hashN 7 exSeq1 99).2 = some InsertError.alreadyExists := by
    apply (CallTree.insertTree_already_iff hashN exTree1 7 exSeq1 99).mpr
    exact ⟨NodeId.innerId 0, by decide, by rw [exWalk_already]; rfl⟩
  exact ⟨herr, c10_insert_error_atomic hashN exTree1 7 exSeq1 99 InsertError.alreadyExists herr⟩

/-! ### Claim C3: `MissingCall` semantics -/

/-- C3.  `CallTree::insert` returns `MissingCall` exactly when, while the
traversal is still on an existing path, extracting the current inner node's
call from the new sequence fails (the existing-path walk ends in
`missing`); when `memoize` receives `MissingCall` it panics in debug builds
(modelled as `none`), and in release builds the output is not inserted into
the tree (the cache is returned unchanged) and the call is registered as a
miss. -/
theorem c3_missing_call {C T Out : Type} (hashC : C → Nat) :
    (∀ (t : CallTree C T) (key : Nat) (seq : CallSequence C) (value : T),
      (t.insertTree hashC key seq value).2 = some .missingCall ↔
        ∃ root, mlookup t.start key = some root ∧
          (CallTree.walk hashC t root seq).isMissing = true) ∧
    (∀ (cd : CacheData C Out) (key : Nat) (oracle : C → Nat) (imm : CallSequence C)
        (muts : List C) (output : Out),
      CacheData.lookup cd key oracle = none →
      (CacheData.insertData hashC cd key imm muts output).2 = some .missingCall →
      memoize hashC true true cd key oracle imm muts output = none ∧
      memoize hashC false true cd key oracle imm muts output = some (output, .miss, cd)) := by
  constructor
  · intro t key seq value
    exact CallTree.insertTree_missing_iff hashC t key seq value
  · intro cd key oracle imm muts output hlook hins
    have hunch := insertData_error_unchanged hashC cd key imm muts output .missingCall hins
    constructor
    · simp [memoize, hlook, hins]
    · simp [memoize, hlook, hins, hunch]

theorem c3_witness :
    (exTree1.insertTree hashN 7 (CallSequence.fromList hashN [(6, 2)]) 99).2 =
      some InsertError.missingCall ∧
    memoize hashN true true exCache 7 (fun _ => 0)
      (CallSequence.fromList hashN [(6, 2)]) [] 99 = none := by
  constructor
  · apply ((@c3_missing_call Nat Nat Nat hashN).1 exTree1 7
      (CallSequence.fromList hashN [(6, 2)]) 99).mpr
    exact ⟨NodeId.innerId 0, by decide, by rw [exWalk_missing]; rfl⟩
  · have hins : (CacheData.insertData hashN exCache 7
        (CallSequence.fromList hashN [(6, 2)]) [] 99).2 = some .missingCall := by
      have hins2 := ((@c3_missing_call Nat (CacheEntry Nat Nat) Nat hashN).1
        exCacheTree 7 (CallSequence.fromList hashN [(6, 2)])
        (⟨99, [], 0⟩ : CacheEntry Nat Nat)).mpr
        ⟨NodeId.innerId 0, by decide, by rw [exWalkCache_missing]; rfl⟩
      unfold CacheData.insertData
      simpa using hins2
    exact ((@c3_missing_call Nat (CacheEntry Nat Nat) Nat hashN).2 exCache 7
      (fun _ => 0) (CallSequence.fromList hashN [(6, 2)]) [] 99 (by decide) hins).1

/-! ### Claim C4: `AlreadyExists` semantics -/

/-- C4.  `CallTree::insert` fails with `AlreadyExists` exactly when the
traversal driven by the new sequence reaches an existing leaf (whether
calls remain in the sequence or the sequence and the tree end
simultaneously, both of which are the walk ending in `reachedLeaf`); the
`memoize` entry point swallows this error without panicking, in both debug
and release builds. -/
theorem c4_already_exists {C T Out : Type} (hashC : C → Nat) :
    (∀ (t : CallTree C T) (key : Nat) (seq : CallSequence C) (value : T),
      (t.insertTree hashC key seq value).2 = some .alreadyExists ↔
        ∃ root, mlookup t.start key = some root ∧
          (CallTree.walk hashC t root seq).isReachedLeaf = true) ∧
    (∀ (cd : CacheData C Out) (key : Nat) (oracle : C → Nat) (imm : CallSequence C)
        (muts : List C) (output : Out) (debug : Bool),
      CacheData.lookup cd key oracle = none →
      (CacheData.insertData hashC cd key imm muts output).2 = some .alreadyExists →
      memoize hashC debug true cd key oracle imm muts output =
        some (output, .miss, cd)) := by
  constructor
  · intro t key seq value
    exact CallTree.insertTree_already_iff hashC t key seq value
  · intro cd key oracle imm muts output debug hlook hins
    have hunch := insertData_error_unchanged hashC cd key imm muts output .alreadyExists hins
    simp [memoize, hlook, hins, hunch]

theorem c4_witness :
    (exTree1.insertTree hashN 7 exSeq1 99).2 = some InsertError.alreadyExists ∧
    memoize hashN true true exCache 7 (fun _ => 0) exSeq1 [] 99 =
      some (99, MemoOutcome.miss, exCache) := by
  constructor
  · apply ((@c4_already_exists Nat Nat Nat hashN).1 exTree1 7 exSeq1 99).mpr
    exact ⟨NodeId.innerId 0, by decide, by rw [exWalk_already]; rfl⟩
  · have hins : (CacheData.insertData hashN exCache 7 exSeq1 [] 99).2 =
        some .alreadyExists := by
      have hins2 := ((@c4_already_exists Nat (CacheEntry Nat Nat) Nat hashN).1
        exCacheTree 7 exSeq1 (⟨99, [], 0⟩ : CacheEntry Nat Nat)).mpr
        ⟨NodeId.innerId 0, by decide, by rw [exWalkCache_already]; rfl⟩
      unfold CacheData.insertData
      simpa using hins2
    exact (@c4_already_exists Nat (CacheEntry Nat Nat) Nat hashN).2 exCache 7
      (fun _ => 0) exSeq1 [] 99 true (by decide) hins

/-! ### Claim C5: deduplicated insertion -/

/-- C5.  `CallSequence::insert(call, result_hash)` appends the pair (and
indexes it) and returns `true` when `hash(call)` is not yet indexed, and
returns `false` without changing the sequence when it is; the debug-build
impurity panic fires exactly when the indexed slot still holds a pending
entry whose result hash differs; and the sink `Constraint::emit` obeys the
same accept-once contract, returning `false` for an already-deduplicated
call. -/
theorem c5_dedup_insert {C : Type} (hashC : C → Nat) (s : CallSequence C) (call : C)
    (ret : Nat) :
    (mlookup s.map (hashC call) = none →
      CallSequence.insert hashC s call ret =
        (true, ⟨s.vec ++ [some (call, ret)], mput s.map (hashC call) s.vec.length,
          s.cursor⟩)) ∧
    ((mlookup s.map (hashC call)).isSome = true →
      CallSequence.insert hashC s call ret = (false, s)) ∧
    (CallSequence.insertImpure hashC s call ret = true ↔
      ∃ i c₀ r₀, mlookup s.map (hashC call) = some i ∧
        s.vec.getD i none = some (c₀, r₀) ∧ ret ≠ r₀) ∧
    (∀ con : Constraint C,
      (hashC call ∈ con.seen → Constraint.emit hashC con call ret = (false, con)) ∧
      (hashC call ∉ con.seen →
        Constraint.emit hashC con call ret =
          (true, ⟨con.vec ++ [(call, ret)], hashC call :: con.seen⟩))) := by
  refine ⟨?_, ?_, ?_, ?_⟩
  · intro h
    simp [CallSequence.insert, h]
  · intro h
    rcases Option.isSome_iff_exists.mp h with ⟨i, hi⟩
    simp [CallSequence.insert, hi]
  · unfold CallSequence.insertImpure
    cases hmap : mlookup s.map (hashC call) with
    | none => simp
    | some i =>
        cases hv : s.vec.getD i none with
        | none =>
            simp only [hv, Bool.false_eq_true, false_iff]
            rintro ⟨i', c₁, r₁, hi', hv2, hne⟩
            cases hi'
            rw [hv] at hv2
            cases hv2
        | some pr =>
            obtain ⟨c₀, r₀⟩ := pr
            simp only [hv, bne_iff_ne, ne_eq]
            constructor
            · intro hne
              exact ⟨i, c₀, r₀, rfl, hv, hne⟩
            · rintro ⟨i', c₁, r₁, hi', hv2, hne⟩
              cases hi'
              rw [hv] at hv2
              cases hv2
              exact hne
  · intro con
    constructor
    · intro h
      simp [Constraint.emit, h]
    · intro h
      simp [Constraint.emit, h]

theorem c5_witness :
    CallSequence.insert hashN (⟨[some (5, 1)], [(5, 0)], 0⟩ : CallSequence Nat) 5 9 =
      (false, ⟨[some (5, 1)], [(5, 0)], 0⟩) ∧
    CallSequence.insertImpure hashN (⟨[some (5, 1)], [(5, 0)], 0⟩ : CallSequence Nat) 5 9 =
      true ∧
    Constraint.emit hashN (⟨[(5, 1)], [5]⟩ : Constraint Nat) 5 9 =
      (false, ⟨[(5, 1)], [5]⟩) ∧
    Constraint.emit hashN (⟨[], []⟩ : Constraint Nat) 5 1 = (true, ⟨[(5, 1)], [5]⟩) := by
  refine ⟨?_, ?_, ?_, ?_⟩
  · exact (c5_dedup_insert hashN ⟨[some (5, 1)], [(5, 0)], 0⟩ 5 9).2.1 (by decide)
  · exact (c5_dedup_insert hashN ⟨[some (5, 1)], [(5, 0)], 0⟩ 5 9).2.2.1.mpr
      ⟨0, 5, 1, by decide, by decide, by decide⟩
  · exact ((c5_dedup_insert hashN ⟨[some (5, 1)], [(5, 0)], 0⟩ 5 9).2.2.2
      ⟨[(5, 1)], [5]⟩).1 (by decide)
  · exact ((c5_dedup_insert hashN ⟨[some (5, 1)], [(5, 0)], 0⟩ 5 1).2.2.2 ⟨[], []⟩).2
      (by decide)

/-! ### Claim C9: merged-sink composition -/

/-- C9.  A merged sink's `emit(call, result_hash)` first emits the pair to
the current (inner) sink — whose state is always updated — and forwards the
pair to the previous (outer) sink if and only if the current sink accepted
it; when the current sink (e.g. a deduplicating `Constraint`) rejects the
call, the outer sink's state is untouched. -/
theorem c9_merged_sink {σ₁ σ₂ C : Type} :
    (∀ (cur : SinkFn σ₁ C) (p : SinkFn σ₂ C) (st : σ₁ × σ₂) (call : C) (ret : Nat),
      (trackedEmit cur (some p) st call ret).2.1 = (cur.emit st.1 call ret).2 ∧
      (trackedEmit cur (some p) st call ret).2.2 =
        (if (cur.emit st.1 call ret).1 then (p.emit st.2 call ret).2 else st.2)) ∧
    (∀ (hashC : C → Nat) (con : Constraint C) (p : SinkFn σ₂ C) (s₂ : σ₂) (call : C)
        (ret : Nat), hashC call ∈ con.seen →
      trackedEmit (constraintSink hashC) (some p) (con, s₂) call ret =
        (true, (con, s₂))) := by
  constructor
  · intro cur p st call ret
    cases hb : (cur.emit st.1 call ret).1 <;>
      simp [trackedEmit, hb]
  · intro hashC con p s₂ call ret hmem
    simp [trackedEmit, constraintSink, Constraint.emit, hmem]

theorem c9_witness :
    trackedEmit (constraintSink hashN) (some (constraintSink hashN))
      ((⟨[(5, 1)], [5]⟩ : Constraint Nat), (⟨[], []⟩ : Constraint Nat)) 5 1 =
      (true, (⟨[(5, 1)], [5]⟩, ⟨[], []⟩)) :=
  (@c9_merged_sink (Constraint Nat) (Constraint Nat) Nat).2 hashN ⟨[(5, 1)], [5]⟩
    (constraintSink hashN) ⟨[], []⟩ 5 1 (by decide)

/-! ### Claim C8: accelerator eviction invalidates old ids -/

namespace AccelState

theorem get_idCtr (s : AccelState) (id : Nat) : (s.get id).2.idCtr = s.idCtr := by
  unfold get resize
  split
  · rfl
  · simp only
    repeat' split
    all_goals rfl

theorem get_offset (s : AccelState) (id : Nat) : (s.get id).2.offset = s.offset := by
  unfold get resize
  split
  · rfl
  · simp only
    repeat' split
    all_goals rfl

theorem step_idCtr_mono (s : AccelState) (op : Op) : s.idCtr ≤ (s.step op).idCtr := by
  cases op with
  | mint => simp [step, mintId]
  | evictOp => simp [step, evict]
  | probe id => rw [step, get_idCtr]

theorem step_offset_mono (s : AccelState) (op : Op) (hg : s.offset ≤ s.idCtr) :
    s.offset ≤ (s.step op).offset := by
  cases op with
  | mint => simp [step, mintId]
  | evictOp => simpa [step, evict] using hg
  | probe id => rw [step, get_offset]

theorem step_good (s : AccelState) (op : Op) (hg : s.offset ≤ s.idCtr) :
    (s.step op).offset ≤ (s.step op).idCtr := by
  cases op with
  | mint =>
      simp only [step, mintId]
      omega
  | evictOp => simp [step, evict]
  | probe id =>
      rw [step, get_offset, get_idCtr]
      exact hg

theorem run_offset_mono (s : AccelState) (ops : List Op) (hg : s.offset ≤ s.idCtr) :
    s.offset ≤ (run s ops).offset ∧ (run s ops).offset ≤ (run s ops).idCtr := by
  induction ops generalizing s with
  | nil => exact ⟨le_refl _, hg⟩
  | cons op ops ih =>
      have h1 := step_offset_mono s op hg
      have h2 := step_good s op hg
      have h3 := ih (s.step op) h2
      exact ⟨le_trans h1 h3.1, h3.2⟩

theorem run_idCtr_mono (s : AccelState) (ops : List Op) : s.idCtr ≤ (run s ops).idCtr := by
  induction ops generalizing s with
  | nil => exact le_refl _
  | cons op ops ih => exact le_trans (step_idCtr_mono s op) (ih (s.step op))

end AccelState

/-- C8.  `accelerate::id` returns strictly increasing values, so no
previously issued instance id is ever issued again; `accelerate::evict`
preserves the id counter (only the maps are cleared) and bumps the offset
to the counter, so that after eviction — and after any further operations —
`accelerate::get(id)` returns `none` for every id issued before the
eviction. -/
theorem c8_accelerator :
    (∀ s : AccelState, s.mintId.1 = s.idCtr ∧ s.mintId.2.idCtr = s.idCtr + 1) ∧
    (∀ (s : AccelState) (ops : List AccelState.Op),
      (AccelState.run s.mintId.2 ops).mintId.1 > s.mintId.1) ∧
    (∀ s : AccelState, s.evict.idCtr = s.idCtr ∧ s.evict.offset = s.idCtr ∧
      s.evict.vec.length = s.vec.length) ∧
    (∀ (s : AccelState) (id : Nat), id < s.offset → AccelState.get s id = (none, s)) ∧
    (∀ (s : AccelState) (ops : List AccelState.Op) (id : Nat),
      s.offset ≤ s.idCtr → id < s.idCtr →
      (AccelState.get (AccelState.run s.evict ops) id).1 = none) := by
  refine ⟨?_, ?_, ?_, ?_, ?_⟩
  · intro s
    exact ⟨rfl, rfl⟩
  · intro s ops
    have := AccelState.run_idCtr_mono s.mintId.2 ops
    simp only [AccelState.mintId] at this ⊢
    omega
  · intro s
    exact ⟨rfl, rfl, by simp [AccelState.evict]⟩
  · intro s id h
    unfold AccelState.get
    rw [if_pos h]
  · intro s ops id hg hid
    have hoff : s.idCtr ≤ (AccelState.run s.evict ops).offset := by
      have := AccelState.run_offset_mono s.evict ops (by simp [AccelState.evict])
      simpa [AccelState.evict] using this.1
    unfold AccelState.get
    rw [if_pos (by omega)]

theorem c8_witness :
    (⟨3, 1, [[], []]⟩ : AccelState).mintId.1 = 3 ∧
    (AccelState.run (⟨3, 1, [[], []]⟩ : AccelState).mintId.2
      [AccelState.Op.evictOp, AccelState.Op.mint]).mintId.1 > 3 ∧
    (AccelState.get (AccelState.run (⟨3, 1, [[], []]⟩ : AccelState).evict
      [AccelState.Op.mint, AccelState.Op.probe 9]) 2).1 = none := by
  refine ⟨(c8_accelerator.1 ⟨3, 1, [[], []]⟩).1, ?_, ?_⟩
  · have := c8_accelerator.2.1 ⟨3, 1, [[], []]⟩ [AccelState.Op.evictOp, AccelState.Op.mint]
    simpa using this
  · exact c8_accelerator.2.2.2.2 ⟨3, 1, [[], []]⟩ [AccelState.Op.mint, AccelState.Op.probe 9]
      2 (by decide) (by decide)

/-! ### Transfer of the decidable invariant check -/

theorem mlookup_eq_of_mem_nodup {κ ν : Type} [DecidableEq κ] {m : List (κ × ν)} {k : κ}
    {v : ν} (hn : (m.map Prod.fst).Nodup) (hm : (k, v) ∈ m) : mlookup m k = some v := by
  induction m with
  | nil => cases hm
  | cons a m ih =>
      obtain ⟨ka, va⟩ := a
      simp only [List.map_cons, List.nodup_cons] at hn
      rcases List.mem_cons.mp hm with he | hm'
      · cases he
        simp
      · have hka : ka ≠ k := by
          intro he
          subst he
          exact hn.1 (List.mem_map.mpr ⟨(ka, v), hm', rfl⟩)
        rw [mlookup_cons, if_neg hka]
        exact ih hn.2 hm'

namespace CallTree

variable {C T : Type}

theorem WF_of_dec [DecidableEq C] [DecidableEq T] {t : CallTree C T}
    (h : WFdec t = true) : WF t := by
  unfold WFdec at h
  simp only [Bool.and_eq_true] at h
  obtain ⟨⟨⟨⟨⟨⟨⟨⟨⟨⟨⟨⟨⟨⟨⟨⟨⟨⟨⟨h1, h2⟩, h3⟩, h4⟩, h5⟩, h6⟩, h7⟩, h8⟩, h9⟩, h10⟩, h11⟩,
    h12⟩, h13⟩, h14⟩, h15⟩, h16⟩, h17⟩, h18⟩, h19⟩, h20⟩ := h
  rw [List.all_eq_true] at h3 h4 h7 h8 h9 h10 h11 h12 h13 h14 h15 h16 h17 h18 h20
  rw [decide_eq_true_eq] at h2 h6 h19
  refine ⟨by simpa using h1, by simpa using h2, ?_, ?_, by simpa using h5,
    by simpa using h6, ?_, ?_, ?_, ?_, ?_, ?_, ?_, ?_, ?_, ?_, ?_, ?_, ?_, ?_, ?_, ?_⟩
  · intro e he
    simpa using h3 e he
  · intro e he
    simpa using h4 e he
  · intro k n hk
    simpa using h7 (k, n) (mlookup_eq_some_mem hk)
  · intro pr n hp
    simpa using h8 (pr, n) (mlookup_eq_some_mem hp)
  · intro pr n hp
    simpa using h9 (pr, n) (mlookup_eq_some_mem hp)
  · intro pr j hp
    have := h10 (pr, NodeId.innerId j) (mlookup_eq_some_mem hp)
    simpa using this
  · intro id n hid p hp
    have := h11 (id, n) (mlookup_eq_some_mem hid)
    simp only [hp] at this
    simpa using this
  · intro id n hid
    simpa using h12 (id, n) (mlookup_eq_some_mem hid)
  · intro pr j hp
    have := h13 (pr, NodeId.innerId j) (mlookup_eq_some_mem hp)
    simp only [nodeKind_innerId] at this
    cases hg : t.inner.get j with
    | none => rw [hg] at this; cases this
    | some n =>
        rw [hg] at this
        exact ⟨n, rfl, by simpa using this⟩
  · intro pr j hp
    have := h13 (pr, NodeId.leafId j) (mlookup_eq_some_mem hp)
    simp only [nodeKind_leafId] at this
    cases hg : t.leaves.get j with
    | none => rw [hg] at this; cases this
    | some lf =>
        rw [hg] at this
        exact ⟨lf, rfl, by simpa using this⟩
  · intro j n p hj hp
    have := h14 (j, n) (mlookup_eq_some_mem hj)
    simp only [hp] at this
    rw [List.any_eq_true] at this
    obtain ⟨ed, hed, hprop⟩ := this
    simp only [Bool.and_eq_true, decide_eq_true_eq] at hprop
    refine ⟨ed.1.2, ?_⟩
    have : ed = ((p, ed.1.2), NodeId.innerId j) := by
      obtain ⟨⟨a, b⟩, c⟩ := ed
      simp only at hprop
      simp [hprop.1, hprop.2]
    rw [this] at hed
    exact mlookup_eq_of_mem_nodup h6 hed
  · intro j lf p hj hp
    have := h15 (j, lf) (mlookup_eq_some_mem hj)
    simp only [hp] at this
    rw [List.any_eq_true] at this
    obtain ⟨ed, hed, hprop⟩ := this
    simp only [Bool.and_eq_true, decide_eq_true_eq] at hprop
    refine ⟨ed.1.2, ?_⟩
    have : ed = ((p, ed.1.2), NodeId.leafId j) := by
      obtain ⟨⟨a, b⟩, c⟩ := ed
      simp only at hprop
      simp [hprop.1, hprop.2]
    rw [this] at hed
    exact mlookup_eq_of_mem_nodup h6 hed
  · intro j n p hj hp
    have := h16 (j, n) (mlookup_eq_some_mem hj)
    simpa [hp] using this
  · intro j lf p hj hp
    have := h17 (j, lf) (mlookup_eq_some_mem hj)
    simpa [hp] using this
  · intro k j nd hk hj
    have := h18 (k, NodeId.innerId j) (mlookup_eq_some_mem hk)
    simp only [nodeKind_innerId] at this
    rw [hj] at this
    simpa using this
  · intro k j lf hk hj
    have := h18 (k, NodeId.leafId j) (mlookup_eq_some_mem hk)
    simp only [nodeKind_leafId] at this
    rw [hj] at this
    simpa using this
  · intro pr₁ pr₂ n hp1 hp2
    have hm1 := mlookup_eq_some_mem hp1
    have hm2 := mlookup_eq_some_mem hp2
    have := List.inj_on_of_nodup_map h19 hm1 hm2 rfl
    exact congrArg Prod.fst this
  · intro id nd hid
    have := h20 (id, nd) (mlookup_eq_some_mem hid)
    rw [List.any_eq_true] at this
    obtain ⟨lf, hlf, hprop⟩ := this
    exact ⟨lf.1, lf.2, mlookup_eq_of_mem_nodup h2 (by simpa using hlf),
      by simpa using hprop⟩

end CallTree

/-! ### Support lemmas for reachability and tree extension -/

theorem mlookup_append_left {κ ν : Type} [DecidableEq κ] {m : List (κ × ν)} {k : κ} {v : ν}
    (h : mlookup m k = some v) (l : List (κ × ν)) : mlookup (m ++ l) k = some v := by
  rw [mlookup_append, h]
  rfl

theorem mlookup_src_bound_none {ν : Type} {m : List ((Nat × Nat) × ν)} {j : Nat}
    (hb : ∀ e ∈ m, e.1.1 < j) (r : Nat) : mlookup m (j, r) = none := by
  unfold mlookup
  cases hf : m.find? (fun p => p.1 = (j, r)) with
  | none => rfl
  | some p =>
      have hmem := List.mem_of_find?_eq_some hf
      have hp : p.1 = (j, r) := by simpa using List.find?_some hf
      have := hb p hmem
      rw [hp] at this
      omega

namespace Slab

variable {α : Type}

theorem mlookup_modify_self {ν : Type} {m : List (Nat × ν)} {j : Nat} {a : ν} (f : ν → ν)
    (h : mlookup m j = some a) :
    mlookup (m.map (fun p => if p.1 = j then (j, f p.2) else p)) j = some (f a) := by
  induction m with
  | nil => simp at h
  | cons e m ih =>
      obtain ⟨ke, ve⟩ := e
      by_cases hk : ke = j
      · subst hk
        simp only [mlookup_cons, if_pos rfl] at h
        cases h
        simp
      · simp only [mlookup_cons, if_neg hk] at h
        simpa [hk] using ih h

theorem mlookup_modify_ne {ν : Type} (m : List (Nat × ν)) {i j : Nat} (f : ν → ν)
    (hij : i ≠ j) :
    mlookup (m.map (fun p => if p.1 = j then (j, f p.2) else p)) i = mlookup m i := by
  induction m with
  | nil => simp
  | cons e m ih =>
      obtain ⟨ke, ve⟩ := e
      simp only [List.map_cons]
      by_cases hk : ke = j
      · have hji : ¬(j = i) := fun h => hij h.symm
        simpa [hk, hji] using ih
      · simp only [if_neg hk, mlookup_cons]
        by_cases hk2 : ke = i
        · simp [hk2]
        · simp only [if_neg hk2]
          exact ih

theorem modify_get_self {s : Slab α} {j : Nat} {a : α} (f : α → α) (h : s.get j = some a) :
    (s.modify j f).get j = some (f a) :=
  mlookup_modify_self f h

theorem modify_get_ne {s : Slab α} {i j : Nat} (f : α → α) (hij : i ≠ j) :
    (s.modify j f).get i = s.get i :=
  mlookup_modify_ne s.entries f hij

theorem alloc_get_new {s : Slab α} (a : α) (hb : ∀ e ∈ s.entries, e.1 < s.fresh) :
    (s.alloc a).2.get s.fresh = some a := by
  unfold alloc get
  simp only
  rw [mlookup_append]
  have : mlookup s.entries s.fresh = none := by
    unfold mlookup
    cases hf : s.entries.find? (fun p => p.1 = s.fresh) with
    | none => rfl
    | some p =>
        have hmem := List.mem_of_find?_eq_some hf
        have hp : p.1 = s.fresh := by simpa using List.find?_some hf
        have := hb p hmem
        omega
  rw [this]
  simp [mlookup]

theorem alloc_get_old {s : Slab α} {i : Nat} {b : α} (a : α) (h : s.get i = some b) :
    (s.alloc a).2.get i = some b := by
  unfold get at h
  unfold alloc get
  simp only
  exact mlookup_append_left h _

theorem get_mem {s : Slab α} {i : Nat} {a : α} (h : s.get i = some a) :
    (i, a) ∈ s.entries := mlookup_eq_some_mem h

end Slab

theorem countP_lt_of_mem {α : Type} {l : List α} {p q : α → Bool} {a : α}
    (ha : a ∈ l) (hpa : p a = true) (hqa : q a = false)
    (himp : ∀ x, q x = true → p x = true) : l.countP q < l.countP p := by
  induction l with
  | nil => cases ha
  | cons b l ih =>
      rcases List.mem_cons.mp ha with he | hm
      · subst he
        have h1 : l.countP q ≤ l.countP p := List.countP_mono_left (fun x _ hx => himp x hx)
        simp [List.countP_cons, hpa, hqa]
        omega
      · have := ih hm
        have h2 : (if q b = true then 1 else 0) ≤ (if p b = true then 1 else 0) := by
          by_cases hq : q b = true
          · simp [hq, himp b hq]
          · simp [hq]
        simp only [List.countP_cons]
        by_cases hq : q b = true
        · simp [hq, himp b hq]
          omega
        · simp only [hq, if_false]
          by_cases hp : p b = true <;> simp [hp] <;> omega

namespace CallTree

variable {C T : Type}

theorem getAux_mono {t : CallTree C T} {oracle : C → Nat} :
    ∀ {fuel fuel' : Nat} {pos : Int} {x : Nat × T}, fuel ≤ fuel' →
      t.getAux oracle pos fuel = some x → t.getAux oracle pos fuel' = some x := by
  intro fuel
  induction fuel with
  | zero => intro fuel' pos x _ h; simp [getAux] at h
  | succ f ih =>
      intro fuel' pos x hle h
      obtain ⟨f', rfl⟩ : ∃ f', fuel' = f' + 1 := ⟨fuel' - 1, by omega⟩
      rw [getAux] at h ⊢
      cases hk : nodeKind pos with
      | leafK id => simp only [hk] at h ⊢; exact h
      | innerK id =>
          simp only [hk] at h ⊢
          cases hg : t.inner.get id with
          | none => simp only [hg] at h; cases h
          | some node =>
              simp only [hg] at h ⊢
              cases he : mlookup t.edges (id, oracle node.call) with
              | none => simp only [he] at h; cases h
              | some next =>
                  simp only [he] at h ⊢
                  exact ih (by omega) h

/-- A successful `getAux` yields a `ReachesLeaf` path. -/
theorem getAux_reaches {t : CallTree C T} {oracle : C → Nat} :
    ∀ {fuel : Nat} {pos : Int} {lid : Nat} {v : T},
      t.getAux oracle pos fuel = some (lid, v) →
      ReachesLeaf t oracle pos lid ∧ ∃ lf, t.leaves.get lid = some lf ∧ lf.value = v := by
  intro fuel
  induction fuel with
  | zero => intro pos lid v h; simp [getAux] at h
  | succ f ih =>
      intro pos lid v h
      rw [getAux] at h
      cases hk : nodeKind pos with
      | leafK id =>
          simp only [hk] at h
          cases hg : t.leaves.get id with
          | none => simp only [hg] at h; cases h
          | some lf =>
              simp only [hg] at h
              have hh : some (id, lf.value) = some (lid, v) := h
              injection hh with hh2
              injection hh2 with h1 h2
              subst h1
              exact ⟨ReachesLeaf.leafR pos _ lf hk hg, lf, hg, h2⟩
      | innerK id =>
          simp only [hk] at h
          cases hg : t.inner.get id with
          | none => simp only [hg] at h; cases h
          | some node =>
              simp only [hg] at h
              cases he : mlookup t.edges (id, oracle node.call) with
              | none => simp only [he] at h; cases h
              | some next =>
                  simp only [he] at h
                  obtain ⟨hr, hlf⟩ := ih h
                  exact ⟨ReachesLeaf.stepR pos id node next lid hk hg he hr, hlf⟩

/-- The fuel needed to follow a path from `pos`. -/
def fuelNeed (t : CallTree C T) (pos : Int) : Nat :=
  match nodeKind pos with
  | .leafK _ => 1
  | .innerK id => t.inner.entries.countP (fun e => id ≤ e.1) + 1

theorem reaches_getAux {t : CallTree C T} {oracle : C → Nat}
    (hinc : ∀ pr j, mlookup t.edges pr = some (NodeId.innerId j) → pr.1 < j)
    {pos : Int} {lid : Nat} (h : ReachesLeaf t oracle pos lid) :
    ∀ fuel, fuelNeed t pos ≤ fuel →
      ∃ lf, t.leaves.get lid = some lf ∧
        t.getAux oracle pos fuel = some (lid, lf.value) := by
  induction h with
  | leafR pos lid lf hk hg =>
      intro fuel hfuel
      simp only [fuelNeed, hk] at hfuel
      obtain ⟨f, rfl⟩ : ∃ f, fuel = f + 1 := ⟨fuel - 1, by omega⟩
      refine ⟨lf, hg, ?_⟩
      rw [getAux]
      simp only [hk, hg]
      rfl
  | stepR pos id node next lid hk hg he hr ih =>
      intro fuel hfuel
      simp only [fuelNeed, hk] at hfuel
      have hmem : (id, node) ∈ t.inner.entries := Slab.get_mem hg
      have hcount : 1 ≤ t.inner.entries.countP (fun e => id ≤ e.1) := by
        have : 0 < t.inner.entries.countP (fun e => id ≤ e.1) := by
          rw [List.countP_pos_iff]
          exact ⟨(id, node), hmem, by simp⟩
        omega
      obtain ⟨f, rfl⟩ : ∃ f, fuel = f + 1 := ⟨fuel - 1, by omega⟩
      have hneed : fuelNeed t next ≤ f := by
        cases hk' : nodeKind next with
        | leafK j => simp only [fuelNeed, hk']; omega
        | innerK j =>
            simp only [fuelNeed, hk']
            have hj : id < j := by
              apply hinc (id, oracle node.call) j
              have hnext : next = NodeId.innerId j := by
                rcases nodeKind_cases next with ⟨i, rfl⟩ | ⟨i, rfl⟩
                · rw [nodeKind_innerId] at hk'
                  cases hk'
                  rfl
                · rw [nodeKind_leafId] at hk'
                  cases hk'
              rw [← hnext]
              exact he
            have hlt : t.inner.entries.countP (fun e => j ≤ e.1) <
                t.inner.entries.countP (fun e => id ≤ e.1) :=
              countP_lt_of_mem hmem (by simp) (by simp; omega)
                (fun x hx => by simp at hx ⊢; omega)
            omega
      obtain ⟨lf, hlf, hget⟩ := ih f hneed
      refine ⟨lf, hlf, ?_⟩
      rw [getAux]
      simp only [hk, hg, he]
      exact hget

theorem reaches_getLeaf {t : CallTree C T} {oracle : C → Nat} {key : Nat} {root : Int}
    {lid : Nat}
    (hinc : ∀ pr j, mlookup t.edges pr = some (NodeId.innerId j) → pr.1 < j)
    (hs : mlookup t.start key = some root) (h : ReachesLeaf t oracle root lid) :
    ∃ lf, t.leaves.get lid = some lf ∧ t.getLeaf key oracle = some (lid, lf.value) := by
  have hfuel : fuelNeed t root ≤ t.inner.size + 1 := by
    cases hk : nodeKind root with
    | leafK j => simp [fuelNeed, hk]
    | innerK j =>
        simp only [fuelNeed, hk]
        have : t.inner.entries.countP (fun e => decide (j ≤ e.1)) ≤
            t.inner.entries.length := List.countP_le_length _
        unfold Slab.size
        omega
  obtain ⟨lf, hlf, hget⟩ := reaches_getAux hinc h (t.inner.size + 1) hfuel
  exact ⟨lf, hlf, by rw [getLeaf, hs]; exact hget⟩

end CallTree

/-! ### The effect of `link`, and tree extension during insertion -/

theorem mlookup_mput_keep {κ ν : Type} [DecidableEq κ] {m : List (κ × ν)} {k k' : κ}
    {v v' : ν} (habs : mlookup m k = none) (h : mlookup m k' = some v') :
    mlookup (mput m k v) k' = some v' := by
  by_cases hk : k = k'
  · subst hk
    rw [habs] at h
    cases h
  · rw [mlookup_mput_ne _ _ _ _ hk]
    exact h

namespace CallTree

variable {C T : Type}

theorem Extends.trans {t₁ t₂ t₃ : CallTree C T} (h1 : Extends t₁ t₂) (h2 : Extends t₂ t₃) :
    Extends t₁ t₃ := by
  refine ⟨?_, ?_, ?_, ?_⟩
  · intro i n hg
    obtain ⟨k1, hg2⟩ := h1.innerKeep i n hg
    obtain ⟨k2, hg3⟩ := h2.innerKeep i _ hg2
    exact ⟨k1 + k2, by simpa [Nat.add_assoc] using hg3⟩
  · intro i lf hg
    exact h2.leafKeep i lf (h1.leafKeep i lf hg)
  · intro pr v hg
    exact h2.edgeKeep pr v (h1.edgeKeep pr v hg)
  · intro k v hg
    exact h2.startKeep k v (h1.startKeep k v hg)

theorem link_leaves (t : CallTree C T) (atStart : Bool) (key : Nat)
    (pred : Option (Nat × Nat)) (tgt : Int) :
    (t.link atStart key pred tgt).leaves = t.leaves := by
  unfold link
  cases pred <;> cases atStart <;> rfl

theorem link_inner_none (t : CallTree C T) (atStart : Bool) (key : Nat) (tgt : Int) :
    (t.link atStart key none tgt).inner = t.inner := by
  unfold link
  cases atStart <;> rfl

theorem link_inner_some (t : CallTree C T) (atStart : Bool) (key : Nat) (pr : Nat × Nat)
    (tgt : Int) :
    (t.link atStart key (some pr) tgt).inner =
      t.inner.modify pr.1 (fun n => { n with children := n.children + 1 }) := by
  unfold link
  cases atStart <;> rfl

theorem link_edges_none (t : CallTree C T) (atStart : Bool) (key : Nat) (tgt : Int) :
    (t.link atStart key none tgt).edges = t.edges := by
  unfold link
  cases atStart <;> rfl

theorem link_edges_some (t : CallTree C T) (atStart : Bool) (key : Nat) (pr : Nat × Nat)
    (tgt : Int) :
    (t.link atStart key (some pr) tgt).edges = mput t.edges pr tgt := by
  unfold link
  cases atStart <;> rfl

theorem link_start_true (t : CallTree C T) (key : Nat) (pred : Option (Nat × Nat))
    (tgt : Int) :
    (t.link true key pred tgt).start = mput t.start key tgt := by
  unfold link
  cases pred <;> rfl

theorem link_start_false (t : CallTree C T) (key : Nat) (pred : Option (Nat × Nat))
    (tgt : Int) :
    (t.link false key pred tgt).start = t.start := by
  unfold link
  cases pred <;> rfl

theorem link_fresh (t : CallTree C T) (atStart : Bool) (key : Nat)
    (pred : Option (Nat × Nat)) (tgt : Int) :
    (t.link atStart key pred tgt).inner.fresh = t.inner.fresh ∧
    (t.link atStart key pred tgt).leaves.fresh = t.leaves.fresh := by
  unfold link
  cases pred <;> cases atStart <;> exact ⟨rfl, rfl⟩

/-- An alloc-then-link step (with fresh target and fresh edge/start keys)
extends the tree. -/
theorem extends_alloc_link (t : CallTree C T) (key : Nat)
    (pred : Option (Nat × Nat)) (atStart : Bool) (tgt : Int)
    (tMid : CallTree C T)
    (hinner : (∀ i n, t.inner.get i = some n → tMid.inner.get i = some n))
    (hleaves : (∀ i lf, t.leaves.get i = some lf → tMid.leaves.get i = some lf))
    (hedges : tMid.edges = t.edges)
    (hstartEq : tMid.start = t.start)
    (hstart : atStart = true → mlookup t.start key = none)
    (hpred : ∀ pid r, pred = some (pid, r) → mlookup t.edges (pid, r) = none) :
    Extends t (tMid.link atStart key pred tgt) := by
  refine ⟨?_, ?_, ?_, ?_⟩
  · intro i n hg
    cases pred with
    | none =>
        rw [link_inner_none]
        exact ⟨0, hinner i n hg⟩
    | some pr =>
        rw [link_inner_some]
        by_cases hip : i = pr.1
        · subst hip
          exact ⟨1, Slab.modify_get_self _ (hinner _ n hg)⟩
        · rw [Slab.modify_get_ne _ hip]
          exact ⟨0, hinner i n hg⟩
  · intro i lf hg
    rw [link_leaves]
    exact hleaves i lf hg
  · intro pr' v hg
    cases pred with
    | none =>
        rw [link_edges_none, hedges]
        exact hg
    | some pr =>
        rw [link_edges_some, hedges]
        exact mlookup_mput_keep (hpred pr.1 pr.2 rfl) hg
  · intro k v hg
    cases atStart with
    | false =>
        rw [link_start_false, hstartEq]
        exact hg
    | true =>
        rw [link_start_true, hstartEq]
        exact mlookup_mput_keep (hstart rfl) hg

end CallTree

theorem mem_mput {κ ν : Type} [DecidableEq κ] {m : List (κ × ν)} {k : κ} {v : ν}
    {e : κ × ν} (h : e ∈ mput m k v) : e ∈ m ∨ e = (k, v) := by
  unfold mput at h
  split at h
  · rcases List.mem_map.mp h with ⟨p, hp, he⟩
    by_cases hk : p.1 = k
    · rw [if_pos hk] at he
      exact Or.inr he.symm
    · rw [if_neg hk] at he
      exact Or.inl (he ▸ hp)
  · rcases List.mem_append.mp h with hm | hm
    · exact Or.inl hm
    · simpa using Or.inr (List.mem_singleton.mp hm)

namespace Slab

variable {α : Type}

theorem mem_modify {s : Slab α} {j : Nat} {f : α → α} {e : Nat × α}
    (h : e ∈ (s.modify j f).entries) : ∃ a, (e.1, a) ∈ s.entries := by
  unfold modify at h
  simp only at h
  rcases List.mem_map.mp h with ⟨p, hp, he⟩
  by_cases hk : p.1 = j
  · rw [if_pos hk] at he
    refine ⟨p.2, ?_⟩
    rw [← he]
    show (j, p.2) ∈ s.entries
    rw [← hk]
    exact hp
  · rw [if_neg hk] at he
    refine ⟨p.2, ?_⟩
    rw [← he]
    exact hp

theorem mem_alloc {s : Slab α} {a : α} {e : Nat × α} (h : e ∈ (s.alloc a).2.entries) :
    e ∈ s.entries ∨ e = (s.fresh, a) := by
  unfold alloc at h
  simp only at h
  rcases List.mem_append.mp h with hm | hm
  · exact Or.inl hm
  · exact Or.inr (List.mem_singleton.mp hm)

end Slab

namespace CallTree

variable {C T : Type}

/-- The final step of insertion: allocate the leaf and link it in. -/
theorem stop_construct (oracle : C → Nat) (t : CallTree C T) (key : Nat) (value : T)
    (pred : Option (Nat × Nat)) (cursorNone : Bool)
    (hBndL : ∀ e ∈ t.leaves.entries, e.1 < t.leaves.fresh)
    (hstart : cursorNone = true → mlookup t.start key = none)
    (hpred : ∀ pid r, pred = some (pid, r) → mlookup t.edges (pid, r) = none) :
    let al := t.leaves.alloc ⟨value, pred.map (·.1)⟩
    let t' := ({ t with leaves := al.2 } : CallTree C T).link cursorNone key pred
      (NodeId.leafId al.1)
    Extends t t' ∧
    t'.leaves.get al.1 = some ⟨value, pred.map (·.1)⟩ ∧
    ReachesLeaf t' oracle (NodeId.leafId al.1) al.1 ∧
    (∀ pr, pred = some pr → mlookup t'.edges pr = some (NodeId.leafId al.1)) ∧
    (cursorNone = true → mlookup t'.start key = some (NodeId.leafId al.1)) := by
  intro al t'
  have hleaf : t'.leaves.get al.1 = some ⟨value, pred.map (·.1)⟩ := by
    show (({ t with leaves := al.2 } : CallTree C T).link cursorNone key pred
      (NodeId.leafId al.1)).leaves.get al.1 = _
    rw [link_leaves]
    exact Slab.alloc_get_new _ hBndL
  refine ⟨?_, hleaf, ?_, ?_, ?_⟩
  · exact extends_alloc_link t key pred cursorNone (NodeId.leafId al.1) _
      (fun i n hg => hg) (fun i lf hg => Slab.alloc_get_old _ hg) rfl rfl hstart hpred
  · exact ReachesLeaf.leafR _ _ _ (nodeKind_leafId al.1) hleaf
  · intro pr hpr
    subst hpr
    show mlookup (({ t with leaves := al.2 } : CallTree C T).link cursorNone key
      (some pr) (NodeId.leafId al.1)).edges pr = _
    rw [link_edges_some]
    exact mlookup_mput_self _ _ _
  · intro hc
    subst hc
    show mlookup (({ t with leaves := al.2 } : CallTree C T).link true key pred
      (NodeId.leafId al.1)).start key = _
    rw [link_start_true]
    exact mlookup_mput_self _ _ _

end CallTree

namespace CallTree

variable {C T : Type}

theorem link_inner_get (t : CallTree C T) (atStart : Bool) (key : Nat)
    (pred : Option (Nat × Nat)) (tgt : Int) (i : Nat)
    (hne : ∀ pr, pred = some pr → i ≠ pr.1) :
    (t.link atStart key pred tgt).inner.get i = t.inner.get i := by
  cases pred with
  | none => rw [link_inner_none]
  | some pr =>
      rw [link_inner_some]
      exact Slab.modify_get_ne _ (hne pr rfl)

theorem link_edges_mem {t : CallTree C T} {atStart : Bool} {key : Nat}
    {pred : Option (Nat × Nat)} {tgt : Int} {e : (Nat × Nat) × Int}
    (he : e ∈ (t.link atStart key pred tgt).edges) :
    e ∈ t.edges ∨ ∃ pr, pred = some pr ∧ e = (pr, tgt) := by
  cases pred with
  | none =>
      rw [link_edges_none] at he
      exact Or.inl he
  | some pr =>
      rw [link_edges_some] at he
      rcases mem_mput he with hm | hm
      · exact Or.inl hm
      · exact Or.inr ⟨pr, rfl, hm⟩

theorem link_inner_mem {t : CallTree C T} {atStart : Bool} {key : Nat}
    {pred : Option (Nat × Nat)} {tgt : Int} {e : Nat × InnerNode C}
    (he : e ∈ (t.link atStart key pred tgt).inner.entries) :
    ∃ a, (e.1, a) ∈ t.inner.entries := by
  cases pred with
  | none =>
      rw [link_inner_none] at he
      exact ⟨e.2, he⟩
  | some pr =>
      rw [link_inner_some] at he
      exact Slab.mem_modify he

/-- The inner-node step of insertion: allocate a new inner node and link it
from the predecessor edge (or the start map). -/
theorem build_construct (t : CallTree C T) (key : Nat) (call : C)
    (pred : Option (Nat × Nat)) (cursorNone : Bool)
    (hBndE : ∀ e ∈ t.edges, e.1.1 < t.inner.fresh)
    (hBndI : ∀ e ∈ t.inner.entries, e.1 < t.inner.fresh)
    (hBndL : ∀ e ∈ t.leaves.entries, e.1 < t.leaves.fresh)
    (hstart : cursorNone = true → mlookup t.start key = none)
    (hpred : ∀ pid r, pred = some (pid, r) →
        mlookup t.edges (pid, r) = none ∧ pid < t.inner.fresh) :
    let al := t.inner.alloc ⟨call, 0, pred.map (·.1)⟩
    let t2 := ({ t with inner := al.2 } : CallTree C T).link cursorNone key pred
      (NodeId.innerId al.1)
    Extends t t2 ∧
    t2.inner.get al.1 = some ⟨call, 0, pred.map (·.1)⟩ ∧
    (∀ pr, pred = some pr → mlookup t2.edges pr = some (NodeId.innerId al.1)) ∧
    (cursorNone = true → mlookup t2.start key = some (NodeId.innerId al.1)) ∧
    (∀ e ∈ t2.edges, e.1.1 < t2.inner.fresh) ∧
    (∀ e ∈ t2.inner.entries, e.1 < t2.inner.fresh) ∧
    (∀ e ∈ t2.leaves.entries, e.1 < t2.leaves.fresh) ∧
    (∀ r, mlookup t2.edges (al.1, r) = none) ∧
    al.1 < t2.inner.fresh := by
  intro al t2
  have halget : al.2.get al.1 = some ⟨call, 0, pred.map (·.1)⟩ :=
    Slab.alloc_get_new _ hBndI
  have hfresh2 : t2.inner.fresh = t.inner.fresh + 1 := by
    show (({ t with inner := al.2 } : CallTree C T).link cursorNone key pred
      (NodeId.innerId al.1)).inner.fresh = _
    rw [(link_fresh _ _ _ _ _).1]
    rfl
  have hstrict : ∀ e ∈ t2.edges, e.1.1 < t.inner.fresh := by
    intro e he
    rcases link_edges_mem he with hm | ⟨pr, hpr, hepr⟩
    · exact hBndE e hm
    · have := (hpred pr.1 pr.2 (by rw [hpr])).2
      rw [hepr]
      exact this
  have hleq : t2.leaves = t.leaves := by
    show (({ t with inner := al.2 } : CallTree C T).link cursorNone key pred
      (NodeId.innerId al.1)).leaves = _
    rw [link_leaves]
  refine ⟨?_, ?_, ?_, ?_, ?_, ?_, ?_, ?_, ?_⟩
  · exact extends_alloc_link t key pred cursorNone (NodeId.innerId al.1) _
      (fun i n hg => Slab.alloc_get_old _ hg) (fun i lf hg => hg) rfl rfl hstart
      (fun pid r h => (hpred pid r h).1)
  · show (({ t with inner := al.2 } : CallTree C T).link cursorNone key pred
      (NodeId.innerId al.1)).inner.get al.1 = _
    rw [link_inner_get]
    · exact halget
    · intro pr hpr
      have := (hpred pr.1 pr.2 (by rw [hpr])).2
      show t.inner.fresh ≠ pr.1
      omega
  · intro pr hpr
    subst hpr
    show mlookup (({ t with inner := al.2 } : CallTree C T).link cursorNone key
      (some pr) (NodeId.innerId al.1)).edges pr = _
    rw [link_edges_some]
    exact mlookup_mput_self _ _ _
  · intro hc
    subst hc
    show mlookup (({ t with inner := al.2 } : CallTree C T).link true key pred
      (NodeId.innerId al.1)).start key = _
    rw [link_start_true]
    exact mlookup_mput_self _ _ _
  · intro e he
    have := hstrict e he
    rw [hfresh2]
    omega
  · intro e he
    rw [hfresh2]
    rcases link_inner_mem he with ⟨a, ha⟩
    rcases Slab.mem_alloc ha with hm | hm
    · have := hBndI _ hm
      omega
    · have : e.1 = t.inner.fresh := congrArg Prod.fst hm
      omega
  · rw [hleq]
    exact hBndL
  · intro r
    exact mlookup_src_bound_none hstrict r
  · rw [hfresh2]
    exact Nat.lt_succ_self _

end CallTree

namespace CallTree

variable {C T : Type}

theorem insertedAt_some (t : CallTree C T) (oracle : C → Nat) (key : Nat)
    (cursor : Option Int) (pr : Nat × Nat) (lid : Nat) :
    InsertedAt t oracle key cursor (some pr) lid =
      (∃ next, mlookup t.edges pr = some next ∧ ReachesLeaf t oracle next lid) := rfl

theorem insertedAt_none_some (t : CallTree C T) (oracle : C → Nat) (key : Nat)
    (pos : Int) (lid : Nat) :
    InsertedAt t oracle key (some pos) none lid = ReachesLeaf t oracle pos lid := rfl

theorem insertedAt_none_none (t : CallTree C T) (oracle : C → Nat) (key : Nat)
    (lid : Nat) :
    InsertedAt t oracle key none none lid =
      (∃ root, mlookup t.start key = some root ∧ ReachesLeaf t oracle root lid) := rfl

/-- Main lemma for the insertion round trip: when the loop of
`CallTree::insert` succeeds, the resulting tree extends the original one and
contains a leaf holding the inserted value that is reachable, under every
oracle agreeing with the remaining recorded sequence, from the point where
the loop attached the new path. -/
theorem insertLoop_reaches (hashC oracle : C → Nat) (key : Nat) (value : T)
    (seq : CallSequence C) (t : CallTree C T)
    (cursor : Option Int) (pred : Option (Nat × Nat)) (t' : CallTree C T)
    (hBndE : ∀ e ∈ t.edges, e.1.1 < t.inner.fresh)
    (hBndI : ∀ e ∈ t.inner.entries, e.1 < t.inner.fresh)
    (hBndL : ∀ e ∈ t.leaves.entries, e.1 < t.leaves.fresh)
    (hstart : cursor = none → mlookup t.start key = none)
    (hpred : ∀ pid r, pred = some (pid, r) →
        mlookup t.edges (pid, r) = none ∧ pid < t.inner.fresh)
    (hwf : CallSequence.SeqWF hashC seq)
    (hagr : CallSequence.agreesWith hashC seq oracle)
    (h : insertLoop hashC t key value seq cursor pred = (t', none)) :
    Extends t t' ∧ ∃ lid lf, t'.leaves.get lid = some lf ∧ lf.value = value ∧
      InsertedAt t' oracle key cursor pred lid := by
  rcases pred with _ | pr
  · rcases cursor with _ | pos
    · -- Build phase, attaching a fresh root for `key`.
      cases hnext : CallSequence.next seq with
      | none =>
          rw [insertLoop_stop hashC t key value seq none none (Or.inr rfl) hnext] at h
          injection h with h1 h2
          subst h1
          obtain ⟨hExt, hleaf, hreach, hedge, hstart2⟩ :=
            stop_construct oracle t key value none (none : Option Int).isNone hBndL
              (fun _ => hstart rfl)
              (fun pid r hh => Option.noConfusion hh)
          refine ⟨hExt, _, _, hleaf, rfl, ?_⟩
          rw [insertedAt_none_none]
          exact ⟨_, hstart2 rfl, hreach⟩
      | some prs =>
          obtain ⟨prc, seq'⟩ := prs
          rw [insertLoop_build hashC t key value seq none none prc seq'
            (Or.inr rfl) hnext] at h
          obtain ⟨hExt2, hget2, hedge2, hstart2, hBndE2, hBndI2, hBndL2, hnoe2, hlt2⟩ :=
            build_construct t key prc.1 none (none : Option Int).isNone hBndE hBndI hBndL
              (fun _ => hstart rfl)
              (fun pid r hh => Option.noConfusion hh)
          obtain ⟨hExt3, lid, lf, hleaf3, hval3, hins3⟩ :=
            insertLoop_reaches hashC oracle key value seq' _ _ _ t'
              hBndE2 hBndI2 hBndL2
              (by intro hc; exact Option.noConfusion hc)
              (by intro pid r hh
                  injection hh with hh1
                  injection hh1 with hh2 hh3
                  subst hh2
                  subst hh3
                  exact ⟨hnoe2 _, hlt2⟩)
              (CallSequence.seqWF_of_next hashC hwf hnext)
              (fun c r hr => hagr c r (CallSequence.recorded_of_next hashC hnext hr))
              h
          rw [insertedAt_some] at hins3
          obtain ⟨nxt, hed, hrch⟩ := hins3
          obtain ⟨k, hget3⟩ := hExt3.innerKeep _ _ hget2
          have hor : oracle prc.1 = prc.2 :=
            hagr _ _ (CallSequence.next_recorded hashC hwf hnext)
          refine ⟨Extends.trans hExt2 hExt3, lid, lf, hleaf3, hval3, ?_⟩
          rw [insertedAt_none_none]
          refine ⟨_, hExt3.startKeep _ _ (hstart2 rfl),
            ReachesLeaf.stepR _ _ _ nxt lid (nodeKind_innerId _) hget3 ?_ hrch⟩
          show mlookup t'.edges (_, oracle prc.1) = some nxt
          rw [hor]
          exact hed
    · -- Still on the existing path.
      cases hk : nodeKind pos with
      | leafK j =>
          rw [insertLoop_leaf hashC t key value seq pos j hk] at h
          simp at h
      | innerK id =>
          cases hg : t.inner.get id with
          | none =>
              rw [insertLoop_absent hashC t key value seq pos id hk hg] at h
              simp at h
          | some node =>
              cases hext : CallSequence.extract hashC seq node.call with
              | mk o s₂ =>
                  cases o with
                  | none =>
                      rw [insertLoop_noExtract hashC t key value seq pos id node s₂
                        hk hg hext] at h
                      simp at h
                  | some ret =>
                      cases hedge : mlookup t.edges (id, ret) with
                      | some next =>
                          rw [insertLoop_follow hashC t key value seq pos id node ret s₂
                            next hk hg hext hedge] at h
                          obtain ⟨hExt3, lid, lf, hleaf3, hval3, hins3⟩ :=
                            insertLoop_reaches hashC oracle key value s₂ t
                              (some next) none t' hBndE hBndI hBndL
                              (by intro hc; exact Option.noConfusion hc)
                              (fun pid r hh => Option.noConfusion hh)
                              (CallSequence.seqWF_of_extract hashC hwf hext)
                              (fun c r hr =>
                                hagr c r (CallSequence.recorded_of_extract hashC hext hr))
                              h
                          rw [insertedAt_none_some] at hins3
                          obtain ⟨k, hget3⟩ := hExt3.innerKeep _ _ hg
                          have hor : oracle node.call = ret :=
                            hagr _ _ (CallSequence.extract_eq_recorded hashC hext)
                          refine ⟨hExt3, lid, lf, hleaf3, hval3, ?_⟩
                          rw [insertedAt_none_some]
                          refine ReachesLeaf.stepR pos id _ next lid hk hget3 ?_ hins3
                          show mlookup t'.edges (id, oracle node.call) = some next
                          rw [hor]
                          exact hExt3.edgeKeep _ _ hedge
                      | none =>
                          rw [insertLoop_diverge hashC t key value seq pos id node ret s₂
                            hk hg hext hedge] at h
                          obtain ⟨hExt3, lid, lf, hleaf3, hval3, hins3⟩ :=
                            insertLoop_reaches hashC oracle key value s₂ t
                              (some pos) (some (id, ret)) t' hBndE hBndI hBndL
                              (by intro hc; exact Option.noConfusion hc)
                              (by intro pid r hh
                                  injection hh with hh1
                                  injection hh1 with hh2 hh3
                                  subst hh2
                                  subst hh3
                                  exact ⟨hedge, hBndI _ (Slab.get_mem hg)⟩)
                              (CallSequence.seqWF_of_extract hashC hwf hext)
                              (fun c r hr =>
                                hagr c r (CallSequence.recorded_of_extract hashC hext hr))
                              h
                          rw [insertedAt_some] at hins3
                          obtain ⟨nxt, hed, hrch⟩ := hins3
                          obtain ⟨k, hget3⟩ := hExt3.innerKeep _ _ hg
                          have hor : oracle node.call = ret :=
                            hagr _ _ (CallSequence.extract_eq_recorded hashC hext)
                          refine ⟨hExt3, lid, lf, hleaf3, hval3, ?_⟩
                          rw [insertedAt_none_some]
                          refine ReachesLeaf.stepR pos id _ nxt lid hk hget3 ?_ hrch
                          show mlookup t'.edges (id, oracle node.call) = some nxt
                          rw [hor]
                          exact hed
  · -- Build phase below the predecessor edge `pr`.
    cases hnext : CallSequence.next seq with
    | none =>
        rw [insertLoop_stop hashC t key value seq cursor (some pr) (Or.inl rfl) hnext] at h
        injection h with h1 h2
        subst h1
        obtain ⟨hExt, hleaf, hreach, hedge, hstart2⟩ :=
          stop_construct oracle t key value (some pr) cursor.isNone hBndL
            (fun hc => hstart (Option.isNone_iff_eq_none.mp hc))
            (fun pid r hh => (hpred pid r hh).1)
        refine ⟨hExt, _, _, hleaf, rfl, ?_⟩
        rw [insertedAt_some]
        exact ⟨_, hedge pr rfl, hreach⟩
    | some prs =>
        obtain ⟨prc, seq'⟩ := prs
        rw [insertLoop_build hashC t key value seq cursor (some pr) prc seq'
          (Or.inl rfl) hnext] at h
        obtain ⟨hExt2, hget2, hedge2, hstart2, hBndE2, hBndI2, hBndL2, hnoe2, hlt2⟩ :=
          build_construct t key prc.1 (some pr) cursor.isNone hBndE hBndI hBndL
            (fun hc => hstart (Option.isNone_iff_eq_none.mp hc))
            hpred
        obtain ⟨hExt3, lid, lf, hleaf3, hval3, hins3⟩ :=
          insertLoop_reaches hashC oracle key value seq' _ _ _ t'
            hBndE2 hBndI2 hBndL2
            (by intro hc; exact Option.noConfusion hc)
            (by intro pid r hh
                injection hh with hh1
                injection hh1 with hh2 hh3
                subst hh2
                subst hh3
                exact ⟨hnoe2 _, hlt2⟩)
            (CallSequence.seqWF_of_next hashC hwf hnext)
            (fun c r hr => hagr c r (CallSequence.recorded_of_next hashC hnext hr))
            h
        rw [insertedAt_some] at hins3
        obtain ⟨nxt, hed, hrch⟩ := hins3
        obtain ⟨k, hget3⟩ := hExt3.innerKeep _ _ hget2
        have hor : oracle prc.1 = prc.2 :=
          hagr _ _ (CallSequence.next_recorded hashC hwf hnext)
        refine ⟨Extends.trans hExt2 hExt3, lid, lf, hleaf3, hval3, ?_⟩
        rw [insertedAt_some]
        refine ⟨NodeId.innerId _, hExt3.edgeKeep _ _ (hedge2 pr rfl),
          ReachesLeaf.stepR _ _ _ nxt lid (nodeKind_innerId _) hget3 ?_ hrch⟩
        show mlookup t'.edges (_, oracle prc.1) = some nxt
        rw [hor]
        exact hed
termination_by seq.pend
decreasing_by
  all_goals first
  | exact CallSequence.extract_pend_lt hashC hext
  | exact CallSequence.next_pend_lt hnext

end CallTree

namespace CallTree

variable {C T : Type}

theorem link_edges_lookup {t : CallTree C T} {atStart : Bool} {key : Nat}
    {pred : Option (Nat × Nat)} {tgt : Int} {pr2 : Nat × Nat} {v : Int}
    (h : mlookup (t.link atStart key pred tgt).edges pr2 = some v) :
    mlookup t.edges pr2 = some v ∨ (pred = some pr2 ∧ v = tgt) := by
  cases pred with
  | none =>
      rw [link_edges_none] at h
      exact Or.inl h
  | some pr =>
      rw [link_edges_some] at h
      by_cases he : pr = pr2
      · subst he
        rw [mlookup_mput_self] at h
        injection h with hv
        exact Or.inr ⟨rfl, hv.symm⟩
      · rw [mlookup_mput_ne _ _ _ _ he] at h
        exact Or.inl h

/-- The leaf-allocation step of insertion keeps edge targets increasing:
the fresh edge points at a leaf, not an inner node. -/
theorem stop_edgeInc (t : CallTree C T) (key : Nat) (value : T)
    (pred : Option (Nat × Nat)) (cursorNone : Bool)
    (hinc : ∀ pr j, mlookup t.edges pr = some (NodeId.innerId j) → pr.1 < j) :
    let al := t.leaves.alloc ⟨value, pred.map (·.1)⟩
    let t2 := ({ t with leaves := al.2 } : CallTree C T).link cursorNone key pred
      (NodeId.leafId al.1)
    ∀ pr2 j, mlookup t2.edges pr2 = some (NodeId.innerId j) → pr2.1 < j := by
  intro al t2 pr2 j hl
  rcases link_edges_lookup hl with hm | ⟨hp, hv⟩
  · exact hinc pr2 j hm
  · exact absurd hv.symm (innerId_ne_leafId j al.1).symm

/-- The inner-allocation step of insertion keeps edge targets increasing
and preserves the arena bounds: the fresh edge points at the newly
allocated node, which is larger than every existing edge source. -/
theorem build_edgeInc (t : CallTree C T) (key : Nat) (call : C)
    (pred : Option (Nat × Nat)) (cursorNone : Bool)
    (hBndE : ∀ e ∈ t.edges, e.1.1 < t.inner.fresh)
    (hBndI : ∀ e ∈ t.inner.entries, e.1 < t.inner.fresh)
    (hinc : ∀ pr j, mlookup t.edges pr = some (NodeId.innerId j) → pr.1 < j)
    (hpredLt : ∀ pid r, pred = some (pid, r) → pid < t.inner.fresh) :
    let al := t.inner.alloc ⟨call, 0, pred.map (·.1)⟩
    let t2 := ({ t with inner := al.2 } : CallTree C T).link cursorNone key pred
      (NodeId.innerId al.1)
    (∀ e ∈ t2.edges, e.1.1 < t2.inner.fresh) ∧
    (∀ e ∈ t2.inner.entries, e.1 < t2.inner.fresh) ∧
    (∀ pr2 j, mlookup t2.edges pr2 = some (NodeId.innerId j) → pr2.1 < j) ∧
    al.1 < t2.inner.fresh := by
  intro al t2
  have hfresh2 : t2.inner.fresh = t.inner.fresh + 1 := by
    show (({ t with inner := al.2 } : CallTree C T).link cursorNone key pred
      (NodeId.innerId al.1)).inner.fresh = _
    rw [(link_fresh _ _ _ _ _).1]
    rfl
  refine ⟨?_, ?_, ?_, ?_⟩
  · intro e he
    rw [hfresh2]
    rcases link_edges_mem he with hm | ⟨pr, hpr, hepr⟩
    · have := hBndE e hm
      omega
    · have := hpredLt pr.1 pr.2 (by rw [hpr])
      rw [hepr]
      show pr.1 < t.inner.fresh + 1
      omega
  · intro e he
    rw [hfresh2]
    rcases link_inner_mem he with ⟨a, ha⟩
    rcases Slab.mem_alloc ha with hm | hm
    · have := hBndI _ hm
      omega
    · have : e.1 = t.inner.fresh := congrArg Prod.fst hm
      omega
  · intro pr2 j hl
    rcases link_edges_lookup hl with hm | ⟨hp, hv⟩
    · exact hinc pr2 j hm
    · have hj : j = al.1 := by
        have hv2 := hv
        unfold NodeId.innerId at hv2
        omega
      have := hpredLt pr2.1 pr2.2 (by rw [hp])
      rw [hj]
      show pr2.1 < t.inner.fresh
      exact this
  · rw [hfresh2]
    exact Nat.lt_succ_self _

/-- A successful run of the insertion loop preserves the edge-target
monotonicity invariant. -/
theorem insertLoop_edgeInc (hashC : C → Nat) (key : Nat) (value : T)
    (seq : CallSequence C) (t : CallTree C T)
    (cursor : Option Int) (pred : Option (Nat × Nat)) (t' : CallTree C T)
    (hBndE : ∀ e ∈ t.edges, e.1.1 < t.inner.fresh)
    (hBndI : ∀ e ∈ t.inner.entries, e.1 < t.inner.fresh)
    (hinc : ∀ pr j, mlookup t.edges pr = some (NodeId.innerId j) → pr.1 < j)
    (hpredLt : ∀ pid r, pred = some (pid, r) → pid < t.inner.fresh)
    (h : insertLoop hashC t key value seq cursor pred = (t', none)) :
    ∀ pr j, mlookup t'.edges pr = some (NodeId.innerId j) → pr.1 < j := by
  rcases pred with _ | pr
  · rcases cursor with _ | pos
    · cases hnext : CallSequence.next seq with
      | none =>
          rw [insertLoop_stop hashC t key value seq none none (Or.inr rfl) hnext] at h
          injection h with h1 h2
          subst h1
          exact stop_edgeInc t key value none (none : Option Int).isNone hinc
      | some prs =>
          obtain ⟨prc, seq'⟩ := prs
          rw [insertLoop_build hashC t key value seq none none prc seq'
            (Or.inr rfl) hnext] at h
          obtain ⟨hE2, hI2, hinc2, hlt2⟩ :=
            build_edgeInc t key prc.1 none (none : Option Int).isNone hBndE hBndI hinc
              (fun pid r hh => Option.noConfusion hh)
          exact insertLoop_edgeInc hashC key value seq' _ _ _ t' hE2 hI2 hinc2
            (by intro pid r hh
                injection hh with hh1
                injection hh1 with hh2 hh3
                subst hh2
                exact hlt2) h
    · cases hk : nodeKind pos with
      | leafK j =>
          rw [insertLoop_leaf hashC t key value seq pos j hk] at h
          simp at h
      | innerK id =>
          cases hg : t.inner.get id with
          | none =>
              rw [insertLoop_absent hashC t key value seq pos id hk hg] at h
              simp at h
          | some node =>
              cases hext : CallSequence.extract hashC seq node.call with
              | mk o s₂ =>
                  cases o with
                  | none =>
                      rw [insertLoop_noExtract hashC t key value seq pos id node s₂
                        hk hg hext] at h
                      simp at h
                  | some ret =>
                      cases hedge : mlookup t.edges (id, ret) with
                      | some next =>
                          rw [insertLoop_follow hashC t key value seq pos id node ret s₂
                            next hk hg hext hedge] at h
                          exact insertLoop_edgeInc hashC key value s₂ t
                            (some next) none t' hBndE hBndI hinc
                            (fun pid r hh => Option.noConfusion hh) h
                      | none =>
                          rw [insertLoop_diverge hashC t key value seq pos id node ret s₂
                            hk hg hext hedge] at h
                          exact insertLoop_edgeInc hashC key value s₂ t
                            (some pos) (some (id, ret)) t' hBndE hBndI hinc
                            (by intro pid r hh
                                injection hh with hh1
                                injection hh1 with hh2 hh3
                                subst hh2
                                exact hBndI _ (Slab.get_mem hg)) h
  · cases hnext : CallSequence.next seq with
    | none =>
        rw [insertLoop_stop hashC t key value seq cursor (some pr) (Or.inl rfl) hnext] at h
        injection h with h1 h2
        subst h1
        exact stop_edgeInc t key value (some pr) cursor.isNone hinc
    | some prs =>
        obtain ⟨prc, seq'⟩ := prs
        rw [insertLoop_build hashC t key value seq cursor (some pr) prc seq'
          (Or.inl rfl) hnext] at h
        obtain ⟨hE2, hI2, hinc2, hlt2⟩ :=
          build_edgeInc t key prc.1 (some pr) cursor.isNone hBndE hBndI hinc
            (fun pid r hh => (hpredLt pid r hh))
        exact insertLoop_edgeInc hashC key value seq' _ _ _ t' hE2 hI2 hinc2
          (by intro pid r hh
              injection hh with hh1
              injection hh1 with hh2 hh3
              subst hh2
              exact hlt2) h
termination_by seq.pend
decreasing_by
  all_goals first
  | exact CallSequence.extract_pend_lt hashC hext
  | exact CallSequence.next_pend_lt hnext

/-- The edge-source bound follows from the well-formedness invariant. -/
theorem WF.bndE {t : CallTree C T} (hWF : WF t) :
    ∀ e ∈ t.edges, e.1.1 < t.inner.fresh := by
  intro e he
  have hl : mlookup t.edges e.1 = some e.2 := mlookup_eq_of_mem_nodup hWF.edgeNodup he
  have hh := hWF.edgeSrc e.1 e.2 hl
  unfold Slab.holds at hh
  cases hg : t.inner.get e.1.1 with
  | none => rw [hg] at hh; simp at hh
  | some n => exact hWF.innerBound _ (Slab.get_mem hg)

/-- Tree-level round trip: a successful insertion makes the value
retrievable under every oracle that agrees with the recorded sequence. -/
theorem insertTree_get (hashC oracle : C → Nat) (t : CallTree C T) (key : Nat)
    (seq : CallSequence C) (value : T) (t' : CallTree C T)
    (hWF : WF t)
    (hswf : CallSequence.SeqWF hashC seq)
    (hagr : CallSequence.agreesWith hashC seq oracle)
    (h : t.insertTree hashC key seq value = (t', none)) :
    ∃ lid, t'.getLeaf key oracle = some (lid, value) := by
  unfold insertTree at h
  have hBndE := hWF.bndE
  have hinc : ∀ pr j, mlookup t'.edges pr = some (NodeId.innerId j) → pr.1 < j :=
    insertLoop_edgeInc hashC key value seq t _ none t' hBndE hWF.innerBound hWF.edgeInc
      (fun pid r hh => Option.noConfusion hh) h
  cases hs : mlookup t.start key with
  | none =>
      rw [hs] at h
      obtain ⟨hExt, lid, lf, hleaf, hval, hins⟩ :=
        insertLoop_reaches hashC oracle key value seq t none none t'
          hBndE hWF.innerBound hWF.leafBound (fun _ => hs)
          (fun pid r hh => Option.noConfusion hh) hswf hagr h
      rw [insertedAt_none_none] at hins
      obtain ⟨root, hroot, hrch⟩ := hins
      obtain ⟨lf2, hlf2, hgl⟩ := reaches_getLeaf hinc hroot hrch
      rw [hleaf] at hlf2
      injection hlf2 with he
      exact ⟨lid, by rw [hgl, ← he, hval]⟩
  | some root =>
      rw [hs] at h
      obtain ⟨hExt, lid, lf, hleaf, hval, hins⟩ :=
        insertLoop_reaches hashC oracle key value seq t (some root) none t'
          hBndE hWF.innerBound hWF.leafBound
          (by intro hc; exact Option.noConfusion hc)
          (fun pid r hh => Option.noConfusion hh) hswf hagr h
      rw [insertedAt_none_some] at hins
      obtain ⟨lf2, hlf2, hgl⟩ := reaches_getLeaf hinc (hExt.startKeep _ _ hs) hins
      rw [hleaf] at hlf2
      injection hlf2 with he
      exact ⟨lid, by rw [hgl, ← he, hval]⟩

end CallTree

namespace CacheData

variable {C Out : Type}

/-- `lookup` in terms of the underlying tree retrieval. -/
theorem lookup_of_getLeaf (cd : CacheData C Out) {key : Nat} {oracle : C → Nat}
    {lid : Nat} {entry : CacheEntry C Out}
    (h : cd.tree.getLeaf key oracle = some (lid, entry)) :
    CacheData.lookup cd key oracle = some ({ entry with age := 0 },
      ⟨{ cd.tree with leaves := (cd.tree.leaves.modify lid (fun lf => { lf with value := { lf.value with age := 0 } })) }⟩) := by
  unfold CacheData.lookup
  rw [h]

end CacheData

/-- A successful cache lookup makes `memoize` report a hit with the cached
output, regardless of the freshly recorded sequence. -/
theorem memoize_hit {C Out : Type} (hashC : C → Nat) (debug : Bool)
    (cd : CacheData C Out) (key : Nat) (oracle : C → Nat)
    (seq2 : CallSequence C) (mut2 : List C) (out2 : Out)
    (entry : CacheEntry C Out) (cd2 : CacheData C Out)
    (hl : CacheData.lookup cd key oracle = some (entry, cd2)) :
    memoize hashC debug true cd key oracle seq2 mut2 out2 =
      some (entry.output, MemoOutcome.hit, cd2) := by
  unfold memoize
  rw [hl]
  rfl

/-- The constant oracle `1` agrees with `exSeq1` (whose only recorded call
is `5 ↦ 1`). -/
theorem exSeq1_agrees : CallSequence.agreesWith hashN exSeq1 (fun _ => 1) := by
  intro c r h
  by_cases hc : c = 5
  · subst hc
    have h5 : CallSequence.recorded hashN exSeq1 5 = some 1 := by decide
    rw [h5] at h
    injection h
  · unfold CallSequence.recorded at h
    have hm : mlookup exSeq1.map (hashN c) = none := by
      show mlookup [(5, 0)] c = none
      rw [mlookup_cons]
      rw [if_neg (fun hh => hc hh.symm)]
      rfl
    rw [hm] at h
    exact Option.noConfusion h

/-- The same single insertion at cache-entry type. -/
theorem exInsCacheTree_eq :
    (CallTree.empty : CallTree Nat (CacheEntry Nat Nat)).insertTree hashN 7 exSeq1
      ⟨42, [], 0⟩ = (exCacheTree, none) := by
  unfold CallTree.insertTree
  have h0 : mlookup (CallTree.empty : CallTree Nat (CacheEntry Nat Nat)).start 7 = none := rfl
  rw [h0]
  rw [CallTree.insertLoop_build hashN (CallTree.empty : CallTree Nat (CacheEntry Nat Nat))
    7 (⟨42, [], 0⟩ : CacheEntry Nat Nat) exSeq1 none none (5, 1)
    (⟨[none], [(5, 0)], 0⟩ : CallSequence Nat) (Or.inr rfl) exSeq1_next]
  show CallTree.insertLoop hashN
      ⟨⟨[(0, ⟨5, 0, none⟩)], 1⟩, ⟨[], 0⟩, [(7, NodeId.innerId 0)], []⟩ 7 ⟨42, [], 0⟩
      (⟨[none], [(5, 0)], 0⟩ : CallSequence Nat)
      (some (NodeId.innerId 0)) (some (0, 1)) = (exCacheTree, none)
  rw [CallTree.insertLoop_stop hashN
    (⟨⟨[(0, ⟨5, 0, none⟩)], 1⟩, ⟨[], 0⟩, [(7, NodeId.innerId 0)], []⟩ :
      CallTree Nat (CacheEntry Nat Nat))
    7 (⟨42, [], 0⟩ : CacheEntry Nat Nat) (⟨[none], [(5, 0)], 0⟩ : CallSequence Nat)
    (some (NodeId.innerId 0)) (some (0, 1)) (Or.inl rfl) exSeq1_next2]
  decide

/-- Inserting into the empty cache produces `exCache`. -/
theorem exInsCache_eq :
    CacheData.insertData hashN (CacheData.emptyCache : CacheData Nat Nat) 7 exSeq1
      [] 42 = (exCache, none) := by
  simp only [CacheData.insertData]
  rw [show (CacheData.emptyCache : CacheData Nat Nat).tree =
    (CallTree.empty : CallTree Nat (CacheEntry Nat Nat)) from rfl]
  rw [exInsCacheTree_eq]
  rfl

/-- **C1.** Call-tree round trip: after `CallTree::insert(key, seq, value)`
succeeds, `CallTree::get(key, oracle)` returns `some value` for every
oracle that returns, for each call it is asked, exactly the result hash
`seq` recorded for that call; at the memoized-call level, a second input
with the same key hash whose tracked calls all agree with the recorded
sequence yields the cached output and is marked as a hit. -/
theorem c1_round_trip {C T Out : Type} (hashC : C → Nat) :
    (∀ (t : CallTree C T) (key : Nat) (seq : CallSequence C) (value : T)
        (t' : CallTree C T) (oracle : C → Nat),
        CallTree.WF t → CallSequence.SeqWF hashC seq →
        CallSequence.agreesWith hashC seq oracle →
        t.insertTree hashC key seq value = (t', none) →
        t'.get key oracle = some value) ∧
    (∀ (cd : CacheData C Out) (key : Nat) (seq : CallSequence C) (mutCalls : List C)
        (output : Out) (cd' : CacheData C Out) (oracle : C → Nat) (debug : Bool)
        (seq2 : CallSequence C) (mut2 : List C) (out2 : Out),
        CallTree.WF cd.tree → CallSequence.SeqWF hashC seq →
        CallSequence.agreesWith hashC seq oracle →
        CacheData.insertData hashC cd key seq mutCalls output = (cd', none) →
        ∃ cd2, memoize hashC debug true cd' key oracle seq2 mut2 out2 =
          some (output, MemoOutcome.hit, cd2)) := by
  constructor
  · intro t key seq value t' oracle hWF hswf hagr h
    obtain ⟨lid, hgl⟩ := CallTree.insertTree_get hashC oracle t key seq value t'
      hWF hswf hagr h
    unfold CallTree.get
    rw [hgl]
    rfl
  · intro cd key seq mutCalls output cd' oracle debug seq2 mut2 out2 hWF hswf hagr h
    simp only [CacheData.insertData] at h
    injection h with h1 h2
    subst h1
    have htree : cd.tree.insertTree hashC key seq ⟨output, mutCalls, 0⟩ =
        ((cd.tree.insertTree hashC key seq ⟨output, mutCalls, 0⟩).1, none) := by
      rw [← h2]
    obtain ⟨lid, hgl⟩ := CallTree.insertTree_get hashC oracle cd.tree key seq
      ⟨output, mutCalls, 0⟩ _ hWF hswf hagr htree
    have hlk := CacheData.lookup_of_getLeaf
      (⟨(cd.tree.insertTree hashC key seq ⟨output, mutCalls, 0⟩).1⟩ : CacheData C Out) hgl
    exact ⟨_, memoize_hit hashC debug _ key oracle seq2 mut2 out2 _ _ hlk⟩

/-- Closed witness for the C1 theorem: the concrete one-call insertion into
the empty tree (respectively the empty cache) is retrievable (respectively
hits) under the agreeing constant oracle. -/
theorem c1_witness :
    exTree1.get 7 (fun _ => 1) = some 42 ∧
    ∃ cd2, memoize hashN false true exCache 7 (fun _ => 1) exSeq1 [] 0 =
      some (42, MemoOutcome.hit, cd2) := by
  constructor
  · exact (@c1_round_trip Nat Nat Nat hashN).1 CallTree.empty 7
      exSeq1 42 exTree1 (fun _ => 1) (CallTree.WF_of_dec (by decide))
      (CallSequence.seqWF_fromList hashN [(5, 1)]) exSeq1_agrees exIns1_eq
  · exact (@c1_round_trip Nat Nat Nat hashN).2
      CacheData.emptyCache 7 exSeq1 [] 42 exCache (fun _ => 1) false exSeq1 [] 0
      (CallTree.WF_of_dec (by decide))
      (CallSequence.seqWF_fromList hashN [(5, 1)]) exSeq1_agrees exInsCache_eq

namespace CallTree

variable {C T : Type}

/-! ### Parent-chain toolkit -/

theorem chainN_none (inn : Slab (InnerNode C)) (fuel : Nat) :
    chainN inn none fuel = [] := by
  cases fuel <;> rfl

theorem chainN_zero (inn : Slab (InnerNode C)) (p : Option Nat) :
    chainN inn p 0 = [] := by
  cases p <;> rfl

theorem chainN_succ (inn : Slab (InnerNode C)) (a : Nat) (f : Nat) :
    chainN inn (some a) (f + 1) = a :: chainN inn (parentOf inn a) f := rfl

theorem parentOf_lt {inn : Slab (InnerNode C)}
    (hdec : ∀ a n p, inn.get a = some n → n.parent = some p → p < a)
    {a p : Nat} (h : parentOf inn a = some p) : p < a := by
  unfold parentOf at h
  cases hg : inn.get a with
  | none => rw [hg] at h; cases h
  | some n => rw [hg] at h; exact hdec a n p hg h

theorem chainN_mem_le {inn : Slab (InnerNode C)}
    (hdec : ∀ a n p, inn.get a = some n → n.parent = some p → p < a) :
    ∀ fuel a id, a < fuel → id ∈ chainN inn (some a) fuel → id ≤ a := by
  intro fuel
  induction fuel with
  | zero => intro a id ha hm; omega
  | succ f ih =>
      intro a id ha hm
      rw [chainN_succ] at hm
      rcases List.mem_cons.mp hm with h1 | h2
      · omega
      · cases hp : parentOf inn a with
        | none => rw [hp, chainN_none] at h2; cases h2
        | some q =>
            rw [hp] at h2
            have hq := parentOf_lt hdec hp
            have := ih q id (by omega) h2
            omega

theorem chainN_head_mem (inn : Slab (InnerNode C)) {a f : Nat} (h : a < f) :
    a ∈ chainN inn (some a) f := by
  obtain ⟨g, rfl⟩ : ∃ g, f = g + 1 := ⟨f - 1, by omega⟩
  rw [chainN_succ]
  exact List.mem_cons_self _ _

theorem chainN_closed_parent {inn : Slab (InnerNode C)}
    (hdec : ∀ a n p, inn.get a = some n → n.parent = some p → p < a) :
    ∀ fuel (p : Option Nat) id q, (∀ a, p = some a → a < fuel) →
      id ∈ chainN inn p fuel → parentOf inn id = some q →
      q ∈ chainN inn p fuel := by
  intro fuel
  induction fuel with
  | zero =>
      intro p id q hb hm
      cases p with
      | none => rw [chainN_none] at hm; cases hm
      | some a => exact absurd (hb a rfl) (by omega)
  | succ f ih =>
      intro p id q hb hm hpq
      cases p with
      | none => rw [chainN_none] at hm; cases hm
      | some a =>
          rw [chainN_succ] at hm ⊢
          rcases List.mem_cons.mp hm with h1 | h2
          · subst h1
            rw [hpq]
            refine List.mem_cons_of_mem _ ?_
            have hq : q < id := parentOf_lt hdec hpq
            have haf : id < f + 1 := hb id rfl
            exact chainN_head_mem inn (by omega)
          · refine List.mem_cons_of_mem _ ?_
            cases hp : parentOf inn a with
            | none => rw [hp, chainN_none] at h2; cases h2
            | some b =>
                rw [hp] at h2
                have hb2 : b < a := parentOf_lt hdec hp
                have haf : a < f + 1 := hb a rfl
                exact ih (some b) id q
                  (by intro x hx; injection hx with hx; omega) h2 hpq

theorem chainN_pred {inn : Slab (InnerNode C)} :
    ∀ fuel a id, id ∈ chainN inn (some a) fuel →
      id = a ∨ ∃ k, k ∈ chainN inn (some a) fuel ∧ parentOf inn k = some id := by
  intro fuel
  induction fuel with
  | zero => intro a id hm; rw [chainN_zero] at hm; cases hm
  | succ f ih =>
      intro a id hm
      rw [chainN_succ] at hm
      rcases List.mem_cons.mp hm with h1 | h2
      · exact Or.inl h1
      · cases hp : parentOf inn a with
        | none => rw [hp, chainN_none] at h2; cases h2
        | some b =>
            rw [hp] at h2
            rcases ih b id h2 with h3 | ⟨k, hk, hpk⟩
            · subst h3
              exact Or.inr ⟨a, by rw [chainN_succ]; exact List.mem_cons_self _ _, hp⟩
            · exact Or.inr ⟨k, by
                rw [chainN_succ, hp]
                exact List.mem_cons_of_mem _ hk, hpk⟩

theorem chainN_next_unique {inn : Slab (InnerNode C)}
    (hdec : ∀ a n p, inn.get a = some n → n.parent = some p → p < a) :
    ∀ fuel a k₁ k₂ pid, a < fuel →
      k₁ ∈ chainN inn (some a) fuel → k₂ ∈ chainN inn (some a) fuel →
      parentOf inn k₁ = some pid → parentOf inn k₂ = some pid → k₁ = k₂ := by
  intro fuel
  induction fuel with
  | zero => intro a k₁ k₂ pid ha; omega
  | succ f ih =>
      intro a k₁ k₂ pid ha hm1 hm2 hp1 hp2
      rw [chainN_succ] at hm1 hm2
      rcases List.mem_cons.mp hm1 with h1 | h1 <;>
        rcases List.mem_cons.mp hm2 with h2 | h2
      · rw [h1, h2]
      · subst h1
        rw [hp1] at h2
        have hk2 : k₂ ≤ pid :=
          chainN_mem_le hdec f pid k₂ (by have := parentOf_lt hdec hp1; omega) h2
        have := parentOf_lt hdec hp2
        omega
      · subst h2
        rw [hp2] at h1
        have hk1 : k₁ ≤ pid :=
          chainN_mem_le hdec f pid k₁ (by have := parentOf_lt hdec hp2; omega) h1
        have := parentOf_lt hdec hp1
        omega
      · cases hp : parentOf inn a with
        | none => rw [hp, chainN_none] at h1; cases h1
        | some b =>
            rw [hp] at h1 h2
            have hb : b < a := parentOf_lt hdec hp
            exact ih b k₁ k₂ pid (by omega) h1 h2 hp1 hp2

theorem chainN_fuel_eq {inn : Slab (InnerNode C)}
    (hdec : ∀ a n p, inn.get a = some n → n.parent = some p → p < a) :
    ∀ f₁ f₂ (p : Option Nat), (∀ a, p = some a → a < f₁) →
      (∀ a, p = some a → a < f₂) → chainN inn p f₁ = chainN inn p f₂ := by
  intro f₁
  induction f₁ using Nat.strong_induction_on with
  | _ f₁ ih =>
      intro f₂ p hb1 hb2
      cases p with
      | none => rw [chainN_none, chainN_none]
      | some a =>
          have ha1 := hb1 a rfl
          have ha2 := hb2 a rfl
          obtain ⟨g₁, rfl⟩ : ∃ g, f₁ = g + 1 := ⟨f₁ - 1, by omega⟩
          obtain ⟨g₂, rfl⟩ : ∃ g, f₂ = g + 1 := ⟨f₂ - 1, by omega⟩
          rw [chainN_succ, chainN_succ]
          congr 1
          refine ih g₁ (by omega) g₂ (parentOf inn a) ?_ ?_ <;>
          · intro x hx
            have := parentOf_lt hdec hx
            omega

end CallTree

namespace Slab

variable {α : Type}

theorem remove_fresh (s : Slab α) (i : Nat) : (s.remove i).fresh = s.fresh := rfl

theorem modify_fresh (s : Slab α) (i : Nat) (f : α → α) : (s.modify i f).fresh = s.fresh := rfl

theorem remove_get_self (s : Slab α) (i : Nat) : (s.remove i).get i = none := by
  unfold remove get mlookup
  simp only
  cases hf : (s.entries.filter (fun p => p.1 ≠ i)).find? (fun p => p.1 = i) with
  | none => rfl
  | some p =>
      have hmem := List.mem_of_find?_eq_some hf
      have hp : p.1 = i := by simpa using List.find?_some hf
      have := List.of_mem_filter hmem
      simp [hp] at this

theorem remove_get_ne (s : Slab α) {i j : Nat} (hij : j ≠ i) :
    (s.remove i).get j = s.get j := by
  unfold remove get
  simp only
  induction s.entries with
  | nil => rfl
  | cons e m ih =>
      by_cases he : e.1 = i
      · rw [List.filter_cons_of_neg (by simp [he])]
        rw [mlookup_cons, if_neg (by rw [he]; exact fun hh => hij hh.symm), ih]
      · rw [List.filter_cons_of_pos (by simp [he])]
        rw [mlookup_cons, mlookup_cons, ih]

theorem remove_keys_sublist (s : Slab α) (i : Nat) :
    ((s.remove i).entries.map Prod.fst).Sublist (s.entries.map Prod.fst) :=
  (List.filter_sublist _).map _

theorem modify_keys (s : Slab α) (i : Nat) (f : α → α) :
    (s.modify i f).entries.map Prod.fst = s.entries.map Prod.fst := by
  unfold modify
  simp only
  rw [List.map_map]
  refine List.map_congr_left ?_
  intro p hp
  by_cases he : p.1 = i
  · simp [he]
  · simp [he]

theorem mem_remove {s : Slab α} {i : Nat} {e : Nat × α} (h : e ∈ (s.remove i).entries) :
    e ∈ s.entries := List.mem_of_mem_filter h

end Slab

namespace CallTree

variable {C T : Type}

/-! ### Structural lemmas about `pruneChain` and `retainLeaves` -/

theorem pruneChain_none (inn : Slab (InnerNode C)) : pruneChain inn none = inn := by
  rw [pruneChain]

theorem pruneChain_absent (inn : Slab (InnerNode C)) (pid : Nat)
    (hg : inn.get pid = none) : pruneChain inn (some pid) = inn := by
  rw [pruneChain]
  split
  · rfl
  · rename_i node heq
    rw [hg] at heq
    cases heq

theorem pruneChain_dec (inn : Slab (InnerNode C)) (pid : Nat) (node : InnerNode C)
    (hg : inn.get pid = some node) (hgt : 1 < node.children) :
    pruneChain inn (some pid) =
      inn.modify pid (fun n => { n with children := n.children - 1 }) := by
  rw [pruneChain]
  split
  · rename_i heq
    rw [hg] at heq
    cases heq
  · rename_i node₂ heq
    rw [hg] at heq
    injection heq with heq
    subst heq
    rw [if_pos hgt]

theorem pruneChain_del (inn : Slab (InnerNode C)) (pid : Nat) (node : InnerNode C)
    (hg : inn.get pid = some node) (hgt : ¬ 1 < node.children) :
    pruneChain inn (some pid) = pruneChain (inn.remove pid) node.parent := by
  rw [pruneChain]
  split
  · rename_i heq
    rw [hg] at heq
    cases heq
  · rename_i node₂ heq
    rw [hg] at heq
    injection heq with heq
    subst heq
    rw [if_neg hgt]

theorem pruneChain_fresh (inner : Slab (InnerNode C)) (p : Option Nat) :
    (pruneChain inner p).fresh = inner.fresh := by
  induction inner, p using pruneChain.induct with
  | case1 inn => rw [pruneChain_none]
  | case2 inn pid hg => rw [pruneChain_absent inn pid hg]
  | case3 inn pid node hg hgt =>
      rw [pruneChain_dec inn pid node hg hgt]
      rfl
  | case4 inn pid node hg hgt ih =>
      rw [pruneChain_del inn pid node hg hgt, ih]
      rfl

theorem pruneChain_keys_sublist (inner : Slab (InnerNode C)) (p : Option Nat) :
    ((pruneChain inner p).entries.map Prod.fst).Sublist (inner.entries.map Prod.fst) := by
  induction inner, p using pruneChain.induct with
  | case1 inn => rw [pruneChain_none]
  | case2 inn pid hg => rw [pruneChain_absent inn pid hg]
  | case3 inn pid node hg hgt =>
      rw [pruneChain_dec inn pid node hg hgt, Slab.modify_keys]
  | case4 inn pid node hg hgt ih =>
      rw [pruneChain_del inn pid node hg hgt]
      exact ih.trans (Slab.remove_keys_sublist inn pid)

theorem retainLeaves_snd (f : T → T × Bool) :
    ∀ (L : List (Nat × LeafNode T)) (inn : Slab (InnerNode C)),
      (retainLeaves f inn L).2 = L.filterMap (fun e =>
        if (f e.2.value).2 then some (e.1, { e.2 with value := (f e.2.value).1 })
        else none) := by
  intro L
  induction L with
  | nil => intro inn; rfl
  | cons e rest ih =>
      intro inn
      obtain ⟨id, lf⟩ := e
      rw [retainLeaves]
      simp only
      by_cases hp : (f lf.value).2
      · rw [if_pos hp, List.filterMap_cons]
        simp only [hp, if_pos]
        rw [ih]
      · rw [if_neg hp, List.filterMap_cons]
        simp only [hp]
        rw [if_neg (by simp)]
        rw [ih]

theorem retainLeaves_fst_fresh (f : T → T × Bool) :
    ∀ (L : List (Nat × LeafNode T)) (inn : Slab (InnerNode C)),
      (retainLeaves f inn L).1.fresh = inn.fresh := by
  intro L
  induction L with
  | nil => intro inn; rfl
  | cons e rest ih =>
      intro inn
      obtain ⟨id, lf⟩ := e
      rw [retainLeaves]
      simp only
      by_cases hp : (f lf.value).2
      · rw [if_pos hp]
        exact ih inn
      · rw [if_neg hp]
        rw [ih]
        exact pruneChain_fresh inn lf.parent

theorem retainLeaves_fst_keys_sublist (f : T → T × Bool) :
    ∀ (L : List (Nat × LeafNode T)) (inn : Slab (InnerNode C)),
      ((retainLeaves f inn L).1.entries.map Prod.fst).Sublist (inn.entries.map Prod.fst) := by
  intro L
  induction L with
  | nil => intro inn; exact List.Sublist.refl _
  | cons e rest ih =>
      intro inn
      obtain ⟨id, lf⟩ := e
      rw [retainLeaves]
      simp only
      by_cases hp : (f lf.value).2
      · rw [if_pos hp]
        exact ih inn
      · rw [if_neg hp]
        exact (ih _).trans (pruneChain_keys_sublist inn lf.parent)

/-! ### Liveness splitting and monotonicity -/

theorem innerLiveB_split (inn : Slab (InnerNode C)) (Sp Sr : List (Nat × LeafNode T))
    (e : Nat × LeafNode T) (id : Nat) :
    innerLiveB inn (Sp ++ e :: Sr) id =
      (innerLiveB inn (Sp ++ Sr) id || decide (id ∈ chain inn e.2.parent)) := by
  unfold innerLiveB
  rw [List.any_append, List.any_cons, List.any_append]
  cases hp : Sp.any (fun x => decide (id ∈ chain inn x.2.parent)) <;>
    cases hr : Sr.any (fun x => decide (id ∈ chain inn x.2.parent)) <;>
    cases hd : decide (id ∈ chain inn e.2.parent) <;> rfl

theorem leafIn_split (Sp Sr : List (Nat × LeafNode T)) (e : Nat × LeafNode T) (k : Nat) :
    leafIn (Sp ++ e :: Sr) k = (leafIn (Sp ++ Sr) k || decide (e.1 = k)) := by
  unfold leafIn
  rw [List.any_append, List.any_cons, List.any_append]
  cases hp : Sp.any (fun x => decide (x.1 = k)) <;>
    cases hr : Sr.any (fun x => decide (x.1 = k)) <;>
    cases hd : decide (e.1 = k) <;> rfl

theorem innerLiveB_of_mem (inn : Slab (InnerNode C)) {S : List (Nat × LeafNode T)}
    {e : Nat × LeafNode T} (he : e ∈ S) {id : Nat} (h : id ∈ chain inn e.2.parent) :
    innerLiveB inn S id = true := by
  unfold innerLiveB
  rw [List.any_eq_true]
  exact ⟨e, he, by simpa using h⟩

theorem leafIn_of_mem {S : List (Nat × LeafNode T)} {e : Nat × LeafNode T}
    (he : e ∈ S) : leafIn S e.1 = true := by
  unfold leafIn
  rw [List.any_eq_true]
  exact ⟨e, he, by simp⟩

end CallTree

theorem countP_flip {κ ν : Type} [DecidableEq κ] {m : List (κ × ν)}
    (hnod : (m.map Prod.fst).Nodup) {pS pS2 : κ × ν → Bool} {x : κ × ν}
    (hx : x ∈ m) (hxS : pS x = true) (hxS2 : pS2 x = false)
    (hcong : ∀ y ∈ m, y.1 ≠ x.1 → pS y = pS2 y) :
    m.countP pS = m.countP pS2 + 1 := by
  induction m with
  | nil => cases hx
  | cons z rest ih =>
      rw [List.map_cons, List.nodup_cons] at hnod
      rcases List.mem_cons.mp hx with h1 | h1
      · subst h1
        have hcongr : rest.countP pS = rest.countP pS2 := by
          refine List.countP_congr ?_
          intro y hy
          have hne : y.1 ≠ x.1 := by
            intro he
            exact hnod.1 (he ▸ List.mem_map_of_mem Prod.fst hy)
          rw [hcong y (List.mem_cons_of_mem _ hy) hne]
        simp only [List.countP_cons, hxS, hxS2, hcongr]
        simp
      · have hz : z.1 ≠ x.1 := by
          intro he
          exact hnod.1 (by rw [he]; exact List.mem_map_of_mem Prod.fst h1)
        have hzz : pS z = pS2 z := hcong z (List.mem_cons_self _ _) hz
        rw [List.countP_cons, List.countP_cons, hzz,
          ih hnod.2 h1 (fun y hy hne => hcong y (List.mem_cons_of_mem _ hy) hne)]
        omega

namespace CallTree

variable {C T : Type}

theorem holds_lt {t : CallTree C T} (hWF : WF t) {a : Nat}
    (h : t.inner.holds a = true) : a < t.inner.fresh := by
  unfold Slab.holds at h
  cases hg : t.inner.get a with
  | none => rw [hg] at h; cases h
  | some n => exact hWF.innerBound _ (Slab.get_mem hg)

theorem parentOf_some {inn : Slab (InnerNode C)} {k id : Nat}
    (h : parentOf inn k = some id) :
    ∃ nk, inn.get k = some nk ∧ nk.parent = some id := by
  unfold parentOf at h
  cases hg : inn.get k with
  | none => rw [hg] at h; cases h
  | some nk => rw [hg] at h; exact ⟨nk, rfl, h⟩

theorem parentOf_eq {inn : Slab (InnerNode C)} {k : Nat} {nk : InnerNode C}
    (h : inn.get k = some nk) : parentOf inn k = nk.parent := by
  unfold parentOf
  rw [h]
  rfl

/-- A live inner node has a live-targeted outgoing edge, and conversely:
liveness of an inner node is a positive live out-degree. -/
theorem innerLive_iff_liveOutdeg {t : CallTree C T} (hWF : WF t)
    {S : List (Nat × LeafNode T)} (hsub : S.Sublist t.leaves.entries) (id : Nat) :
    innerLiveB t.inner S id = true ↔ 0 < liveOutdeg t S id := by
  have hdec : ∀ a n p, t.inner.get a = some n → n.parent = some p → p < a :=
    fun a n p hg hp => hWF.parentLt a n hg p hp
  constructor
  · intro h
    unfold innerLiveB at h
    rw [List.any_eq_true] at h
    obtain ⟨e, heS, hch⟩ := h
    have hch2 : id ∈ chain t.inner e.2.parent := by simpa using hch
    have heE : e ∈ t.leaves.entries := hsub.mem heS
    have hge : t.leaves.get e.1 = some e.2 := mlookup_eq_of_mem_nodup hWF.leafNodup heE
    cases hpar : e.2.parent with
    | none => rw [hpar, chain, chainN_none] at hch2; cases hch2
    | some a =>
        rw [hpar, chain] at hch2
        rcases chainN_pred t.inner.fresh a id hch2 with h1 | ⟨k, hk, hpk⟩
        · subst h1
          obtain ⟨r, hedge⟩ := hWF.parentEdgeLeaf e.1 e.2 id hge hpar
          unfold liveOutdeg
          rw [List.countP_pos_iff]
          refine ⟨((id, r), NodeId.leafId e.1), mlookup_eq_some_mem hedge, ?_⟩
          simp only [childLiveB, nodeKind_leafId]
          rw [leafIn_of_mem heS]
          simp
        · obtain ⟨nk, hgk, hnkp⟩ := parentOf_some hpk
          obtain ⟨r, hedge⟩ := hWF.parentEdgeInner k nk id hgk hnkp
          unfold liveOutdeg
          rw [List.countP_pos_iff]
          refine ⟨((id, r), NodeId.innerId k), mlookup_eq_some_mem hedge, ?_⟩
          simp only [childLiveB, nodeKind_innerId]
          rw [innerLiveB_of_mem t.inner heS (by rw [hpar, chain]; exact hk)]
          simp
  · intro h
    unfold liveOutdeg at h
    rw [List.countP_pos_iff] at h
    obtain ⟨e2, he2m, hp⟩ := h
    simp only [Bool.and_eq_true, decide_eq_true_eq] at hp
    have hle : mlookup t.edges e2.1 = some e2.2 := mlookup_eq_of_mem_nodup hWF.edgeNodup he2m
    rcases nodeKind_cases e2.2 with ⟨k, hk⟩ | ⟨k, hk⟩
    · rw [hk] at hp hle
      have hlivek : innerLiveB t.inner S k = true := by
        have h2 := hp.2
        simpa [childLiveB, nodeKind_innerId] using h2
      unfold innerLiveB at hlivek
      rw [List.any_eq_true] at hlivek
      obtain ⟨e, heS, hch⟩ := hlivek
      have hch2 : k ∈ chain t.inner e.2.parent := by simpa using hch
      obtain ⟨nk, hgk, hnkp⟩ := hWF.edgeParentInner e2.1 k hle
      have heE : e ∈ t.leaves.entries := hsub.mem heS
      have hge : t.leaves.get e.1 = some e.2 := mlookup_eq_of_mem_nodup hWF.leafNodup heE
      refine innerLiveB_of_mem t.inner heS ?_
      rw [chain] at hch2 ⊢
      refine chainN_closed_parent hdec t.inner.fresh e.2.parent k id ?_ hch2 ?_
      · intro a ha
        exact holds_lt hWF (hWF.parentLiveLeaf e.1 e.2 a hge ha)
      · rw [parentOf_eq hgk, hnkp, hp.1]
    · rw [hk] at hp hle
      have hlk : leafIn S k = true := by
        have h2 := hp.2
        simpa [childLiveB, nodeKind_leafId] using h2
      unfold leafIn at hlk
      rw [List.any_eq_true] at hlk
      obtain ⟨e, heS, hek0⟩ := hlk
      have hek : e.1 = k := by simpa using hek0
      have heE : e ∈ t.leaves.entries := hsub.mem heS
      have hge : t.leaves.get e.1 = some e.2 := mlookup_eq_of_mem_nodup hWF.leafNodup heE
      obtain ⟨lf2, hglf, hlfp⟩ := hWF.edgeParentLeaf e2.1 k hle
      have hsame : e.2 = lf2 := by
        rw [hek] at hge
        rw [hge] at hglf
        injection hglf
      have hsrc : t.inner.holds id = true := by
        have := hWF.edgeSrc e2.1 (NodeId.leafId k) hle
        rw [hp.1] at this
        exact this
      refine innerLiveB_of_mem t.inner heS ?_
      rw [hsame, hlfp, hp.1, chain]
      exact chainN_head_mem t.inner (holds_lt hWF hsrc)

end CallTree

namespace CallTree

variable {C T : Type}

theorem chainN_sub_of_mem {inn : Slab (InnerNode C)}
    (hdec : ∀ a n p, inn.get a = some n → n.parent = some p → p < a) :
    ∀ f₂ (p : Option Nat) f₁ a id, (∀ x, p = some x → x < f₁) →
      a ∈ chainN inn p f₁ → id ∈ chainN inn (some a) f₂ → id ∈ chainN inn p f₁ := by
  intro f₂
  induction f₂ with
  | zero =>
      intro p f₁ a id hb ha hid
      rw [chainN_zero] at hid
      cases hid
  | succ g ih =>
      intro p f₁ a id hb ha hid
      rw [chainN_succ] at hid
      rcases List.mem_cons.mp hid with h1 | h2
      · subst h1
        exact ha
      · cases hpa : parentOf inn a with
        | none => rw [hpa, chainN_none] at h2; cases h2
        | some b =>
            rw [hpa] at h2
            exact ih p f₁ b id hb (chainN_closed_parent hdec f₁ p a b hb ha hpa) h2

theorem childLiveB_mono (inn : Slab (InnerNode C)) (Sp Sr : List (Nat × LeafNode T))
    (e : Nat × LeafNode T) (c : Int)
    (h : childLiveB inn (Sp ++ Sr) c = true) :
    childLiveB inn (Sp ++ e :: Sr) c = true := by
  unfold childLiveB at h ⊢
  cases hnk : nodeKind c with
  | leafK k =>
      simp only [hnk] at h ⊢
      rw [leafIn_split, h]
      rfl
  | innerK k =>
      simp only [hnk] at h ⊢
      rw [innerLiveB_split, h]
      rfl

theorem innerLive_congr_offchain (inn : Slab (InnerNode C))
    (Sp Sr : List (Nat × LeafNode T)) (e : Nat × LeafNode T) {id : Nat}
    (hid : id ∉ chain inn e.2.parent) :
    innerLiveB inn (Sp ++ e :: Sr) id = innerLiveB inn (Sp ++ Sr) id := by
  rw [innerLiveB_split]
  simp [hid]

theorem innerLive_chain_closed {t : CallTree C T} (hWF : WF t)
    {S : List (Nat × LeafNode T)} (hsub : S.Sublist t.leaves.entries)
    {pid id : Nat} (hlive : innerLiveB t.inner S pid = true)
    (hid : id ∈ chain t.inner (some pid)) :
    innerLiveB t.inner S id = true := by
  have hdec : ∀ a n p, t.inner.get a = some n → n.parent = some p → p < a :=
    fun a n p hg hp => hWF.parentLt a n hg p hp
  unfold innerLiveB at hlive
  rw [List.any_eq_true] at hlive
  obtain ⟨e, heS, hch⟩ := hlive
  have hch2 : pid ∈ chain t.inner e.2.parent := by simpa using hch
  refine innerLiveB_of_mem t.inner heS ?_
  rw [chain] at hch2 hid ⊢
  refine chainN_sub_of_mem hdec t.inner.fresh e.2.parent t.inner.fresh pid id ?_ hch2 hid
  intro x hx
  have hge : t.leaves.get e.1 = some e.2 :=
    mlookup_eq_of_mem_nodup hWF.leafNodup (hsub.mem heS)
  exact holds_lt hWF (hWF.parentLiveLeaf e.1 e.2 x hge hx)

/-- Away from the dying leaf's parent chain the live out-degree is
unaffected by dropping that leaf. -/
theorem LOD_congr_offchain {t : CallTree C T} (hWF : WF t)
    {Sp Sr : List (Nat × LeafNode T)} {j : Nat} {lf : LeafNode T}
    (hjE : (j, lf) ∈ t.leaves.entries)
    {id : Nat} (hid : id ∉ chain t.inner lf.parent) :
    liveOutdeg t (Sp ++ (j, lf) :: Sr) id = liveOutdeg t (Sp ++ Sr) id := by
  have hjl : t.leaves.get j = some lf := mlookup_eq_of_mem_nodup hWF.leafNodup hjE
  unfold liveOutdeg
  refine List.countP_congr ?_
  intro y hy
  by_cases hsrc : y.1.1 = id
  · suffices hcl : childLiveB t.inner (Sp ++ (j, lf) :: Sr) y.2 =
        childLiveB t.inner (Sp ++ Sr) y.2 by rw [hcl]
    cases hCS : childLiveB t.inner (Sp ++ (j, lf) :: Sr) y.2 with
    | false =>
        cases hCS2 : childLiveB t.inner (Sp ++ Sr) y.2 with
        | false => rfl
        | true =>
            rw [childLiveB_mono t.inner Sp Sr ((j, lf)) y.2 hCS2] at hCS
            cases hCS
    | true =>
        cases hCS2 : childLiveB t.inner (Sp ++ Sr) y.2 with
        | true => rfl
        | false =>
            exfalso
            have hly : mlookup t.edges y.1 = some y.2 :=
              mlookup_eq_of_mem_nodup hWF.edgeNodup hy
            rcases nodeKind_cases y.2 with ⟨k, hk⟩ | ⟨k, hk⟩
            · -- inner child flipped: it lies on the dying chain, its parent
              -- is `id`, hence `id` lies on the chain too.
              rw [hk] at hCS hCS2 hly
              simp only [childLiveB, nodeKind_innerId] at hCS hCS2
              rw [innerLiveB_split] at hCS
              rw [hCS2] at hCS
              have hkch : k ∈ chain t.inner lf.parent := by simpa using hCS
              obtain ⟨nk, hgk, hnkp⟩ := hWF.edgeParentInner y.1 k hly
              refine hid ?_
              rw [chain] at hkch ⊢
              refine chainN_closed_parent
                (fun a n p hg hp => hWF.parentLt a n hg p hp) t.inner.fresh
                lf.parent k id ?_ hkch ?_
              · intro x hx
                exact holds_lt hWF (hWF.parentLiveLeaf j lf x hjl hx)
              · rw [parentOf_eq hgk, hnkp, hsrc]
            · -- leaf child flipped: the dying leaf hangs off `id` directly.
              rw [hk] at hCS hCS2 hly
              simp only [childLiveB, nodeKind_leafId] at hCS hCS2
              rw [leafIn_split] at hCS
              rw [hCS2] at hCS
              have hkj : j = k := by simpa using hCS
              subst hkj
              obtain ⟨lf2, hglf, hlfp⟩ := hWF.edgeParentLeaf y.1 j hly
              rw [hjl] at hglf
              injection hglf with hee
              refine hid ?_
              rw [hee, hlfp, hsrc, chain]
              refine chainN_head_mem t.inner (holds_lt hWF ?_)
              have := hWF.edgeSrc y.1 (NodeId.leafId j) hly
              rw [hsrc] at this
              exact this
  · have : (decide (y.1.1 = id)) = false := by simpa using hsrc
    simp only [this, Bool.false_and]

/-- Dropping the dying leaf decrements the live out-degree of the chain
node whose towards-the-leaf child has just died, by exactly one. -/
theorem LOD_head_eq {t : CallTree C T} (hWF : WF t)
    {Sp Sr : List (Nat × LeafNode T)} {j : Nat} {lf : LeafNode T}
    (hsubS : (Sp ++ (j, lf) :: Sr).Sublist t.leaves.entries)
    (pid : Nat) (c : Int) (r0 : Nat)
    (hedge0 : mlookup t.edges (pid, r0) = some c)
    (hcS : childLiveB t.inner (Sp ++ (j, lf) :: Sr) c = true)
    (hcS2 : childLiveB t.inner (Sp ++ Sr) c = false)
    (hdc : (c = NodeId.leafId j ∧ lf.parent = some pid) ∨
        (∃ kc, c = NodeId.innerId kc ∧ kc ∈ chain t.inner lf.parent ∧
          parentOf t.inner kc = some pid)) :
    liveOutdeg t (Sp ++ (j, lf) :: Sr) pid = liveOutdeg t (Sp ++ Sr) pid + 1 := by
  have hdec : ∀ a n p, t.inner.get a = some n → n.parent = some p → p < a :=
    fun a n p hg hp => hWF.parentLt a n hg p hp
  have hjE : (j, lf) ∈ t.leaves.entries :=
    hsubS.mem (by simp)
  have hjl : t.leaves.get j = some lf := mlookup_eq_of_mem_nodup hWF.leafNodup hjE
  have hpidf : pid < t.inner.fresh :=
    holds_lt hWF (hWF.edgeSrc (pid, r0) c hedge0)
  unfold liveOutdeg
  refine countP_flip hWF.edgeNodup (mlookup_eq_some_mem hedge0) ?_ ?_ ?_
  · simp [hcS]
  · simp [hcS2]
  · intro y hy hne
    by_cases hsrc : y.1.1 = pid
    · suffices hcl : childLiveB t.inner (Sp ++ (j, lf) :: Sr) y.2 =
          childLiveB t.inner (Sp ++ Sr) y.2 by rw [hcl]
      cases hCS : childLiveB t.inner (Sp ++ (j, lf) :: Sr) y.2 with
      | false =>
          cases hCS2 : childLiveB t.inner (Sp ++ Sr) y.2 with
          | false => rfl
          | true =>
              rw [childLiveB_mono t.inner Sp Sr ((j, lf)) y.2 hCS2] at hCS
              cases hCS
      | true =>
          cases hCS2 : childLiveB t.inner (Sp ++ Sr) y.2 with
          | true => rfl
          | false =>
              exfalso
              have hly : mlookup t.edges y.1 = some y.2 :=
                mlookup_eq_of_mem_nodup hWF.edgeNodup hy
              rcases nodeKind_cases y.2 with ⟨k, hk⟩ | ⟨k, hk⟩
              · -- a flipped inner child of `pid` must be the dead child `c`
                rw [hk] at hCS hCS2 hly
                simp only [childLiveB, nodeKind_innerId] at hCS hCS2
                rw [innerLiveB_split] at hCS
                rw [hCS2] at hCS
                have hkch : k ∈ chain t.inner lf.parent := by simpa using hCS
                obtain ⟨nk, hgk, hnkp⟩ := hWF.edgeParentInner y.1 k hly
                have hkp : parentOf t.inner k = some pid := by
                  rw [parentOf_eq hgk, hnkp, hsrc]
                rcases hdc with ⟨hc, hlp⟩ | ⟨kc, hc, hkch2, hkp2⟩
                · rw [hlp, chain] at hkch
                  have := chainN_mem_le hdec t.inner.fresh pid k hpidf hkch
                  have := parentOf_lt hdec hkp
                  omega
                · cases hlfp : lf.parent with
                  | none => rw [hlfp, chain, chainN_none] at hkch; cases hkch
                  | some p1 =>
                      have hp1f : p1 < t.inner.fresh :=
                        holds_lt hWF (hWF.parentLiveLeaf j lf p1 hjl hlfp)
                      rw [hlfp, chain] at hkch hkch2
                      have hkkc : k = kc :=
                        chainN_next_unique hdec t.inner.fresh p1 k kc pid hp1f
                          hkch hkch2 hkp hkp2
                      subst hkkc
                      have hly2 : mlookup t.edges y.1 = some c := by
                        rw [hc]
                        exact hly
                      exact hne (hWF.uniqueIncoming y.1 (pid, r0) c hly2 hedge0)
              · -- a flipped leaf child of `pid` must be the dying leaf itself
                rw [hk] at hCS hCS2 hly
                simp only [childLiveB, nodeKind_leafId] at hCS hCS2
                rw [leafIn_split] at hCS
                rw [hCS2] at hCS
                have hkj : j = k := by simpa using hCS
                subst hkj
                obtain ⟨lf2, hglf, hlfp⟩ := hWF.edgeParentLeaf y.1 j hly
                rw [hjl] at hglf
                injection hglf with hee
                rcases hdc with ⟨hc, hlp⟩ | ⟨kc, hc, hkch2, hkp2⟩
                · have hly2 : mlookup t.edges y.1 = some c := by
                    rw [hc]
                    exact hly
                  exact hne (hWF.uniqueIncoming y.1 (pid, r0) c hly2 hedge0)
                · have hlp2 : lf.parent = some pid := by rw [hee, hlfp, hsrc]
                  rw [hlp2, chain] at hkch2
                  have h1 := chainN_mem_le hdec t.inner.fresh pid kc hpidf hkch2
                  have h2 := parentOf_lt hdec hkp2
                  omega
    · have : (decide (y.1.1 = pid)) = false := by simpa using hsrc
      simp only [this, Bool.false_and]

end CallTree

namespace CallTree

variable {C T : Type}

theorem chain_mem_lt_fresh {t : CallTree C T} (hWF : WF t) {j : Nat} {lf : LeafNode T}
    (hjl : t.leaves.get j = some lf) {id : Nat}
    (h : id ∈ chain t.inner lf.parent) : id < t.inner.fresh := by
  cases hlp : lf.parent with
  | none => rw [hlp, chain, chainN_none] at h; cases h
  | some p1 =>
      have hp1 : p1 < t.inner.fresh :=
        holds_lt hWF (hWF.parentLiveLeaf j lf p1 hjl hlp)
      rw [hlp, chain] at h
      have := chainN_mem_le (fun a n p hg hp => hWF.parentLt a n hg p hp)
        t.inner.fresh p1 id hp1 h
      omega

/-- Above the decrement point the live out-degree is unaffected by dropping
the dying leaf: the dying subtree hangs off a still-live chain node. -/
theorem LOD_congr_ancestor {t : CallTree C T} (hWF : WF t)
    {Sp Sr : List (Nat × LeafNode T)} {j : Nat} {lf : LeafNode T}
    (hsubS : (Sp ++ (j, lf) :: Sr).Sublist t.leaves.entries)
    {pid id : Nat} (hpidf : pid < t.inner.fresh)
    (hpidch : pid ∈ chain t.inner lf.parent)
    (hidch : id ∈ chain t.inner (some pid)) (hidne : id ≠ pid)
    (hlivepid : innerLiveB t.inner (Sp ++ Sr) pid = true) :
    liveOutdeg t (Sp ++ (j, lf) :: Sr) id = liveOutdeg t (Sp ++ Sr) id := by
  have hdec : ∀ a n p, t.inner.get a = some n → n.parent = some p → p < a :=
    fun a n p hg hp => hWF.parentLt a n hg p hp
  have hsubS2 : (Sp ++ Sr).Sublist t.leaves.entries :=
    ((Sr.sublist_cons_self (j, lf)).append_left Sp).trans hsubS
  have hjE : (j, lf) ∈ t.leaves.entries := hsubS.mem (by simp)
  have hjl : t.leaves.get j = some lf := mlookup_eq_of_mem_nodup hWF.leafNodup hjE
  have hplf : ∀ x, lf.parent = some x → x < t.inner.fresh := by
    intro x hx
    exact holds_lt hWF (hWF.parentLiveLeaf j lf x hjl hx)
  unfold liveOutdeg
  refine List.countP_congr ?_
  intro y hy
  by_cases hsrc : y.1.1 = id
  · suffices hcl : childLiveB t.inner (Sp ++ (j, lf) :: Sr) y.2 =
        childLiveB t.inner (Sp ++ Sr) y.2 by rw [hcl]
    cases hCS : childLiveB t.inner (Sp ++ (j, lf) :: Sr) y.2 with
    | false =>
        cases hCS2 : childLiveB t.inner (Sp ++ Sr) y.2 with
        | false => rfl
        | true =>
            rw [childLiveB_mono t.inner Sp Sr ((j, lf)) y.2 hCS2] at hCS
            cases hCS
    | true =>
        cases hCS2 : childLiveB t.inner (Sp ++ Sr) y.2 with
        | true => rfl
        | false =>
            exfalso
            have hly : mlookup t.edges y.1 = some y.2 :=
              mlookup_eq_of_mem_nodup hWF.edgeNodup hy
            rcases nodeKind_cases y.2 with ⟨k, hk⟩ | ⟨k, hk⟩
            · -- flipped inner child `k` of `id`: identify it with the
              -- chain element below `id`, which is still live.
              rw [hk] at hCS hCS2 hly
              simp only [childLiveB, nodeKind_innerId] at hCS hCS2
              rw [innerLiveB_split] at hCS
              rw [hCS2] at hCS
              have hkch : k ∈ chain t.inner lf.parent := by simpa using hCS
              obtain ⟨nk, hgk, hnkp⟩ := hWF.edgeParentInner y.1 k hly
              have hkp : parentOf t.inner k = some id := by
                rw [parentOf_eq hgk, hnkp, hsrc]
              rcases chainN_pred t.inner.fresh pid id hidch with h1 | ⟨k2, hk2, hk2p⟩
              · exact hidne h1
              · have hk2ch : k2 ∈ chain t.inner lf.parent :=
                  chainN_sub_of_mem hdec t.inner.fresh lf.parent t.inner.fresh
                    pid k2 hplf hpidch hk2
                have hkk2 : k = k2 := by
                  cases hlp : lf.parent with
                  | none => rw [hlp, chain, chainN_none] at hkch; cases hkch
                  | some p1 =>
                      rw [hlp, chain] at hkch hk2ch
                      exact chainN_next_unique hdec t.inner.fresh p1 k k2 id
                        (hplf p1 hlp) hkch hk2ch hkp hk2p
                subst hkk2
                have : innerLiveB t.inner (Sp ++ Sr) k = true :=
                  innerLive_chain_closed hWF hsubS2 hlivepid hk2
                rw [this] at hCS2
                cases hCS2
            · -- flipped leaf child: the dying leaf would hang off `id`,
              -- putting `id` at the head of the chain — impossible above it.
              rw [hk] at hCS hCS2 hly
              simp only [childLiveB, nodeKind_leafId] at hCS hCS2
              rw [leafIn_split] at hCS
              rw [hCS2] at hCS
              have hkj : j = k := by simpa using hCS
              subst hkj
              obtain ⟨lf2, hglf, hlfp⟩ := hWF.edgeParentLeaf y.1 j hly
              rw [hjl] at hglf
              injection hglf with hee
              have hlp2 : lf.parent = some id := by rw [hee, hlfp, hsrc]
              rw [hlp2, chain] at hpidch
              have h1 : pid ≤ id := chainN_mem_le hdec t.inner.fresh id pid
                (hplf id hlp2) hpidch
              rw [chain] at hidch
              have h2 : id ≤ pid := chainN_mem_le hdec t.inner.fresh pid id hpidf hidch
              exact hidne (by omega)
  · have : (decide (y.1.1 = id)) = false := by simpa using hsrc
    simp only [this, Bool.false_and]

end CallTree

namespace CallTree

variable {C T : Type}

/-- The parent-chain walk of `retain` for one failing leaf transforms the
invariant for the live list `Sp ++ (j, lf) :: Sr` into the invariant for
`Sp ++ Sr`. -/
theorem prune_dead {t : CallTree C T} (hWF : WF t)
    (j : Nat) (lf : LeafNode T) (Sp Sr : List (Nat × LeafNode T))
    (hsubS : (Sp ++ (j, lf) :: Sr).Sublist t.leaves.entries) :
    ∀ (inn : Slab (InnerNode C)) (p : Option Nat), ∀ (c : Int),
      inn.fresh = t.inner.fresh →
      (∀ id, id ∈ chain t.inner p → ∃ n₀, t.inner.get id = some n₀ ∧
          inn.get id = some ⟨n₀.call, liveOutdeg t (Sp ++ (j, lf) :: Sr) id, n₀.parent⟩) →
      (∀ id, id ∉ chain t.inner p → innerLiveB t.inner (Sp ++ Sr) id = true →
          ∃ n₀, t.inner.get id = some n₀ ∧
            inn.get id = some ⟨n₀.call, liveOutdeg t (Sp ++ Sr) id, n₀.parent⟩) →
      (∀ id, id ∉ chain t.inner p → innerLiveB t.inner (Sp ++ Sr) id = false →
          inn.get id = none) →
      (∀ pid, p = some pid →
          childLiveB t.inner (Sp ++ (j, lf) :: Sr) c = true ∧
          childLiveB t.inner (Sp ++ Sr) c = false ∧
          (∃ r0, mlookup t.edges (pid, r0) = some c) ∧
          ((c = NodeId.leafId j ∧ lf.parent = some pid) ∨
            (∃ kc, c = NodeId.innerId kc ∧ kc ∈ chain t.inner lf.parent ∧
              parentOf t.inner kc = some pid))) →
      (∀ pid, p = some pid → pid ∈ chain t.inner lf.parent) →
      RetainInv t (pruneChain inn p) (Sp ++ Sr) := by
  have hdec : ∀ a n p, t.inner.get a = some n → n.parent = some p → p < a :=
    fun a n p hg hp => hWF.parentLt a n hg p hp
  have hsubS2 : (Sp ++ Sr).Sublist t.leaves.entries :=
    ((Sr.sublist_cons_self (j, lf)).append_left Sp).trans hsubS
  have hjE : (j, lf) ∈ t.leaves.entries := hsubS.mem (by simp)
  have hjl : t.leaves.get j = some lf := mlookup_eq_of_mem_nodup hWF.leafNodup hjE
  have hplf : ∀ x, lf.parent = some x → x < t.inner.fresh := by
    intro x hx
    exact holds_lt hWF (hWF.parentLiveLeaf j lf x hjl hx)
  intro inn p
  induction inn, p using pruneChain.induct with
  | case1 inn =>
      intro c hfr H1 H2 H3 H4 H7
      rw [pruneChain_none]
      refine ⟨hfr, ?_, ?_⟩
      · intro id hlive
        exact H2 id (by rw [chain, chainN_none]; exact List.not_mem_nil id) hlive
      · intro id hdead
        exact H3 id (by rw [chain, chainN_none]; exact List.not_mem_nil id) hdead
  | case2 inn pid hg =>
      intro c hfr H1 H2 H3 H4 H7
      exfalso
      have hpidf : pid < t.inner.fresh := chain_mem_lt_fresh hWF hjl (H7 pid rfl)
      obtain ⟨n₀, hgt0, hgi⟩ :=
        H1 pid (by rw [chain]; exact chainN_head_mem t.inner hpidf)
      rw [hg] at hgi
      cases hgi
  | case3 inn pid node hg hgt =>
      intro c hfr H1 H2 H3 H4 H7
      rw [pruneChain_dec inn pid node hg hgt]
      obtain ⟨hcS, hcS2, ⟨r0, hedge0⟩, hdc⟩ := H4 pid rfl
      have hpidch := H7 pid rfl
      have hpidf : pid < t.inner.fresh := chain_mem_lt_fresh hWF hjl hpidch
      obtain ⟨n₀, hgt0, hgi⟩ :=
        H1 pid (by rw [chain]; exact chainN_head_mem t.inner hpidf)
      rw [hg] at hgi
      injection hgi with hnode
      have hLODeq := LOD_head_eq hWF hsubS pid c r0 hedge0 hcS hcS2 hdc
      have hchOut : node.children = liveOutdeg t (Sp ++ (j, lf) :: Sr) pid := by
        rw [hnode]
      have hlivepid : innerLiveB t.inner (Sp ++ Sr) pid = true := by
        rw [innerLive_iff_liveOutdeg hWF hsubS2 pid]
        omega
      refine ⟨?_, ?_, ?_⟩
      · rw [Slab.modify_fresh]
        exact hfr
      · intro id hlive
        by_cases hidp : id = pid
        · subst hidp
          refine ⟨n₀, hgt0, ?_⟩
          rw [Slab.modify_get_self _ hg]
          have hch : node.children - 1 = liveOutdeg t (Sp ++ Sr) id := by
            omega
          rw [hch, hnode]
        · rw [Slab.modify_get_ne _ hidp]
          by_cases hidch : id ∈ chain t.inner (some pid)
          · obtain ⟨n₁, hg1, hi1⟩ := H1 id hidch
            refine ⟨n₁, hg1, ?_⟩
            rw [hi1, LOD_congr_ancestor hWF hsubS hpidf hpidch hidch hidp hlivepid]
          · exact H2 id hidch hlive
      · intro id hdead
        by_cases hidp : id = pid
        · subst hidp
          rw [hdead] at hlivepid
          cases hlivepid
        · by_cases hidch : id ∈ chain t.inner (some pid)
          · rw [innerLive_chain_closed hWF hsubS2 hlivepid hidch] at hdead
            cases hdead
          · rw [Slab.modify_get_ne _ hidp]
            exact H3 id hidch hdead
  | case4 inn pid node hg hgt ih =>
      intro c hfr H1 H2 H3 H4 H7
      rw [pruneChain_del inn pid node hg hgt]
      obtain ⟨hcS, hcS2, ⟨r0, hedge0⟩, hdc⟩ := H4 pid rfl
      have hpidch := H7 pid rfl
      have hpidf : pid < t.inner.fresh := chain_mem_lt_fresh hWF hjl hpidch
      obtain ⟨n₀, hgt0, hgi⟩ :=
        H1 pid (by rw [chain]; exact chainN_head_mem t.inner hpidf)
      rw [hg] at hgi
      injection hgi with hnode
      have hLODeq := LOD_head_eq hWF hsubS pid c r0 hedge0 hcS hcS2 hdc
      have hchOut : node.children = liveOutdeg t (Sp ++ (j, lf) :: Sr) pid := by
        rw [hnode]
      have hdeadpid : innerLiveB t.inner (Sp ++ Sr) pid = false := by
        cases hcon : innerLiveB t.inner (Sp ++ Sr) pid with
        | false => rfl
        | true =>
            exfalso
            rw [innerLive_iff_liveOutdeg hWF hsubS2 pid] at hcon
            omega
      have hnpar : node.parent = n₀.parent := by rw [hnode]
      have hppid : parentOf t.inner pid = n₀.parent := parentOf_eq hgt0
      -- the tail of the chain through `pid`, with matching fuel
      have hfr1 : 1 ≤ t.inner.fresh := by omega
      have htail : chain t.inner (node.parent) =
          chainN t.inner (parentOf t.inner pid) (t.inner.fresh - 1) := by
        rw [hnpar, ← hppid, chain]
        refine chainN_fuel_eq hdec _ _ _ ?_ ?_ <;>
        · intro x hx
          have := parentOf_lt hdec hx
          omega
      have hsplit : ∀ id, id ∈ chain t.inner node.parent →
          id ∈ chain t.inner (some pid) ∧ id ≠ pid := by
        intro id hid
        rw [htail] at hid
        constructor
        · rw [chain]
          obtain ⟨g, hgf⟩ : ∃ g, t.inner.fresh = g + 1 := ⟨t.inner.fresh - 1, by omega⟩
          rw [hgf, chainN_succ]
          refine List.mem_cons_of_mem _ ?_
          have hge : t.inner.fresh - 1 = g := by omega
          rw [← hge]
          exact hid
        · cases hpp : parentOf t.inner pid with
          | none => rw [hpp, chainN_none] at hid; cases hid
          | some q =>
              rw [hpp] at hid
              have hq := parentOf_lt hdec hpp
              have := chainN_mem_le hdec (t.inner.fresh - 1) q id (by omega) hid
              omega
      have hsplit2 : ∀ id, id ∈ chain t.inner (some pid) →
          id = pid ∨ id ∈ chain t.inner node.parent := by
        intro id hid
        rw [chain] at hid
        obtain ⟨g, hgf⟩ : ∃ g, t.inner.fresh = g + 1 := ⟨t.inner.fresh - 1, by omega⟩
        rw [hgf, chainN_succ] at hid
        rcases List.mem_cons.mp hid with h1 | h2
        · exact Or.inl h1
        · refine Or.inr ?_
          rw [htail]
          have : t.inner.fresh - 1 = g := by omega
          rw [this]
          exact h2
      refine ih (NodeId.innerId pid) ?_ ?_ ?_ ?_ ?_ ?_
      · rw [Slab.remove_fresh]
        exact hfr
      · intro id hid
        obtain ⟨hidch, hidne⟩ := hsplit id hid
        obtain ⟨n₁, hg1, hi1⟩ := H1 id hidch
        refine ⟨n₁, hg1, ?_⟩
        rw [Slab.remove_get_ne inn hidne]
        exact hi1
      · intro id hid hlive
        by_cases hidp : id = pid
        · subst hidp
          rw [hlive] at hdeadpid
          cases hdeadpid
        · have hidch : id ∉ chain t.inner (some pid) := by
            intro hcon
            rcases hsplit2 id hcon with h1 | h1
            · exact hidp h1
            · exact hid h1
          obtain ⟨n₁, hg1, hi1⟩ := H2 id hidch hlive
          refine ⟨n₁, hg1, ?_⟩
          rw [Slab.remove_get_ne inn hidp]
          exact hi1
      · intro id hid hdead
        by_cases hidp : id = pid
        · subst hidp
          exact Slab.remove_get_self inn id
        · have hidch : id ∉ chain t.inner (some pid) := by
            intro hcon
            rcases hsplit2 id hcon with h1 | h1
            · exact hidp h1
            · exact hid h1
          rw [Slab.remove_get_ne inn hidp]
          exact H3 id hidch hdead
      · intro q hq
        have hmemS : ((j, lf) : Nat × LeafNode T) ∈ Sp ++ (j, lf) :: Sr := by simp
        refine ⟨?_, ?_, ?_, ?_⟩
        · simp only [childLiveB, nodeKind_innerId]
          exact innerLiveB_of_mem t.inner hmemS hpidch
        · simp only [childLiveB, nodeKind_innerId]
          exact hdeadpid
        · have hq0 : n₀.parent = some q := by rw [← hnpar, hq]
          obtain ⟨r, hr⟩ := hWF.parentEdgeInner pid n₀ q hgt0 hq0
          exact ⟨r, hr⟩
        · refine Or.inr ⟨pid, rfl, hpidch, ?_⟩
          rw [hppid, ← hnpar, hq]
      · intro q hq
        have hq0 : parentOf t.inner pid = some q := by rw [hppid, ← hnpar, hq]
        exact chainN_closed_parent hdec t.inner.fresh lf.parent pid q hplf hpidch hq0

end CallTree

namespace CallTree

variable {C T : Type}

theorem chain_holds {t : CallTree C T} (hWF : WF t) :
    ∀ (fuel : Nat) (p : Option Nat), (∀ x, p = some x → t.inner.holds x = true) →
      ∀ id ∈ chainN t.inner p fuel, t.inner.holds id = true := by
  intro fuel
  induction fuel with
  | zero =>
      intro p hp id hid
      rw [chainN_zero] at hid
      cases hid
  | succ g ih =>
      intro p hp id hid
      cases p with
      | none => rw [chainN_none] at hid; cases hid
      | some a =>
          rw [chainN_succ] at hid
          rcases List.mem_cons.mp hid with h1 | h2
          · subst h1
            exact hp id rfl
          · refine ih (parentOf t.inner a) ?_ id h2
            intro x hx
            obtain ⟨na, hga, hpa⟩ := parentOf_some hx
            exact hWF.parentLiveInner a na x hga hpa

theorem childLiveB_entries {t : CallTree C T} (hWF : WF t) {c : Int}
    (hlive : lives t.inner t.leaves c = true) :
    childLiveB t.inner t.leaves.entries c = true := by
  unfold lives at hlive
  unfold childLiveB
  rcases nodeKind_cases c with ⟨k, hk⟩ | ⟨k, hk⟩
  · rw [hk] at hlive ⊢
    simp only [nodeKind_innerId] at hlive ⊢
    unfold Slab.holds at hlive
    cases hg : t.inner.get k with
    | none => rw [hg] at hlive; cases hlive
    | some nk =>
        obtain ⟨j2, lf2, hgl, hch⟩ := hWF.leafDescend k nk hg
        exact innerLiveB_of_mem t.inner (Slab.get_mem hgl) hch
  · rw [hk] at hlive ⊢
    simp only [nodeKind_leafId] at hlive ⊢
    unfold Slab.holds at hlive
    cases hg : t.leaves.get k with
    | none => rw [hg] at hlive; cases hlive
    | some lfk => exact leafIn_of_mem (Slab.get_mem hg)

theorem LOD_entries {t : CallTree C T} (hWF : WF t) (id : Nat) :
    liveOutdeg t t.leaves.entries id = t.outdeg id := by
  unfold liveOutdeg outdeg
  refine List.countP_congr ?_
  intro y hy
  have hly : mlookup t.edges y.1 = some y.2 :=
    mlookup_eq_of_mem_nodup hWF.edgeNodup hy
  have hcl : childLiveB t.inner t.leaves.entries y.2 = true :=
    childLiveB_entries hWF (hWF.edgeLive y.1 y.2 hly)
  rw [hcl, Bool.and_true]

/-- Before any leaf has been processed, the inner arena itself satisfies
the retain invariant for the full entry list. -/
theorem retainInv_init {t : CallTree C T} (hWF : WF t) :
    RetainInv t t.inner t.leaves.entries := by
  refine ⟨rfl, ?_, ?_⟩
  · intro id hlive
    unfold innerLiveB at hlive
    rw [List.any_eq_true] at hlive
    obtain ⟨e, heS, hch⟩ := hlive
    have hch2 : id ∈ chain t.inner e.2.parent := by simpa using hch
    have hge : t.leaves.get e.1 = some e.2 :=
      mlookup_eq_of_mem_nodup hWF.leafNodup heS
    have hholds : t.inner.holds id = true := by
      rw [chain] at hch2
      refine chain_holds hWF t.inner.fresh e.2.parent ?_ id hch2
      intro x hx
      exact hWF.parentLiveLeaf e.1 e.2 x hge hx
    unfold Slab.holds at hholds
    obtain ⟨n₀, hg⟩ := Option.isSome_iff_exists.mp hholds
    refine ⟨n₀, hg, ?_⟩
    have hchd : n₀.children = liveOutdeg t t.leaves.entries id := by
      rw [hWF.childrenEq id n₀ hg, LOD_entries hWF]
    rw [hg, ← hchd]
  · intro id hdead
    cases hg : t.inner.get id with
    | none => rfl
    | some nd =>
        obtain ⟨j2, lf2, hgl, hch⟩ := hWF.leafDescend id nd hg
        have : innerLiveB t.inner t.leaves.entries id = true :=
          innerLiveB_of_mem t.inner (Slab.get_mem hgl) hch
        rw [this] at hdead
        cases hdead

theorem leafIn_drop_false {t : CallTree C T} (hWF : WF t)
    {Sp Sr : List (Nat × LeafNode T)} {j : Nat} {lf : LeafNode T}
    (hsubS : (Sp ++ (j, lf) :: Sr).Sublist t.leaves.entries) :
    leafIn (Sp ++ Sr) j = false := by
  have hkeys : ((Sp ++ (j, lf) :: Sr).map Prod.fst).Nodup :=
    hWF.leafNodup.sublist (hsubS.map Prod.fst)
  have hkeys2 : (Sp.map Prod.fst ++ j :: Sr.map Prod.fst).Nodup := by
    simpa using hkeys
  have hnj := (List.nodup_cons.mp (List.nodup_middle.mp hkeys2)).1
  cases hcon : leafIn (Sp ++ Sr) j with
  | false => rfl
  | true =>
      exfalso
      unfold leafIn at hcon
      rw [List.any_eq_true] at hcon
      obtain ⟨e, heSS, hej0⟩ := hcon
      have hej : e.1 = j := by simpa using hej0
      refine hnj ?_
      rw [← hej, ← List.map_append]
      exact List.mem_map_of_mem Prod.fst heSS

theorem liveList_pass (f : T → T × Bool) (P L : List (Nat × LeafNode T))
    (e : Nat × LeafNode T) (hp : (f e.2.value).2 = true) :
    liveList f (P ++ [e]) L = liveList f P (e :: L) := by
  unfold liveList
  rw [List.filter_append, List.filter_singleton, hp]
  simp

theorem liveList_fail (f : T → T × Bool) (P L : List (Nat × LeafNode T))
    (e : Nat × LeafNode T) (hp : (f e.2.value).2 = false) :
    liveList f (P ++ [e]) L = liveList f P L := by
  unfold liveList
  rw [List.filter_append, List.filter_singleton, hp]
  simp

/-- Running the leaf pass of `retain` over the suffix `L` transforms the
invariant for `liveList f P L` into the invariant for the survivors. -/
theorem retainLeaves_inv {t : CallTree C T} (hWF : WF t) (f : T → T × Bool) :
    ∀ (L P : List (Nat × LeafNode T)),
      t.leaves.entries = P ++ L →
      ∀ inn, RetainInv t inn (liveList f P L) →
      RetainInv t (retainLeaves f inn L).1 (liveList f (P ++ L) []) := by
  intro L
  induction L with
  | nil =>
      intro P hent inn hinv
      rw [List.append_nil]
      exact hinv
  | cons e rest ih =>
      intro P hent inn hinv
      obtain ⟨id0, lf0⟩ := e
      have hent2 : t.leaves.entries = (P ++ [(id0, lf0)]) ++ rest := by
        rw [hent, List.append_assoc, List.singleton_append]
      have hfix : P ++ (id0, lf0) :: rest = (P ++ [(id0, lf0)]) ++ rest := by
        rw [List.append_assoc, List.singleton_append]
      rw [retainLeaves]
      simp only
      by_cases hp : (f lf0.value).2
      · rw [if_pos hp]
        have hres := ih (P ++ [(id0, lf0)]) hent2 inn
          (by rw [liveList_pass f P rest (id0, lf0) hp]; exact hinv)
        rw [hfix]
        exact hres
      · rw [if_neg hp]
        have hp2 : (f lf0.value).2 = false := by
          cases h : (f lf0.value).2
          · rfl
          · exact absurd h hp
        -- establish the invariant after pruning via `prune_dead`
        have hsubS : (P.filter (fun e => (f e.2.value).2) ++ (id0, lf0) :: rest).Sublist
            t.leaves.entries := by
          rw [hent]
          exact (P.filter_sublist).append (List.Sublist.refl _)
        have hjE0 : (id0, lf0) ∈ t.leaves.entries := hsubS.mem (by simp)
        have hjl0 : t.leaves.get id0 = some lf0 :=
          mlookup_eq_of_mem_nodup hWF.leafNodup hjE0
        have hinv2 : RetainInv t inn
            (P.filter (fun e => (f e.2.value).2) ++ (id0, lf0) :: rest) := hinv
        have hlive0 := hinv2.live
        have hdead0 := hinv2.dead
        have hMemS : ((id0, lf0) : Nat × LeafNode T) ∈
            P.filter (fun e => (f e.2.value).2) ++ (id0, lf0) :: rest := by simp
        have hpruned : RetainInv t (pruneChain inn lf0.parent)
            (P.filter (fun e => (f e.2.value).2) ++ rest) := by
          refine prune_dead hWF id0 lf0 _ rest hsubS inn lf0.parent
            (NodeId.leafId id0) hinv2.fr ?_ ?_ ?_ ?_ ?_
          · intro id hid
            exact hlive0 id (innerLiveB_of_mem t.inner hMemS hid)
          · intro id hid hliveS2
            have hliveS : innerLiveB t.inner
                (P.filter (fun e => (f e.2.value).2) ++ (id0, lf0) :: rest) id = true := by
              rw [innerLiveB_split, hliveS2]
              rfl
            obtain ⟨n₀, hg0, hi0⟩ := hlive0 id hliveS
            refine ⟨n₀, hg0, ?_⟩
            rw [hi0, LOD_congr_offchain hWF hjE0 hid]
          · intro id hid hdeadS2
            refine hdead0 id ?_
            rw [innerLiveB_split, hdeadS2]
            simp [hid]
          · intro pid hq
            refine ⟨?_, ?_, ?_, Or.inl ⟨rfl, hq⟩⟩
            · simp only [childLiveB, nodeKind_leafId]
              exact leafIn_of_mem hMemS
            · simp only [childLiveB, nodeKind_leafId]
              exact leafIn_drop_false hWF hsubS
            · exact hWF.parentEdgeLeaf id0 lf0 pid hjl0 hq
          · intro pid hq
            rw [hq, chain]
            refine chainN_head_mem t.inner ?_
            exact holds_lt hWF (hWF.parentLiveLeaf id0 lf0 pid hjl0 hq)
        have hres := ih (P ++ [(id0, lf0)]) hent2 (pruneChain inn lf0.parent)
          (by rw [liveList_fail f P rest (id0, lf0) hp2]; exact hpruned)
        rw [hfix]
        exact hres

end CallTree

theorem mlookup_filter_keep {κ ν : Type} [DecidableEq κ] {m : List (κ × ν)}
    (hnod : (m.map Prod.fst).Nodup) {pred : κ × ν → Bool} {k : κ} {v : ν}
    (h : mlookup m k = some v) (hp : pred (k, v) = true) :
    mlookup (m.filter pred) k = some v := by
  have hmem : (k, v) ∈ m.filter pred := List.mem_filter.mpr ⟨mlookup_eq_some_mem h, hp⟩
  exact mlookup_eq_of_mem_nodup (hnod.sublist ((m.filter_sublist).map Prod.fst)) hmem

theorem mlookup_filter_orig {κ ν : Type} [DecidableEq κ] {m : List (κ × ν)}
    (hnod : (m.map Prod.fst).Nodup) {pred : κ × ν → Bool} {k : κ} {v : ν}
    (h : mlookup (m.filter pred) k = some v) : mlookup m k = some v :=
  mlookup_eq_of_mem_nodup hnod (List.mem_of_mem_filter (mlookup_eq_some_mem h))

theorem filterMap_keep {α β : Type} (p : α → Bool) (g : α → β) (l : List α) :
    l.filterMap (fun a => if p a then some (g a) else none) = (l.filter p).map g := by
  induction l with
  | nil => rfl
  | cons a rest ih =>
      by_cases hp : p a
      · rw [List.filterMap_cons, List.filter_cons_of_pos hp, List.map_cons, ← ih]
        simp [hp]
      · rw [List.filterMap_cons, List.filter_cons_of_neg hp, ← ih]
        simp [hp]

namespace CallTree

variable {C T : Type}

/-- The surviving inner arena of `retain` satisfies the retain invariant for
the passing leaf entries. -/
theorem retain_invFinal {t : CallTree C T} (hWF : WF t) (f : T → T × Bool) :
    RetainInv t (t.retain f).inner
      (t.leaves.entries.filter (fun e => (f e.2.value).2)) := by
  have h := retainLeaves_inv hWF f t.leaves.entries [] rfl t.inner (retainInv_init hWF)
  have heq : liveList f ([] ++ t.leaves.entries) [] =
      t.leaves.entries.filter (fun e => (f e.2.value).2) := by
    unfold liveList
    rw [List.nil_append, List.append_nil]
  rw [heq] at h
  exact h

theorem retain_leaves_entries (t : CallTree C T) (f : T → T × Bool) :
    (t.retain f).leaves.entries =
      (t.leaves.entries.filter (fun e => (f e.2.value).2)).map
        (fun e => (e.1, ({ e.2 with value := (f e.2.value).1 } : LeafNode T))) := by
  show (retainLeaves f t.inner t.leaves.entries).2 = _
  rw [retainLeaves_snd, filterMap_keep]

theorem retain_leaves_keys (t : CallTree C T) (f : T → T × Bool) :
    (t.retain f).leaves.entries.map Prod.fst =
      (t.leaves.entries.filter (fun e => (f e.2.value).2)).map Prod.fst := by
  rw [retain_leaves_entries, List.map_map]
  rfl

/-- The leaves of the retained tree: exactly the passing original leaves,
with the mutated values. -/
theorem retain_leaves_get {t : CallTree C T} (hWF : WF t) (f : T → T × Bool)
    {j : Nat} {lf2 : LeafNode T} :
    (t.retain f).leaves.get j = some lf2 ↔
      ∃ lf0, t.leaves.get j = some lf0 ∧ (f lf0.value).2 = true ∧
        lf2 = ⟨(f lf0.value).1, lf0.parent⟩ := by
  have hkn : ((t.retain f).leaves.entries.map Prod.fst).Nodup := by
    rw [retain_leaves_keys]
    exact hWF.leafNodup.sublist ((t.leaves.entries.filter_sublist).map Prod.fst)
  constructor
  · intro h
    have hmem : (j, lf2) ∈ (t.retain f).leaves.entries := mlookup_eq_some_mem h
    rw [retain_leaves_entries] at hmem
    rcases List.mem_map.mp hmem with ⟨e, hef, hee⟩
    rcases List.mem_filter.mp hef with ⟨heE, hpass⟩
    injection hee with he1 he2
    refine ⟨e.2, ?_, hpass, ?_⟩
    · rw [← he1]
      exact mlookup_eq_of_mem_nodup hWF.leafNodup heE
    · rw [← he2]
  · rintro ⟨lf0, hg0, hpass, hlf2⟩
    have hmem : (j, lf2) ∈ (t.retain f).leaves.entries := by
      rw [retain_leaves_entries]
      refine List.mem_map.mpr ⟨(j, lf0), List.mem_filter.mpr ⟨mlookup_eq_some_mem hg0, hpass⟩, ?_⟩
      rw [hlf2]
    exact mlookup_eq_of_mem_nodup hkn hmem

theorem retain_leaves_fresh (t : CallTree C T) (f : T → T × Bool) :
    (t.retain f).leaves.fresh = t.leaves.fresh := rfl

theorem retain_inner_fresh (t : CallTree C T) (f : T → T × Bool) :
    (t.retain f).inner.fresh = t.inner.fresh := by
  show (retainLeaves f t.inner t.leaves.entries).1.fresh = t.inner.fresh
  exact retainLeaves_fst_fresh f t.leaves.entries t.inner

/-- Characterization of the surviving inner nodes. -/
theorem retain_inner_char {t : CallTree C T} (hWF : WF t) (f : T → T × Bool)
    {id : Nat} {n : InnerNode C}
    (hg : (t.retain f).inner.get id = some n) :
    ∃ n₀, t.inner.get id = some n₀ ∧ n.call = n₀.call ∧ n.parent = n₀.parent ∧
      n.children = liveOutdeg t (t.leaves.entries.filter (fun e => (f e.2.value).2)) id ∧
      innerLiveB t.inner (t.leaves.entries.filter (fun e => (f e.2.value).2)) id = true := by
  have hInv := retain_invFinal hWF f
  cases hlive : innerLiveB t.inner (t.leaves.entries.filter (fun e => (f e.2.value).2)) id with
  | false =>
      rw [hInv.dead id hlive] at hg
      cases hg
  | true =>
      obtain ⟨n₀, hg0, hgi⟩ := hInv.live id hlive
      rw [hg] at hgi
      injection hgi with hn
      subst hn
      exact ⟨n₀, hg0, rfl, rfl, rfl, rfl⟩

/-- Liveness in the retained arenas coincides with liveness relative to the
passing leaf entries. -/
theorem retain_lives_eq {t : CallTree C T} (hWF : WF t) (f : T → T × Bool) (c : Int) :
    lives (t.retain f).inner (t.retain f).leaves c =
      childLiveB t.inner (t.leaves.entries.filter (fun e => (f e.2.value).2)) c := by
  have hInv := retain_invFinal hWF f
  unfold lives childLiveB
  rcases nodeKind_cases c with ⟨k, hk⟩ | ⟨k, hk⟩
  · rw [hk]
    simp only [nodeKind_innerId]
    cases hlive : innerLiveB t.inner (t.leaves.entries.filter (fun e => (f e.2.value).2)) k with
    | false =>
        unfold Slab.holds
        rw [hInv.dead k hlive]
        rfl
    | true =>
        obtain ⟨n₀, hg0, hgi⟩ := hInv.live k hlive
        unfold Slab.holds
        rw [hgi]
        rfl
  · rw [hk]
    simp only [nodeKind_leafId]
    cases hlin : leafIn (t.leaves.entries.filter (fun e => (f e.2.value).2)) k with
    | false =>
        unfold Slab.holds
        cases hg2 : (t.retain f).leaves.get k with
        | none => rfl
        | some lf2 =>
            exfalso
            obtain ⟨lf0, hg0, hpass, hlf2⟩ := (retain_leaves_get hWF f).mp hg2
            have hmem : ((k, lf0) : Nat × LeafNode T) ∈
                t.leaves.entries.filter (fun e => (f e.2.value).2) :=
              List.mem_filter.mpr ⟨mlookup_eq_some_mem hg0, hpass⟩
            have := leafIn_of_mem hmem
            rw [this] at hlin
            cases hlin
    | true =>
        unfold leafIn at hlin
        rw [List.any_eq_true] at hlin
        obtain ⟨e, heF, hek0⟩ := hlin
        have hek : e.1 = k := by simpa using hek0
        rcases List.mem_filter.mp heF with ⟨heE, hpass⟩
        have hg0 : t.leaves.get k = some e.2 := by
          rw [← hek]
          exact mlookup_eq_of_mem_nodup hWF.leafNodup heE
        have hg2 : (t.retain f).leaves.get k = some ⟨(f e.2.value).1, e.2.parent⟩ :=
          (retain_leaves_get hWF f).mpr ⟨e.2, hg0, hpass, rfl⟩
        unfold Slab.holds
        rw [hg2]
        rfl

end CallTree

namespace CallTree

variable {C T : Type}

theorem chainN_congr {inn1 inn2 : Slab (InnerNode C)} :
    ∀ (fuel : Nat) (p : Option Nat),
      (∀ a, a ∈ chainN inn2 p fuel → parentOf inn1 a = parentOf inn2 a) →
      chainN inn1 p fuel = chainN inn2 p fuel := by
  intro fuel
  induction fuel with
  | zero => intro p h; rw [chainN_zero, chainN_zero]
  | succ g ih =>
      intro p h
      cases p with
      | none => rw [chainN_none, chainN_none]
      | some a =>
          rw [chainN_succ, chainN_succ]
          have ha : parentOf inn1 a = parentOf inn2 a :=
            h a (by rw [chainN_succ]; exact List.mem_cons_self _ _)
          rw [ha]
          congr 1
          refine ih (parentOf inn2 a) ?_
          intro b hb
          exact h b (by rw [chainN_succ]; exact List.mem_cons_of_mem _ hb)

/-- `retain` preserves the full structural invariant. -/
theorem WF_retain {t : CallTree C T} (hWF : WF t) (f : T → T × Bool) :
    WF (t.retain f) := by
  have hInv := retain_invFinal hWF f
  have hSFsub : (t.leaves.entries.filter (fun e => (f e.2.value).2)).Sublist
      t.leaves.entries := t.leaves.entries.filter_sublist
  have hdec : ∀ a n p, t.inner.get a = some n → n.parent = some p → p < a :=
    fun a n p hg hp => hWF.parentLt a n hg p hp
  have hliveHolds : ∀ id,
      innerLiveB t.inner (t.leaves.entries.filter (fun e => (f e.2.value).2)) id = true →
      (t.retain f).inner.holds id = true := by
    intro id h
    obtain ⟨n₀, hg0, hgi⟩ := hInv.live id h
    unfold Slab.holds
    rw [hgi]
    rfl
  have hredges : (t.retain f).edges =
      t.edges.filter (fun e => lives (t.retain f).inner (t.retain f).leaves e.2) := rfl
  have hrstart : (t.retain f).start =
      t.start.filter (fun e => lives (t.retain f).inner (t.retain f).leaves e.2) := rfl
  refine ⟨?_, ?_, ?_, ?_, ?_, ?_, ?_, ?_, ?_, ?_, ?_, ?_, ?_, ?_, ?_, ?_, ?_, ?_,
    ?_, ?_, ?_, ?_⟩
  · exact hWF.innerNodup.sublist (retainLeaves_fst_keys_sublist f t.leaves.entries t.inner)
  · rw [retain_leaves_keys]
    exact hWF.leafNodup.sublist (hSFsub.map Prod.fst)
  · intro e he
    have h1 : e.1 ∈ (t.retain f).inner.entries.map Prod.fst :=
      List.mem_map_of_mem Prod.fst he
    have h2 := (retainLeaves_fst_keys_sublist f t.leaves.entries t.inner).mem h1
    rcases List.mem_map.mp h2 with ⟨e₀, he₀, hk⟩
    have := hWF.innerBound e₀ he₀
    rw [hk] at this
    rw [retain_inner_fresh]
    exact this
  · intro e he
    have h1 : e.1 ∈ (t.retain f).leaves.entries.map Prod.fst :=
      List.mem_map_of_mem Prod.fst he
    rw [retain_leaves_keys] at h1
    rcases List.mem_map.mp h1 with ⟨e₀, he₀, hk⟩
    have := hWF.leafBound e₀ (hSFsub.mem he₀)
    rw [hk] at this
    rw [retain_leaves_fresh]
    exact this
  · exact hWF.startNodup.sublist ((t.start.filter_sublist).map Prod.fst)
  · exact hWF.edgeNodup.sublist ((t.edges.filter_sublist).map Prod.fst)
  · intro k n h
    have hm : ((k, n) : Nat × Int) ∈ t.start.filter
        (fun e => lives (t.retain f).inner (t.retain f).leaves e.2) :=
      mlookup_eq_some_mem h
    have hlv0 : (fun e => lives (t.retain f).inner (t.retain f).leaves e.2)
        ((k, n) : Nat × Int) = true := (List.mem_filter.mp hm).2
    exact hlv0
  · intro pr n h
    have hm : ((pr, n) : (Nat × Nat) × Int) ∈ t.edges.filter
        (fun e => lives (t.retain f).inner (t.retain f).leaves e.2) :=
      mlookup_eq_some_mem h
    have hlv0 : (fun e => lives (t.retain f).inner (t.retain f).leaves e.2)
        ((pr, n) : (Nat × Nat) × Int) = true := (List.mem_filter.mp hm).2
    exact hlv0
  · intro pr n h
    rw [hredges] at h
    have horig : mlookup t.edges pr = some n := mlookup_filter_orig hWF.edgeNodup h
    have hm : ((pr, n) : (Nat × Nat) × Int) ∈ t.edges.filter
        (fun e => lives (t.retain f).inner (t.retain f).leaves e.2) :=
      mlookup_eq_some_mem h
    have hlv0 : (fun e => lives (t.retain f).inner (t.retain f).leaves e.2)
        ((pr, n) : (Nat × Nat) × Int) = true := (List.mem_filter.mp hm).2
    have hlv : lives (t.retain f).inner (t.retain f).leaves n = true := hlv0
    rw [retain_lives_eq hWF f] at hlv
    have hpos : 0 < liveOutdeg t (t.leaves.entries.filter (fun e => (f e.2.value).2)) pr.1 := by
      unfold liveOutdeg
      rw [List.countP_pos_iff]
      exact ⟨(pr, n), mlookup_eq_some_mem horig, by simp [hlv]⟩
    exact hliveHolds pr.1 ((innerLive_iff_liveOutdeg hWF hSFsub pr.1).mpr hpos)
  · intro pr j h
    rw [hredges] at h
    exact hWF.edgeInc pr j (mlookup_filter_orig hWF.edgeNodup h)
  · intro id n hg p hp
    rcases retain_inner_char hWF f hg with ⟨n₀, hg0, hcall, hpar, hch, hlv⟩
    rw [hpar] at hp
    exact hWF.parentLt id n₀ hg0 p hp
  · intro id n hg
    rcases retain_inner_char hWF f hg with ⟨n₀, hg0, hcall, hpar, hch, hlv⟩
    have hout : (t.retain f).outdeg id =
        liveOutdeg t (t.leaves.entries.filter (fun e => (f e.2.value).2)) id := by
      unfold outdeg liveOutdeg
      rw [hredges, List.countP_filter]
      refine List.countP_congr ?_
      intro y hy
      rw [retain_lives_eq hWF f]
    rw [hch, ← hout]
  · intro pr j h
    rw [hredges] at h
    have horig := mlookup_filter_orig hWF.edgeNodup h
    have hm : ((pr, NodeId.innerId j) : (Nat × Nat) × Int) ∈ t.edges.filter
        (fun e => lives (t.retain f).inner (t.retain f).leaves e.2) :=
      mlookup_eq_some_mem h
    have hlv0 : (fun e => lives (t.retain f).inner (t.retain f).leaves e.2)
        ((pr, NodeId.innerId j) : (Nat × Nat) × Int) = true := (List.mem_filter.mp hm).2
    have hlv : lives (t.retain f).inner (t.retain f).leaves (NodeId.innerId j) = true := hlv0
    rw [retain_lives_eq hWF f] at hlv
    have hlivej : innerLiveB t.inner
        (t.leaves.entries.filter (fun e => (f e.2.value).2)) j = true := by
      simpa [childLiveB, nodeKind_innerId] using hlv
    obtain ⟨n₀, hg0, hgi⟩ := hInv.live j hlivej
    obtain ⟨n₁, hg1, hp1⟩ := hWF.edgeParentInner pr j horig
    rw [hg0] at hg1
    injection hg1 with he
    refine ⟨_, hgi, ?_⟩
    show n₀.parent = some pr.1
    rw [he]
    exact hp1
  · intro pr j h
    rw [hredges] at h
    have horig := mlookup_filter_orig hWF.edgeNodup h
    have hm : ((pr, NodeId.leafId j) : (Nat × Nat) × Int) ∈ t.edges.filter
        (fun e => lives (t.retain f).inner (t.retain f).leaves e.2) :=
      mlookup_eq_some_mem h
    have hlv0 : (fun e => lives (t.retain f).inner (t.retain f).leaves e.2)
        ((pr, NodeId.leafId j) : (Nat × Nat) × Int) = true := (List.mem_filter.mp hm).2
    have hlv : lives (t.retain f).inner (t.retain f).leaves (NodeId.leafId j) = true := hlv0
    rw [retain_lives_eq hWF f] at hlv
    have hlin : leafIn (t.leaves.entries.filter (fun e => (f e.2.value).2)) j = true := by
      simpa [childLiveB, nodeKind_leafId] using hlv
    unfold leafIn at hlin
    rw [List.any_eq_true] at hlin
    obtain ⟨e, heF, hek0⟩ := hlin
    have hek : e.1 = j := by simpa using hek0
    rcases List.mem_filter.mp heF with ⟨heE, hpass⟩
    have hg0 : t.leaves.get j = some e.2 := by
      rw [← hek]
      exact mlookup_eq_of_mem_nodup hWF.leafNodup heE
    have hg2 := (retain_leaves_get hWF f).mpr ⟨e.2, hg0, hpass, rfl⟩
    obtain ⟨lf₁, hg1, hp1⟩ := hWF.edgeParentLeaf pr j horig
    rw [hg0] at hg1
    injection hg1 with he
    refine ⟨_, hg2, ?_⟩
    show e.2.parent = some pr.1
    rw [he]
    exact hp1
  · intro j n p hg hp
    rcases retain_inner_char hWF f hg with ⟨n₀, hg0, hcall, hpar, hch, hlv⟩
    rw [hpar] at hp
    obtain ⟨r2, hr2⟩ := hWF.parentEdgeInner j n₀ p hg0 hp
    refine ⟨r2, ?_⟩
    rw [hredges]
    refine mlookup_filter_keep hWF.edgeNodup hr2 ?_
    show lives (t.retain f).inner (t.retain f).leaves (NodeId.innerId j) = true
    rw [retain_lives_eq hWF f]
    simpa [childLiveB, nodeKind_innerId] using hlv
  · intro j lf2 p hg hp
    obtain ⟨lf0, hg0, hpass, hlf2⟩ := (retain_leaves_get hWF f).mp hg
    rw [hlf2] at hp
    have hp0 : lf0.parent = some p := hp
    obtain ⟨r2, hr2⟩ := hWF.parentEdgeLeaf j lf0 p hg0 hp0
    have hlvj : lives (t.retain f).inner (t.retain f).leaves (NodeId.leafId j) = true := by
      unfold lives
      simp only [nodeKind_leafId]
      unfold Slab.holds
      rw [hg]
      rfl
    refine ⟨r2, ?_⟩
    rw [hredges]
    exact mlookup_filter_keep hWF.edgeNodup hr2 hlvj
  · intro j n p hg hp
    rcases retain_inner_char hWF f hg with ⟨n₀, hg0, hcall, hpar, hch, hlv⟩
    rw [hpar] at hp
    have hjf : j < t.inner.fresh := hWF.innerBound _ (Slab.get_mem hg0)
    have hpch : p ∈ chain t.inner (some j) := by
      rw [chain]
      refine chainN_closed_parent hdec t.inner.fresh (some j) j p
        (fun x hx => by injection hx with hx; omega)
        (chainN_head_mem t.inner hjf) ?_
      rw [parentOf_eq hg0]
      exact hp
    exact hliveHolds p (innerLive_chain_closed hWF hSFsub hlv hpch)
  · intro j lf2 p hg hp
    obtain ⟨lf0, hg0, hpass, hlf2⟩ := (retain_leaves_get hWF f).mp hg
    rw [hlf2] at hp
    have hp0 : lf0.parent = some p := hp
    have hmemF : ((j, lf0) : Nat × LeafNode T) ∈
        t.leaves.entries.filter (fun e => (f e.2.value).2) :=
      List.mem_filter.mpr ⟨mlookup_eq_some_mem hg0, hpass⟩
    have hpf : p < t.inner.fresh :=
      holds_lt hWF (hWF.parentLiveLeaf j lf0 p hg0 hp0)
    refine hliveHolds p (innerLiveB_of_mem t.inner hmemF ?_)
    show p ∈ chain t.inner lf0.parent
    rw [hp0, chain]
    exact chainN_head_mem t.inner hpf
  · intro k j nd hs hg
    rw [hrstart] at hs
    have horig := mlookup_filter_orig hWF.startNodup hs
    rcases retain_inner_char hWF f hg with ⟨n₀, hg0, hcall, hpar, hch, hlv⟩
    rw [hpar]
    exact hWF.startRootInner k j n₀ horig hg0
  · intro k j lf2 hs hg
    rw [hrstart] at hs
    have horig := mlookup_filter_orig hWF.startNodup hs
    obtain ⟨lf0, hg0, hpass, hlf2⟩ := (retain_leaves_get hWF f).mp hg
    rw [hlf2]
    show lf0.parent = none
    exact hWF.startRootLeaf k j lf0 horig hg0
  · intro pr1 pr2 n h1 h2
    rw [hredges] at h1 h2
    exact hWF.uniqueIncoming pr1 pr2 n (mlookup_filter_orig hWF.edgeNodup h1)
      (mlookup_filter_orig hWF.edgeNodup h2)
  · intro id nd hg
    rcases retain_inner_char hWF f hg with ⟨n₀, hg0, hcall, hpar, hch, hlv⟩
    unfold innerLiveB at hlv
    rw [List.any_eq_true] at hlv
    obtain ⟨e, heF, hch0⟩ := hlv
    have hch2 : id ∈ chain t.inner e.2.parent := by simpa using hch0
    rcases List.mem_filter.mp heF with ⟨heE, hpass⟩
    have hgE : t.leaves.get e.1 = some e.2 :=
      mlookup_eq_of_mem_nodup hWF.leafNodup heE
    have hg2 := (retain_leaves_get hWF f).mpr ⟨e.2, hgE, hpass, rfl⟩
    refine ⟨e.1, _, hg2, ?_⟩
    show id ∈ chain (t.retain f).inner e.2.parent
    have hcongr : chainN (t.retain f).inner e.2.parent t.inner.fresh =
        chainN t.inner e.2.parent t.inner.fresh := by
      refine chainN_congr t.inner.fresh e.2.parent ?_
      intro a ha
      have hlva : innerLiveB t.inner
          (t.leaves.entries.filter (fun e2 => (f e2.2.value).2)) a = true :=
        innerLiveB_of_mem t.inner heF ha
      obtain ⟨na, hga, hgia⟩ := hInv.live a hlva
      rw [parentOf_eq hgia, parentOf_eq hga]
    rw [chain, retain_inner_fresh, hcongr]
    rw [chain] at hch2
    exact hch2

end CallTree

namespace CallTree

variable {C T : Type}

theorem innerLive_parent {t : CallTree C T} (hWF : WF t)
    {S : List (Nat × LeafNode T)} (hsub : S.Sublist t.leaves.entries)
    {k id : Nat} (hk : innerLiveB t.inner S k = true)
    (hp : parentOf t.inner k = some id) :
    innerLiveB t.inner S id = true := by
  have hdec : ∀ a n p, t.inner.get a = some n → n.parent = some p → p < a :=
    fun a n p hg hp2 => hWF.parentLt a n hg p hp2
  unfold innerLiveB at hk
  rw [List.any_eq_true] at hk
  obtain ⟨e, heS, hch⟩ := hk
  have hch2 : k ∈ chain t.inner e.2.parent := by simpa using hch
  refine innerLiveB_of_mem t.inner heS ?_
  rw [chain] at hch2 ⊢
  refine chainN_closed_parent hdec t.inner.fresh e.2.parent k id ?_ hch2 hp
  intro x hx
  have hge : t.leaves.get e.1 = some e.2 :=
    mlookup_eq_of_mem_nodup hWF.leafNodup (hsub.mem heS)
  exact holds_lt hWF (hWF.parentLiveLeaf e.1 e.2 x hge hx)

/-- A retrieval path to a passing leaf survives `retain` unchanged. -/
theorem reaches_retain {t : CallTree C T} (hWF : WF t) (f : T → T × Bool)
    (oracle : C → Nat) :
    ∀ {pos : Int} {lid : Nat}, ReachesLeaf t oracle pos lid →
      ∀ lf, t.leaves.get lid = some lf → (f lf.value).2 = true →
      ReachesLeaf (t.retain f) oracle pos lid ∧
      (∀ k, nodeKind pos = NodeIdKind.innerK k →
        innerLiveB t.inner (t.leaves.entries.filter (fun e => (f e.2.value).2)) k = true) := by
  have hInv := retain_invFinal hWF f
  have hSFsub : (t.leaves.entries.filter (fun e => (f e.2.value).2)).Sublist
      t.leaves.entries := t.leaves.entries.filter_sublist
  have hredges : (t.retain f).edges =
      t.edges.filter (fun e => lives (t.retain f).inner (t.retain f).leaves e.2) := rfl
  intro pos lid h
  induction h with
  | leafR pos lid lf2 hk hg =>
      intro lf hlf hpass
      rw [hlf] at hg
      injection hg with he
      constructor
      · refine ReachesLeaf.leafR pos lid ⟨(f lf.value).1, lf.parent⟩ hk ?_
        exact (retain_leaves_get hWF f).mpr ⟨lf, hlf, hpass, rfl⟩
      · intro k hkk
        rw [hk] at hkk
        exact NodeIdKind.noConfusion hkk
  | stepR pos id node next lid hk hg hedge hnext ih =>
      intro lf hlf hpass
      obtain ⟨hreach2, hlive2⟩ := ih lf hlf hpass
      have hmemF : ((lid, lf) : Nat × LeafNode T) ∈
          t.leaves.entries.filter (fun e => (f e.2.value).2) :=
        List.mem_filter.mpr ⟨mlookup_eq_some_mem hlf, hpass⟩
      have hlivnext : childLiveB t.inner
          (t.leaves.entries.filter (fun e => (f e.2.value).2)) next = true := by
        rcases nodeKind_cases next with ⟨k2, hk2⟩ | ⟨k2, hk2⟩
        · rw [hk2]
          simp only [childLiveB, nodeKind_innerId]
          refine hlive2 k2 ?_
          rw [hk2, nodeKind_innerId]
        · have hkl : k2 = lid := by
            cases hnext with
            | leafR p2 l2 lf3 hk3 hg3 =>
                rw [hk2, nodeKind_leafId] at hk3
                injection hk3
            | stepR p2 id2 node2 next2 l2 hk3 hg3 hedge3 hr3 =>
                rw [hk2, nodeKind_leafId] at hk3
                exact NodeIdKind.noConfusion hk3
          subst hkl
          rw [hk2]
          simp only [childLiveB, nodeKind_leafId]
          exact leafIn_of_mem hmemF
      have hlid : innerLiveB t.inner
          (t.leaves.entries.filter (fun e => (f e.2.value).2)) id = true := by
        refine (innerLive_iff_liveOutdeg hWF hSFsub id).mpr ?_
        unfold liveOutdeg
        rw [List.countP_pos_iff]
        exact ⟨((id, oracle node.call), next), mlookup_eq_some_mem hedge,
          by simp [hlivnext]⟩
      obtain ⟨n₀, hg0, hgi⟩ := hInv.live id hlid
      rw [hg] at hg0
      injection hg0 with he0
      have hkeep : mlookup (t.retain f).edges (id, oracle node.call) = some next := by
        rw [hredges]
        refine mlookup_filter_keep hWF.edgeNodup hedge ?_
        show lives (t.retain f).inner (t.retain f).leaves next = true
        rw [retain_lives_eq hWF f]
        exact hlivnext
      constructor
      · refine ReachesLeaf.stepR pos id _ next lid hk hgi ?_ hreach2
        show mlookup (t.retain f).edges (id, oracle n₀.call) = some next
        rw [← he0]
        exact hkeep
      · intro k hkk
        rw [hk] at hkk
        injection hkk with he2
        rw [← he2]
        exact hlid

/-- Any successful retrieval from the retained tree originates from a
passing leaf of the original tree, with the mutated value. -/
theorem retain_get_orig {t : CallTree C T} (hWF : WF t) (f : T → T × Bool)
    {key : Nat} {oracle : C → Nat} {lid : Nat} {v : T}
    (h : (t.retain f).getLeaf key oracle = some (lid, v)) :
    ∃ lf, t.leaves.get lid = some lf ∧ (f lf.value).2 = true ∧ v = (f lf.value).1 := by
  unfold getLeaf at h
  cases hs : mlookup (t.retain f).start key with
  | none => rw [hs] at h; cases h
  | some root =>
      rw [hs] at h
      obtain ⟨hr, lf2, hg2, hval⟩ := getAux_reaches h
      obtain ⟨lf0, hg0, hpass, hlf2⟩ := (retain_leaves_get hWF f).mp hg2
      refine ⟨lf0, hg0, hpass, ?_⟩
      rw [← hval, hlf2]

/-- A passing leaf remains retrievable after `retain`, with the mutated
value. -/
theorem retain_get_keep {t : CallTree C T} (hWF : WF t) (f : T → T × Bool)
    {key : Nat} {oracle : C → Nat} {lid : Nat} {lf : LeafNode T}
    (hlf : t.leaves.get lid = some lf) (hpass : (f lf.value).2 = true)
    (h : t.getLeaf key oracle = some (lid, lf.value)) :
    (t.retain f).getLeaf key oracle = some (lid, (f lf.value).1) := by
  have hWFr := WF_retain hWF f
  have hrstart : (t.retain f).start =
      t.start.filter (fun e => lives (t.retain f).inner (t.retain f).leaves e.2) := rfl
  unfold getLeaf at h
  cases hs : mlookup t.start key with
  | none => rw [hs] at h; cases h
  | some root =>
      rw [hs] at h
      obtain ⟨hr, lf2, hg2, hval⟩ := getAux_reaches h
      rw [hlf] at hg2
      injection hg2 with he2
      obtain ⟨hreach2, hlive2⟩ := reaches_retain hWF f oracle hr lf hlf hpass
      have hroot : mlookup (t.retain f).start key = some root := by
        rw [hrstart]
        refine mlookup_filter_keep hWF.startNodup hs ?_
        show lives (t.retain f).inner (t.retain f).leaves root = true
        rw [retain_lives_eq hWF f]
        rcases nodeKind_cases root with ⟨k2, hk2⟩ | ⟨k2, hk2⟩
        · rw [hk2]
          simp only [childLiveB, nodeKind_innerId]
          refine hlive2 k2 ?_
          rw [hk2, nodeKind_innerId]
        · have hkl : k2 = lid := by
            cases hr with
            | leafR p2 l2 lf3 hk3 hg3 =>
                rw [hk2, nodeKind_leafId] at hk3
                injection hk3
            | stepR p2 id2 node2 next2 l2 hk3 hg3 hedge3 hr3 =>
                rw [hk2, nodeKind_leafId] at hk3
                exact NodeIdKind.noConfusion hk3
          rw [hk2]
          simp only [childLiveB, nodeKind_leafId]
          rw [hkl]
          have hmemF : ((lid, lf) : Nat × LeafNode T) ∈
              t.leaves.entries.filter (fun e => (f e.2.value).2) :=
            List.mem_filter.mpr ⟨mlookup_eq_some_mem hlf, hpass⟩
          exact leafIn_of_mem hmemF
      obtain ⟨lf3, hg3, hgl⟩ := reaches_getLeaf hWFr.edgeInc hroot hreach2
      have hg4 : (t.retain f).leaves.get lid = some ⟨(f lf.value).1, lf.parent⟩ :=
        (retain_leaves_get hWF f).mpr ⟨lf, hlf, hpass, rfl⟩
      rw [hg4] at hg3
      injection hg3 with he3
      rw [hgl, ← he3]

end CallTree

/-- **C6.** Retain correctness: after `CallTree::retain(f)`, every leaf that
`get` can still return originates from a leaf whose value passed the
predicate (so no failed leaf is reachable under any key and oracle), and
every leaf whose value passed remains reachable by `get` with its original
key and any oracle consistent with its call sequence, carrying the mutated
value. -/
theorem c6_retain_correct {C T : Type} :
    ∀ (t : CallTree C T) (f : T → T × Bool), CallTree.WF t →
      (∀ (key : Nat) (oracle : C → Nat) (lid : Nat) (v : T),
        (t.retain f).getLeaf key oracle = some (lid, v) →
        ∃ lf, t.leaves.get lid = some lf ∧ (f lf.value).2 = true ∧
          v = (f lf.value).1) ∧
      (∀ (key : Nat) (oracle : C → Nat) (lid : Nat) (lf : LeafNode T),
        t.leaves.get lid = some lf → (f lf.value).2 = true →
        t.getLeaf key oracle = some (lid, lf.value) →
        (t.retain f).getLeaf key oracle = some (lid, (f lf.value).1)) := by
  intro t f hWF
  exact ⟨fun key oracle lid v h => CallTree.retain_get_orig hWF f h,
    fun key oracle lid lf h1 h2 h3 => CallTree.retain_get_keep hWF f h1 h2 h3⟩

/-- Closed witness for the C6 theorem on the concrete one-path tree: the
kept leaf stays reachable with the mutated value, and the reachable leaf
traces back to the passing original. -/
theorem c6_witness :
    (exTree1.retain (fun v => (v + 1, true))).getLeaf 7 (fun _ => 1) = some (0, 43) ∧
    ∃ lf, exTree1.leaves.get 0 = some lf ∧
      ((fun v => (v + 1, true)) lf.value).2 = true ∧
      (43 : Nat) = ((fun v => (v + 1, true)) lf.value).1 := by
  have hWF : CallTree.WF exTree1 := CallTree.WF_of_dec (by decide)
  have hc := c6_retain_correct exTree1 (fun v => (v + 1, true)) hWF
  have hkeep := hc.2 7 (fun _ => 1) 0 ⟨42, some 0⟩ (by decide) (by decide) (by decide)
  exact ⟨hkeep, hc.1 7 (fun _ => 1) 0 43 hkeep⟩

/-! ## Preservation of well-formedness by `insert` -/

namespace Slab

variable {α : Type}

theorem modify_get_none {s : Slab α} {j : Nat} (f : α → α) (h : s.get j = none) :
    (s.modify j f).get j = none := by
  cases hg : (s.modify j f).get j with
  | none => rfl
  | some b =>
      exfalso
      have hmem : (j, b) ∈ (s.modify j f).entries := Slab.get_mem hg
      rcases Slab.mem_modify hmem with ⟨a, ha⟩
      have h2 : (mlookup s.entries j).isSome := (mlookup_isSome_iff _ _).mpr ⟨a, ha⟩
      have h3 : (s.get j).isSome := h2
      rw [h] at h3
      simp at h3

theorem modify_get_cases {s : Slab α} {j i : Nat} {f : α → α} {b : α}
    (h : (s.modify j f).get i = some b) :
    (i ≠ j ∧ s.get i = some b) ∨ (i = j ∧ ∃ a, s.get j = some a ∧ b = f a) := by
  by_cases hij : i = j
  · subst hij
    cases hg : s.get i with
    | none =>
        rw [modify_get_none f hg] at h
        exact Option.noConfusion h
    | some a =>
        rw [modify_get_self f hg] at h
        exact Or.inr ⟨rfl, a, rfl, (Option.some.inj h).symm⟩
  · rw [modify_get_ne f hij] at h
    exact Or.inl ⟨hij, h⟩

theorem alloc_get_cases {s : Slab α} {a : α} {i : Nat} {b : α}
    (hb : ∀ e ∈ s.entries, e.1 < s.fresh)
    (h : (s.alloc a).2.get i = some b) :
    s.get i = some b ∨ (i = s.fresh ∧ b = a) := by
  have h2 : mlookup (s.entries ++ [(s.fresh, a)]) i = some b := h
  rw [mlookup_append] at h2
  cases hg : mlookup s.entries i with
  | some c =>
      rw [hg] at h2
      have h3 : some c = some b := h2
      injection h3 with h3
      have h4 : s.get i = some c := hg
      rw [h3] at h4
      exact Or.inl h4
  | none =>
      rw [hg] at h2
      have h3 : mlookup [(s.fresh, a)] i = some b := h2
      rw [mlookup_cons] at h3
      by_cases hif : s.fresh = i
      · rw [if_pos hif] at h3
        injection h3 with h3
        exact Or.inr ⟨hif.symm, h3.symm⟩
      · rw [if_neg hif] at h3
        rw [mlookup_nil] at h3
        exact Option.noConfusion h3

theorem get_fresh_none {s : Slab α} (hb : ∀ e ∈ s.entries, e.1 < s.fresh) :
    s.get s.fresh = none := by
  cases hg : s.get s.fresh with
  | none => rfl
  | some a =>
      exfalso
      have hm := hb _ (Slab.get_mem hg)
      exact absurd hm (lt_irrefl _)

theorem alloc_keys_nodup {s : Slab α} (a : α)
    (hnod : (s.entries.map Prod.fst).Nodup) (hb : ∀ e ∈ s.entries, e.1 < s.fresh) :
    ((s.alloc a).2.entries.map Prod.fst).Nodup := by
  show ((s.entries ++ [(s.fresh, a)]).map Prod.fst).Nodup
  rw [List.map_append, List.nodup_append]
  refine ⟨hnod, List.nodup_singleton _, ?_⟩
  intro x hx hy
  have hxf : x = s.fresh := by simpa using hy
  rcases List.mem_map.mp hx with ⟨e, he, hex⟩
  have hlt := hb e he
  omega

end Slab

theorem mlookup_none_not_mem {κ ν : Type} [DecidableEq κ] {m : List (κ × ν)} {k : κ}
    (h : mlookup m k = none) : k ∉ m.map Prod.fst := by
  intro hk
  rcases List.mem_map.mp hk with ⟨e, he, hek⟩
  have h2 : (mlookup m k).isSome := (mlookup_isSome_iff _ _).mpr
    ⟨e.2, by rw [← hek]; exact he⟩
  rw [h] at h2
  simp at h2

theorem mput_absent_keys_nodup {κ ν : Type} [DecidableEq κ] {m : List (κ × ν)} {k : κ}
    (v : ν) (habs : mlookup m k = none) (hnod : (m.map Prod.fst).Nodup) :
    ((mput m k v).map Prod.fst).Nodup := by
  rw [mput_of_absent v habs, List.map_append, List.nodup_append]
  refine ⟨hnod, List.nodup_singleton _, ?_⟩
  intro x hx hy
  have hxk : x = k := by simpa using hy
  rw [hxk] at hx
  exact mlookup_none_not_mem habs hx

namespace CallTree

variable {C T : Type}

theorem link_start_lookup {t : CallTree C T} {atStart : Bool} {key : Nat}
    {pred : Option (Nat × Nat)} {tgt : Int} {k : Nat} {v : Int}
    (h : mlookup (t.link atStart key pred tgt).start k = some v) :
    mlookup t.start k = some v ∨ (atStart = true ∧ k = key ∧ v = tgt) := by
  cases atStart with
  | false =>
      rw [link_start_false] at h
      exact Or.inl h
  | true =>
      rw [link_start_true] at h
      by_cases hk : key = k
      · subst hk
        rw [mlookup_mput_self] at h
        injection h with h
        exact Or.inr ⟨rfl, rfl, h.symm⟩
      · rw [mlookup_mput_ne _ _ _ _ hk] at h
        exact Or.inl h

theorem link_inner_keys (t : CallTree C T) (atStart : Bool) (key : Nat)
    (pred : Option (Nat × Nat)) (tgt : Int) :
    (t.link atStart key pred tgt).inner.entries.map Prod.fst =
      t.inner.entries.map Prod.fst := by
  cases pred with
  | none => rw [link_inner_none]
  | some pr =>
      rw [link_inner_some]
      exact Slab.modify_keys _ _ _

theorem link_start_keys_nodup {t : CallTree C T} {atStart : Bool} {key : Nat}
    {pred : Option (Nat × Nat)} {tgt : Int}
    (hnod : (t.start.map Prod.fst).Nodup)
    (hstart : atStart = true → mlookup t.start key = none) :
    ((t.link atStart key pred tgt).start.map Prod.fst).Nodup := by
  cases atStart with
  | false =>
      rw [link_start_false]
      exact hnod
  | true =>
      rw [link_start_true]
      exact mput_absent_keys_nodup _ (hstart rfl) hnod

theorem link_edges_keys_nodup {t : CallTree C T} {atStart : Bool} {key : Nat}
    {pred : Option (Nat × Nat)} {tgt : Int}
    (hnod : (t.edges.map Prod.fst).Nodup)
    (hpredE : ∀ pid r, pred = some (pid, r) → mlookup t.edges (pid, r) = none) :
    ((t.link atStart key pred tgt).edges.map Prod.fst).Nodup := by
  cases pred with
  | none =>
      rw [link_edges_none]
      exact hnod
  | some pr =>
      rw [link_edges_some]
      exact mput_absent_keys_nodup _ (hpredE pr.1 pr.2 rfl) hnod

theorem link_parentOf (t : CallTree C T) (atStart : Bool) (key : Nat)
    (pred : Option (Nat × Nat)) (tgt : Int) (a : Nat) :
    parentOf (t.link atStart key pred tgt).inner a = parentOf t.inner a := by
  cases pred with
  | none => rw [link_inner_none]
  | some pr =>
      rw [link_inner_some]
      unfold parentOf
      by_cases ha : a = pr.1
      · rw [ha]
        cases hg : t.inner.get pr.1 with
        | none => rw [Slab.modify_get_none _ hg]
        | some n =>
            rw [Slab.modify_get_self _ hg]
            rfl
      · rw [Slab.modify_get_ne _ ha]

theorem link_chain_eq (t : CallTree C T) (atStart : Bool) (key : Nat)
    (pred : Option (Nat × Nat)) (tgt : Int) (p0 : Option Nat) :
    chain (t.link atStart key pred tgt).inner p0 = chain t.inner p0 := by
  show chainN (t.link atStart key pred tgt).inner p0
      (t.link atStart key pred tgt).inner.fresh = chainN t.inner p0 t.inner.fresh
  rw [(link_fresh t atStart key pred tgt).1]
  exact chainN_congr t.inner.fresh p0
    (fun a _ => link_parentOf t atStart key pred tgt a)

theorem link_inner_holds (t : CallTree C T) (atStart : Bool) (key : Nat)
    (pred : Option (Nat × Nat)) (tgt : Int) (i : Nat) :
    (t.link atStart key pred tgt).inner.holds i = t.inner.holds i := by
  cases pred with
  | none => rw [link_inner_none]
  | some pr =>
      rw [link_inner_some]
      unfold Slab.holds
      by_cases hip : i = pr.1
      · rw [hip]
        cases hg : t.inner.get pr.1 with
        | none => rw [Slab.modify_get_none _ hg]
        | some n =>
            rw [Slab.modify_get_self _ hg]
            rfl
      · rw [Slab.modify_get_ne _ hip]

theorem link_inner_get_cases {t : CallTree C T} {atStart : Bool} {key : Nat}
    {pred : Option (Nat × Nat)} {tgt : Int} {i : Nat} {n : InnerNode C}
    (h : (t.link atStart key pred tgt).inner.get i = some n) :
    ∃ n0, t.inner.get i = some n0 ∧ n0.call = n.call ∧ n0.parent = n.parent ∧
      ((n.children = n0.children ∧ ∀ pr, pred = some pr → i ≠ pr.1) ∨
        ∃ pr, pred = some pr ∧ i = pr.1 ∧ n.children = n0.children + 1) := by
  cases pred with
  | none =>
      rw [link_inner_none] at h
      exact ⟨n, h, rfl, rfl, Or.inl ⟨rfl, fun pr hpr => Option.noConfusion hpr⟩⟩
  | some pr =>
      rw [link_inner_some] at h
      rcases Slab.modify_get_cases h with ⟨hne, hold⟩ | ⟨heq, a, hga, hna⟩
      · refine ⟨n, hold, rfl, rfl, Or.inl ⟨rfl, ?_⟩⟩
        intro pr2 hpr2
        injection hpr2 with hpr2
        rw [← hpr2]
        exact hne
      · refine ⟨a, by rw [heq]; exact hga, ?_, ?_, Or.inr ⟨pr, rfl, heq, ?_⟩⟩
        · rw [hna]
        · rw [hna]
        · rw [hna]

theorem lives_mono_of_extends {t t2 : CallTree C T} (hExt : Extends t t2) (n : Int)
    (h : lives t.inner t.leaves n = true) : lives t2.inner t2.leaves n = true := by
  unfold lives at h ⊢
  cases hnk : nodeKind n with
  | innerK i =>
      rw [hnk] at h
      have h2 : t.inner.holds i = true := h
      show t2.inner.holds i = true
      unfold Slab.holds at h2 ⊢
      cases hg : t.inner.get i with
      | none => rw [hg] at h2; simp at h2
      | some m =>
          obtain ⟨k, hg2⟩ := hExt.innerKeep i m hg
          rw [hg2]
          rfl
  | leafK j =>
      rw [hnk] at h
      have h2 : t.leaves.holds j = true := h
      show t2.leaves.holds j = true
      unfold Slab.holds at h2 ⊢
      cases hg : t.leaves.get j with
      | none => rw [hg] at h2; simp at h2
      | some lf =>
          rw [hExt.leafKeep j lf hg]
          rfl

theorem chainN_live {inn : Slab (InnerNode C)}
    (hPL : ∀ j n p, inn.get j = some n → n.parent = some p → inn.holds p = true) :
    ∀ (fuel : Nat) (p : Option Nat), (∀ x, p = some x → inn.holds x = true) →
      ∀ id ∈ chainN inn p fuel, inn.holds id = true := by
  intro fuel
  induction fuel with
  | zero =>
      intro p hp id hid
      rw [chainN_zero] at hid
      cases hid
  | succ g ih =>
      intro p hp id hid
      cases p with
      | none => rw [chainN_none] at hid; cases hid
      | some a =>
          rw [chainN_succ] at hid
          rcases List.mem_cons.mp hid with h1 | h2
          · subst h1
            exact hp id rfl
          · refine ih (parentOf inn a) ?_ id h2
            intro x hx
            obtain ⟨na, hga, hpa⟩ := parentOf_some hx
            exact hPL a na x hga hpa

theorem chain_lift {inn inn2 : Slab (InnerNode C)}
    (hpo : ∀ a, inn.holds a = true → parentOf inn2 a = parentOf inn a)
    (hPL : ∀ j n p, inn.get j = some n → n.parent = some p → inn.holds p = true)
    (hfr : inn.fresh ≤ inn2.fresh)
    (hBndI : ∀ e ∈ inn.entries, e.1 < inn.fresh)
    (hdec2 : ∀ a n p, inn2.get a = some n → n.parent = some p → p < a)
    (p : Option Nat) (hseed : ∀ x, p = some x → inn.holds x = true) :
    chain inn2 p = chain inn p := by
  have hlive : ∀ id ∈ chainN inn p inn.fresh, inn.holds id = true :=
    chainN_live hPL inn.fresh p hseed
  have hb : ∀ x, p = some x → x < inn.fresh := by
    intro x hx
    have h1 := hseed x hx
    unfold Slab.holds at h1
    cases hg : inn.get x with
    | none => rw [hg] at h1; simp at h1
    | some n => exact hBndI _ (Slab.get_mem hg)
  show chainN inn2 p inn2.fresh = chainN inn p inn.fresh
  rw [chainN_fuel_eq hdec2 inn2.fresh inn.fresh p
    (fun x hx => lt_of_lt_of_le (hb x hx) hfr) hb]
  exact chainN_congr inn.fresh p (fun a ha => hpo a (hlive a ha))

theorem LoopWF.edgeBound {t : CallTree C T} {pred : Option (Nat × Nat)}
    (hLW : LoopWF t pred) : ∀ e ∈ t.edges, e.1.1 < t.inner.fresh := by
  intro e he
  have hl : mlookup t.edges e.1 = some e.2 := mlookup_eq_of_mem_nodup hLW.edgeNodup he
  have hh := hLW.edgeSrc e.1 e.2 hl
  unfold Slab.holds at hh
  cases hg : t.inner.get e.1.1 with
  | none => rw [hg] at hh; simp at hh
  | some n => exact hLW.innerBound _ (Slab.get_mem hg)

theorem LoopWF.weaken {t : CallTree C T} (h : LoopWF t none)
    (pred : Option (Nat × Nat)) : LoopWF t pred := by
  refine ⟨h.innerNodup, h.leafNodup, h.innerBound, h.leafBound, h.startNodup,
    h.edgeNodup, h.startLive, h.edgeLive, h.edgeSrc, h.edgeInc, h.parentLt,
    h.childrenEq, h.edgeParentInner, h.edgeParentLeaf, h.parentEdgeInner,
    h.parentEdgeLeaf, h.parentLiveInner, h.parentLiveLeaf, h.startRootInner,
    h.startRootLeaf, h.uniqueIncoming, ?_⟩
  intro id nd hg
  rcases h.leafDescendP id nd hg with hl | ⟨pr, hpr, _⟩
  · exact Or.inl hl
  · exact Option.noConfusion hpr

/-- The children counters stay equal to the outgoing-edge counts across the
leaf-allocation step of insertion. -/
theorem stop_childrenEq (t : CallTree C T) (key : Nat) (value : T)
    (pred : Option (Nat × Nat)) (cursorNone : Bool)
    (hpredE : ∀ pid r, pred = some (pid, r) → mlookup t.edges (pid, r) = none)
    (hbase : ∀ id n, t.inner.get id = some n → n.children = t.outdeg id) :
    ∀ id n,
      (({ t with leaves := (t.leaves.alloc ⟨value, pred.map (·.1)⟩).2 } : CallTree C T).link
        cursorNone key pred
        (NodeId.leafId (t.leaves.alloc ⟨value, pred.map (·.1)⟩).1)).inner.get id = some n →
      n.children =
      (({ t with leaves := (t.leaves.alloc ⟨value, pred.map (·.1)⟩).2 } : CallTree C T).link
        cursorNone key pred
        (NodeId.leafId (t.leaves.alloc ⟨value, pred.map (·.1)⟩).1)).outdeg id := by
  cases pred with
  | none =>
      intro id n hg
      rw [link_inner_none] at hg
      unfold outdeg
      rw [link_edges_none]
      exact hbase id n hg
  | some pr =>
      intro id n hg
      rw [link_inner_some] at hg
      unfold outdeg
      rw [link_edges_some, mput_of_absent _ (hpredE pr.1 pr.2 rfl), List.countP_append]
      simp only [List.countP_cons, List.countP_nil]
      rcases Slab.modify_get_cases hg with ⟨hne, hgold⟩ | ⟨heq, a, hga, hna⟩
      · have hb := hbase id n hgold
        have hni : ¬ (pr.1 = id) := fun hc => hne hc.symm
        rw [hb]
        simp [hni]
        rfl
      · subst heq
        rw [hna, hbase pr.1 a hga]
        simp
        rfl

/-- The children counters stay equal to the outgoing-edge counts across the
inner-allocation step of insertion. -/
theorem build_childrenEq (t : CallTree C T) (key : Nat) (call : C)
    (pred : Option (Nat × Nat)) (cursorNone : Bool)
    (hBndE : ∀ e ∈ t.edges, e.1.1 < t.inner.fresh)
    (hBndI : ∀ e ∈ t.inner.entries, e.1 < t.inner.fresh)
    (hpredE : ∀ pid r, pred = some (pid, r) → mlookup t.edges (pid, r) = none)
    (hpredLt : ∀ pid r, pred = some (pid, r) → pid < t.inner.fresh)
    (hbase : ∀ id n, t.inner.get id = some n → n.children = t.outdeg id) :
    ∀ id n,
      (({ t with inner := (t.inner.alloc ⟨call, 0, pred.map (·.1)⟩).2 } : CallTree C T).link
        cursorNone key pred
        (NodeId.innerId (t.inner.alloc ⟨call, 0, pred.map (·.1)⟩).1)).inner.get id = some n →
      n.children =
      (({ t with inner := (t.inner.alloc ⟨call, 0, pred.map (·.1)⟩).2 } : CallTree C T).link
        cursorNone key pred
        (NodeId.innerId (t.inner.alloc ⟨call, 0, pred.map (·.1)⟩).1)).outdeg id := by
  have hfreshz : ∀ id2 n2, id2 = t.inner.fresh →
      n2 = (⟨call, 0, pred.map (·.1)⟩ : InnerNode C) →
      n2.children = t.edges.countP (fun e => e.1.1 = id2) := by
    intro id2 n2 hid hn
    rw [hn]
    show 0 = t.edges.countP (fun e => e.1.1 = id2)
    symm
    rw [List.countP_eq_zero]
    intro e he
    have hlt := hBndE e he
    simp only [decide_eq_true_eq]
    intro hc
    rw [hid] at hc
    omega
  cases pred with
  | none =>
      intro id n hg
      rw [link_inner_none] at hg
      unfold outdeg
      rw [link_edges_none]
      rcases Slab.alloc_get_cases hBndI hg with hold | ⟨hid, hn⟩
      · exact hbase id n hold
      · exact hfreshz id n hid hn
  | some pr =>
      intro id n hg
      rw [link_inner_some] at hg
      unfold outdeg
      rw [link_edges_some, mput_of_absent _ (hpredE pr.1 pr.2 rfl), List.countP_append]
      simp only [List.countP_cons, List.countP_nil]
      rcases Slab.modify_get_cases hg with ⟨hne, hgold⟩ | ⟨heq, a, hga, hna⟩
      · rcases Slab.alloc_get_cases hBndI hgold with hold | ⟨hid, hn⟩
        · have hni : ¬ (pr.1 = id) := fun hc => hne hc.symm
          rw [hbase id n hold]
          simp [hni]
          rfl
        · have hni : ¬ (pr.1 = id) := by
            have := hpredLt pr.1 pr.2 rfl
            omega
          rw [hfreshz id n hid hn]
          simp [hni]
      · subst heq
        rcases Slab.alloc_get_cases hBndI hga with hold | ⟨hid2, _⟩
        · rw [hna, hbase pr.1 a hold]
          simp
          rfl
        · exfalso
          have := hpredLt pr.1 pr.2 rfl
          omega

theorem LoopWF_of_WF {t : CallTree C T} (h : WF t) : LoopWF t none :=
  ⟨h.innerNodup, h.leafNodup, h.innerBound, h.leafBound, h.startNodup,
    h.edgeNodup, h.startLive, h.edgeLive, h.edgeSrc, h.edgeInc, h.parentLt,
    h.childrenEq, h.edgeParentInner, h.edgeParentLeaf, h.parentEdgeInner,
    h.parentEdgeLeaf, h.parentLiveInner, h.parentLiveLeaf, h.startRootInner,
    h.startRootLeaf, h.uniqueIncoming,
    fun id nd hg => Or.inl (h.leafDescend id nd hg)⟩

/-- The final step of `CallTree::insert` restores the full structural
invariant from the loop invariant: the freshly allocated leaf closes the
pending predecessor chain. -/
theorem stop_WF (t : CallTree C T) (key : Nat) (value : T)
    (pred : Option (Nat × Nat)) (cursorNone : Bool)
    (hLW : LoopWF t pred)
    (hstart : cursorNone = true → mlookup t.start key = none)
    (hpredE : ∀ pid r, pred = some (pid, r) → mlookup t.edges (pid, r) = none)
    (hpredH : ∀ pid r, pred = some (pid, r) → t.inner.holds pid = true)
    (hnc : cursorNone = true → pred = none) :
    let al := t.leaves.alloc ⟨value, pred.map (·.1)⟩
    let t2 := ({ t with leaves := al.2 } : CallTree C T).link cursorNone key pred
      (NodeId.leafId al.1)
    WF t2 := by
  intro al t2
  obtain ⟨hExt, hleafN0, _, hedgeN, hstartN⟩ :=
    stop_construct (fun _ => 0) t key value pred cursorNone hLW.leafBound hstart hpredE
  have hleafN : t2.leaves.get al.1 = some ⟨value, pred.map (·.1)⟩ := hleafN0
  have hleq : t2.leaves = al.2 := link_leaves _ _ _ _ _
  have hfreshI : t2.inner.fresh = t.inner.fresh := (link_fresh _ _ _ _ _).1
  have hfreshL : t2.leaves.fresh = t.leaves.fresh + 1 := by
    rw [hleq]
    rfl
  have hLget : ∀ j lf, t2.leaves.get j = some lf →
      t.leaves.get j = some lf ∨ (j = t.leaves.fresh ∧ lf = ⟨value, pred.map (·.1)⟩) := by
    intro j lf hg
    rw [hleq] at hg
    exact Slab.alloc_get_cases hLW.leafBound hg
  have hHoldsI : ∀ i, t2.inner.holds i = t.inner.holds i :=
    fun i => link_inner_holds _ _ _ _ _ i
  have hLiveNew : lives t2.inner t2.leaves (NodeId.leafId al.1) = true := by
    have h2 : t2.leaves.holds al.1 = true := by
      show (t2.leaves.get al.1).isSome = true
      rw [hleafN]
      rfl
    unfold lives
    rw [nodeKind_leafId]
    exact h2
  have hchainEq : ∀ p0, chain t2.inner p0 = chain t.inner p0 :=
    fun p0 => link_chain_eq _ _ _ _ _ p0
  refine ⟨?_, ?_, ?_, ?_, ?_, ?_, ?_, ?_, ?_, ?_, ?_, ?_, ?_, ?_, ?_, ?_, ?_, ?_,
    ?_, ?_, ?_, ?_⟩
  · have hkeys : t2.inner.entries.map Prod.fst = t.inner.entries.map Prod.fst :=
      link_inner_keys _ _ _ _ _
    rw [hkeys]
    exact hLW.innerNodup
  · rw [hleq]
    exact Slab.alloc_keys_nodup _ hLW.leafNodup hLW.leafBound
  · intro e he
    rw [hfreshI]
    rcases link_inner_mem he with ⟨a, ha⟩
    exact hLW.innerBound (e.1, a) ha
  · intro e he
    rw [hfreshL]
    rw [hleq] at he
    rcases Slab.mem_alloc he with hm | hm
    · have := hLW.leafBound _ hm
      omega
    · have : e.1 = t.leaves.fresh := congrArg Prod.fst hm
      omega
  · exact link_start_keys_nodup hLW.startNodup hstart
  · exact link_edges_keys_nodup hLW.edgeNodup hpredE
  · intro k n h
    rcases link_start_lookup h with hm | ⟨hcN, hk, hv⟩
    · exact lives_mono_of_extends hExt n (hLW.startLive k n hm)
    · rw [hv]
      exact hLiveNew
  · intro pr n h
    rcases link_edges_lookup h with hm | ⟨hp, hv⟩
    · exact lives_mono_of_extends hExt n (hLW.edgeLive pr n hm)
    · rw [hv]
      exact hLiveNew
  · intro pr n h
    rw [hHoldsI]
    rcases link_edges_lookup h with hm | ⟨hp, hv⟩
    · exact hLW.edgeSrc pr n hm
    · exact hpredH pr.1 pr.2 hp
  · exact stop_edgeInc t key value pred cursorNone hLW.edgeInc
  · intro id n hg p hp
    obtain ⟨n0, hg0, _, hpar, _⟩ := link_inner_get_cases hg
    exact hLW.parentLt id n0 hg0 p (by rw [hpar]; exact hp)
  · exact stop_childrenEq t key value pred cursorNone hpredE hLW.childrenEq
  · intro pr j h
    rcases link_edges_lookup h with hm | ⟨hp, hv⟩
    · obtain ⟨n0, hg0, hp0⟩ := hLW.edgeParentInner pr j hm
      obtain ⟨k, hg2⟩ := hExt.innerKeep j n0 hg0
      exact ⟨_, hg2, hp0⟩
    · exact absurd hv (innerId_ne_leafId j al.1)
  · intro pr j h
    rcases link_edges_lookup h with hm | ⟨hp, hv⟩
    · obtain ⟨lf, hg0, hp0⟩ := hLW.edgeParentLeaf pr j hm
      exact ⟨lf, hExt.leafKeep j lf hg0, hp0⟩
    · have hj : j = al.1 := by
        have hnk := congrArg nodeKind hv
        rw [nodeKind_leafId, nodeKind_leafId] at hnk
        injection hnk
      refine ⟨⟨value, pred.map (·.1)⟩, by rw [hj]; exact hleafN, ?_⟩
      show pred.map (·.1) = some pr.1
      rw [hp]
      rfl
  · intro j n p hg hp
    obtain ⟨n0, hg0, _, hpar, _⟩ := link_inner_get_cases hg
    obtain ⟨r, hedge⟩ := hLW.parentEdgeInner j n0 p hg0 (by rw [hpar]; exact hp)
    exact ⟨r, hExt.edgeKeep _ _ hedge⟩
  · intro j lf p hg hp
    rcases hLget j lf hg with hold | ⟨hj, hlf⟩
    · obtain ⟨r, hedge⟩ := hLW.parentEdgeLeaf j lf p hold hp
      exact ⟨r, hExt.edgeKeep _ _ hedge⟩
    · rw [hlf] at hp
      rcases Option.map_eq_some'.mp hp with ⟨pr0, hpr0, hp1⟩
      refine ⟨pr0.2, ?_⟩
      have hE := hedgeN pr0 hpr0
      rw [← hp1, hj]
      exact hE
  · intro j n p hg hp
    rw [hHoldsI]
    obtain ⟨n0, hg0, _, hpar, _⟩ := link_inner_get_cases hg
    exact hLW.parentLiveInner j n0 p hg0 (by rw [hpar]; exact hp)
  · intro j lf p hg hp
    rw [hHoldsI]
    rcases hLget j lf hg with hold | ⟨hj, hlf⟩
    · exact hLW.parentLiveLeaf j lf p hold hp
    · rw [hlf] at hp
      rcases Option.map_eq_some'.mp hp with ⟨pr0, hpr0, hp1⟩
      rw [← hp1]
      exact hpredH pr0.1 pr0.2 hpr0
  · intro k j nd hs hg
    rcases link_start_lookup hs with hm | ⟨hcN, hk, hv⟩
    · obtain ⟨n0, hg0, _, hpar, _⟩ := link_inner_get_cases hg
      have hroot := hLW.startRootInner k j n0 hm hg0
      rw [← hpar]
      exact hroot
    · exact absurd hv (innerId_ne_leafId j al.1)
  · intro k j lf hs hg
    rcases link_start_lookup hs with hm | ⟨hcN, hk, hv⟩
    · have hlv := hLW.startLive k _ hm
      unfold lives at hlv
      rw [nodeKind_leafId] at hlv
      have hlv2 : (t.leaves.get j).isSome = true := hlv
      cases hgj : t.leaves.get j with
      | none => rw [hgj] at hlv2; simp at hlv2
      | some lf0 =>
          have hj2 : t2.leaves.get j = some lf0 := hExt.leafKeep j lf0 hgj
          rw [hg] at hj2
          have he := Option.some.inj hj2
          rw [he]
          exact hLW.startRootLeaf k j lf0 hm hgj
    · have hj : j = al.1 := by
        have hnk := congrArg nodeKind hv
        rw [nodeKind_leafId, nodeKind_leafId] at hnk
        injection hnk
      rw [hj] at hg
      rw [hleafN] at hg
      have he := Option.some.inj hg
      rw [← he]
      show pred.map (·.1) = none
      rw [hnc hcN]
      rfl
  · intro pr₁ pr₂ n h1 h2
    rcases link_edges_lookup h1 with hm1 | ⟨hp1, hv1⟩ <;>
      rcases link_edges_lookup h2 with hm2 | ⟨hp2, hv2⟩
    · exact hLW.uniqueIncoming pr₁ pr₂ n hm1 hm2
    · exfalso
      have hlv := hLW.edgeLive pr₁ n hm1
      rw [hv2] at hlv
      unfold lives at hlv
      rw [nodeKind_leafId] at hlv
      have hfn : t.leaves.get al.1 = none := Slab.get_fresh_none hLW.leafBound
      have hlv2 : (t.leaves.get al.1).isSome = true := hlv
      rw [hfn] at hlv2
      simp at hlv2
    · exfalso
      have hlv := hLW.edgeLive pr₂ n hm2
      rw [hv1] at hlv
      unfold lives at hlv
      rw [nodeKind_leafId] at hlv
      have hfn : t.leaves.get al.1 = none := Slab.get_fresh_none hLW.leafBound
      have hlv2 : (t.leaves.get al.1).isSome = true := hlv
      rw [hfn] at hlv2
      simp at hlv2
    · exact Option.some.inj (hp1.symm.trans hp2)
  · intro id nd hg
    obtain ⟨n0, hg0, _, hpar, _⟩ := link_inner_get_cases hg
    rcases hLW.leafDescendP id n0 hg0 with ⟨j, lf, hgj, hch⟩ | ⟨pr0, hpr0, hch⟩
    · refine ⟨j, lf, hExt.leafKeep j lf hgj, ?_⟩
      rw [hchainEq]
      exact hch
    · refine ⟨al.1, ⟨value, pred.map (·.1)⟩, hleafN, ?_⟩
      show id ∈ chain t2.inner (pred.map (·.1))
      rw [hpr0]
      show id ∈ chain t2.inner (some pr0.1)
      rw [hchainEq]
      exact hch

/-- The inner-allocation step of `CallTree::insert` preserves the loop
invariant, with the pending predecessor moved to the freshly allocated
node. -/
theorem build_WF (t : CallTree C T) (key : Nat) (call : C)
    (pred : Option (Nat × Nat)) (cursorNone : Bool) (r' : Nat)
    (hLW : LoopWF t pred)
    (hstart : cursorNone = true → mlookup t.start key = none)
    (hpredE : ∀ pid r, pred = some (pid, r) → mlookup t.edges (pid, r) = none)
    (hpredH : ∀ pid r, pred = some (pid, r) → t.inner.holds pid = true)
    (hnc : cursorNone = true → pred = none) :
    let al := t.inner.alloc ⟨call, 0, pred.map (·.1)⟩
    let t2 := ({ t with inner := al.2 } : CallTree C T).link cursorNone key pred
      (NodeId.innerId al.1)
    LoopWF t2 (some (al.1, r')) ∧
    (∀ r2, mlookup t2.edges (al.1, r2) = none) ∧
    t2.inner.holds al.1 = true := by
  intro al t2
  have hpredLt : ∀ pid r, pred = some (pid, r) → pid < t.inner.fresh := by
    intro pid r hp
    have hh := hpredH pid r hp
    unfold Slab.holds at hh
    cases hgp : t.inner.get pid with
    | none => rw [hgp] at hh; simp at hh
    | some np => exact hLW.innerBound _ (Slab.get_mem hgp)
  obtain ⟨hExt, hgetN0, hedgeN, hstartN, hBndE2, hBndI2, hBndL2, hnoe2, hlt2⟩ :=
    build_construct t key call pred cursorNone hLW.edgeBound hLW.innerBound hLW.leafBound
      hstart (fun pid r hp => ⟨hpredE pid r hp, hpredLt pid r hp⟩)
  have hgetN : t2.inner.get al.1 = some ⟨call, 0, pred.map (·.1)⟩ := hgetN0
  have hleq : t2.leaves = t.leaves := link_leaves _ _ _ _ _
  have hfresh2 : t2.inner.fresh = t.inner.fresh + 1 := (link_fresh _ _ _ _ _).1
  have hIcases : ∀ i n, t2.inner.get i = some n →
      (i ≠ al.1 ∧ ∃ n0, t.inner.get i = some n0 ∧ n0.call = n.call ∧
        n0.parent = n.parent ∧ (n.children = n0.children ∨
          ∃ pr, pred = some pr ∧ i = pr.1 ∧ n.children = n0.children + 1)) ∨
      (i = al.1 ∧ n = ⟨call, 0, pred.map (·.1)⟩) := by
    intro i n hg
    obtain ⟨n1, hg1, hc, hp, hch⟩ := link_inner_get_cases hg
    rcases Slab.alloc_get_cases hLW.innerBound hg1 with hold | ⟨hif, hn1⟩
    · have hlt : i < t.inner.fresh := hLW.innerBound _ (Slab.get_mem hold)
      refine Or.inl ⟨?_, n1, hold, hc, hp, ?_⟩
      · show i ≠ t.inner.fresh
        omega
      · rcases hch with ⟨h0, _⟩ | h1
        · exact Or.inl h0
        · exact Or.inr h1
    · refine Or.inr ⟨hif, ?_⟩
      have hcall : n.call = call := by rw [← hc, hn1]
      have hpar : n.parent = pred.map (·.1) := by rw [← hp, hn1]
      have hch0 : n.children = 0 := by
        rcases hch with ⟨h0, _⟩ | ⟨pr, hpr, hipr, _⟩
        · rw [h0, hn1]
        · exfalso
          have hplt := hpredLt pr.1 pr.2 hpr
          have hie : i = pr.1 := hipr
          have hif2 : i = t.inner.fresh := hif
          omega
      cases n with
      | mk a b c =>
          rw [show a = call from hcall, show b = 0 from hch0,
            show c = pred.map (·.1) from hpar]
  have hdec2 : ∀ a2 n2 p2, t2.inner.get a2 = some n2 → n2.parent = some p2 → p2 < a2 := by
    intro a2 n2 p2 hg hp
    rcases hIcases a2 n2 hg with ⟨_, n0, hg0, _, hpar, _⟩ | ⟨ha, hn⟩
    · exact hLW.parentLt a2 n0 hg0 p2 (by rw [hpar]; exact hp)
    · rw [hn] at hp
      rcases Option.map_eq_some'.mp hp with ⟨pr0, hpr0, hp1⟩
      have hplt := hpredLt pr0.1 pr0.2 (by rw [hpr0])
      rw [ha]
      show p2 < t.inner.fresh
      omega
  have hHmono : ∀ i2, t.inner.holds i2 = true → t2.inner.holds i2 = true := by
    intro i2 hh
    unfold Slab.holds at hh ⊢
    cases hgp : t.inner.get i2 with
    | none => rw [hgp] at hh; simp at hh
    | some np =>
        obtain ⟨k, hg2⟩ := hExt.innerKeep i2 np hgp
        rw [hg2]
        rfl
  have hpo : ∀ a2, t.inner.holds a2 = true → parentOf t2.inner a2 = parentOf t.inner a2 := by
    intro a2 hh
    unfold Slab.holds at hh
    cases hgp : t.inner.get a2 with
    | none => rw [hgp] at hh; simp at hh
    | some n0 =>
        obtain ⟨k, hg2⟩ := hExt.innerKeep a2 n0 hgp
        unfold parentOf
        rw [hg2, hgp]
        rfl
  have hfr12 : t.inner.fresh ≤ t2.inner.fresh := by
    rw [hfresh2]
    omega
  have hchainLift : ∀ (p : Option Nat), (∀ x, p = some x → t.inner.holds x = true) →
      chain t2.inner p = chain t.inner p := fun p hseed =>
    chain_lift hpo hLW.parentLiveInner hfr12 hLW.innerBound hdec2 p hseed
  have hHnew : t2.inner.holds al.1 = true := by
    show (t2.inner.get al.1).isSome = true
    rw [hgetN]
    rfl
  refine ⟨⟨?_, ?_, ?_, ?_, ?_, ?_, ?_, ?_, ?_, ?_, ?_, ?_, ?_, ?_, ?_, ?_, ?_, ?_,
    ?_, ?_, ?_, ?_⟩, hnoe2, hHnew⟩
  · have hkeys : t2.inner.entries.map Prod.fst = al.2.entries.map Prod.fst :=
      link_inner_keys _ _ _ _ _
    rw [hkeys]
    exact Slab.alloc_keys_nodup _ hLW.innerNodup hLW.innerBound
  · rw [hleq]
    exact hLW.leafNodup
  · exact hBndI2
  · exact hBndL2
  · exact link_start_keys_nodup hLW.startNodup hstart
  · exact link_edges_keys_nodup hLW.edgeNodup hpredE
  · intro k n h
    rcases link_start_lookup h with hm | ⟨hcN, hk, hv⟩
    · exact lives_mono_of_extends hExt n (hLW.startLive k n hm)
    · rw [hv]
      unfold lives
      rw [nodeKind_innerId]
      exact hHnew
  · intro pr n h
    rcases link_edges_lookup h with hm | ⟨hp, hv⟩
    · exact lives_mono_of_extends hExt n (hLW.edgeLive pr n hm)
    · rw [hv]
      unfold lives
      rw [nodeKind_innerId]
      exact hHnew
  · intro pr n h
    rcases link_edges_lookup h with hm | ⟨hp, hv⟩
    · exact hHmono pr.1 (hLW.edgeSrc pr n hm)
    · exact hHmono pr.1 (hpredH pr.1 pr.2 hp)
  · exact (build_edgeInc t key call pred cursorNone hLW.edgeBound hLW.innerBound
      hLW.edgeInc hpredLt).2.2.1
  · intro id n hg p hp
    exact hdec2 id n p hg hp
  · exact build_childrenEq t key call pred cursorNone hLW.edgeBound hLW.innerBound
      hpredE hpredLt hLW.childrenEq
  · intro pr j h
    rcases link_edges_lookup h with hm | ⟨hp, hv⟩
    · obtain ⟨n0, hg0, hp0⟩ := hLW.edgeParentInner pr j hm
      obtain ⟨k, hg2⟩ := hExt.innerKeep j n0 hg0
      exact ⟨_, hg2, hp0⟩
    · have hj : j = al.1 := by
        have hnk := congrArg nodeKind hv
        rw [nodeKind_innerId, nodeKind_innerId] at hnk
        injection hnk
      refine ⟨⟨call, 0, pred.map (·.1)⟩, by rw [hj]; exact hgetN, ?_⟩
      show pred.map (·.1) = some pr.1
      rw [hp]
      rfl
  · intro pr j h
    rcases link_edges_lookup h with hm | ⟨hp, hv⟩
    · obtain ⟨lf, hg0, hp0⟩ := hLW.edgeParentLeaf pr j hm
      refine ⟨lf, ?_, hp0⟩
      rw [hleq]
      exact hg0
    · exact absurd hv.symm (innerId_ne_leafId al.1 j)
  · intro j n p hg hp
    rcases hIcases j n hg with ⟨hne, n0, hg0, _, hpar, _⟩ | ⟨hj, hn⟩
    · obtain ⟨r, hedge⟩ := hLW.parentEdgeInner j n0 p hg0 (by rw [hpar]; exact hp)
      exact ⟨r, hExt.edgeKeep _ _ hedge⟩
    · rw [hn] at hp
      rcases Option.map_eq_some'.mp hp with ⟨pr0, hpr0, hp1⟩
      refine ⟨pr0.2, ?_⟩
      have hE := hedgeN pr0 hpr0
      rw [← hp1, hj]
      exact hE
  · intro j lf p hg hp
    rw [hleq] at hg
    obtain ⟨r, hedge⟩ := hLW.parentEdgeLeaf j lf p hg hp
    exact ⟨r, hExt.edgeKeep _ _ hedge⟩
  · intro j n p hg hp
    rcases hIcases j n hg with ⟨hne, n0, hg0, _, hpar, _⟩ | ⟨hj, hn⟩
    · exact hHmono p (hLW.parentLiveInner j n0 p hg0 (by rw [hpar]; exact hp))
    · rw [hn] at hp
      rcases Option.map_eq_some'.mp hp with ⟨pr0, hpr0, hp1⟩
      refine hHmono p ?_
      rw [← hp1]
      exact hpredH pr0.1 pr0.2 hpr0
  · intro j lf p hg hp
    rw [hleq] at hg
    exact hHmono p (hLW.parentLiveLeaf j lf p hg hp)
  · intro k j nd hs hg
    rcases link_start_lookup hs with hm | ⟨hcN, hk, hv⟩
    · have hlv := hLW.startLive k _ hm
      unfold lives at hlv
      rw [nodeKind_innerId] at hlv
      have hlv2 : (t.inner.get j).isSome = true := hlv
      cases hgj : t.inner.get j with
      | none => rw [hgj] at hlv2; simp at hlv2
      | some n0 =>
          have hroot := hLW.startRootInner k j n0 hm hgj
          obtain ⟨k2, hg2⟩ := hExt.innerKeep j n0 hgj
          rw [hg] at hg2
          have he := Option.some.inj hg2
          rw [he]
          exact hroot
    · have hj : j = al.1 := by
        have hnk := congrArg nodeKind hv
        rw [nodeKind_innerId, nodeKind_innerId] at hnk
        injection hnk
      rw [hj] at hg
      rw [hgetN] at hg
      have he := Option.some.inj hg
      rw [← he]
      show pred.map (·.1) = none
      rw [hnc hcN]
      rfl
  · intro k j lf hs hg
    rcases link_start_lookup hs with hm | ⟨hcN, hk, hv⟩
    · rw [hleq] at hg
      exact hLW.startRootLeaf k j lf hm hg
    · exact absurd hv.symm (innerId_ne_leafId al.1 j)
  · intro pr₁ pr₂ n h1 h2
    rcases link_edges_lookup h1 with hm1 | ⟨hp1, hv1⟩ <;>
      rcases link_edges_lookup h2 with hm2 | ⟨hp2, hv2⟩
    · exact hLW.uniqueIncoming pr₁ pr₂ n hm1 hm2
    · exfalso
      have hlv := hLW.edgeLive pr₁ n hm1
      rw [hv2] at hlv
      unfold lives at hlv
      rw [nodeKind_innerId] at hlv
      have hfn : t.inner.get al.1 = none := Slab.get_fresh_none hLW.innerBound
      have hlv2 : (t.inner.get al.1).isSome = true := hlv
      rw [hfn] at hlv2
      simp at hlv2
    · exfalso
      have hlv := hLW.edgeLive pr₂ n hm2
      rw [hv1] at hlv
      unfold lives at hlv
      rw [nodeKind_innerId] at hlv
      have hfn : t.inner.get al.1 = none := Slab.get_fresh_none hLW.innerBound
      have hlv2 : (t.inner.get al.1).isSome = true := hlv
      rw [hfn] at hlv2
      simp at hlv2
    · exact Option.some.inj (hp1.symm.trans hp2)
  · intro id nd hg
    rcases hIcases id nd hg with ⟨hne, n0, hg0, _, _, _⟩ | ⟨hj, _⟩
    · rcases hLW.leafDescendP id n0 hg0 with ⟨j, lf, hgj, hch⟩ | ⟨pr0, hpr0, hch⟩
      · refine Or.inl ⟨j, lf, ?_, ?_⟩
        · rw [hleq]
          exact hgj
        · have hseed : ∀ x, lf.parent = some x → t.inner.holds x = true :=
            fun x hx => hLW.parentLiveLeaf j lf x hgj hx
          rw [hchainLift lf.parent hseed]
          exact hch
      · refine Or.inr ⟨(al.1, r'), rfl, ?_⟩
        show id ∈ chainN t2.inner (some al.1) t2.inner.fresh
        have hfuel : chainN t2.inner (some al.1) t2.inner.fresh =
            al.1 :: chainN t2.inner (parentOf t2.inner al.1) t.inner.fresh := by
          rw [hfresh2, chainN_succ]
        rw [hfuel]
        refine List.mem_cons_of_mem _ ?_
        have hpoN : parentOf t2.inner al.1 = some pr0.1 := by
          unfold parentOf
          rw [hgetN]
          show pred.map (·.1) = some pr0.1
          rw [hpr0]
          rfl
        rw [hpoN]
        have hseed : ∀ x, (some pr0.1 : Option Nat) = some x →
            t.inner.holds x = true := by
          intro x hx
          injection hx with hx
          rw [← hx]
          exact hpredH pr0.1 pr0.2 hpr0
        have hb : pr0.1 < t.inner.fresh := hpredLt pr0.1 pr0.2 hpr0
        have hfeq : chainN t2.inner (some pr0.1) t.inner.fresh =
            chainN t2.inner (some pr0.1) t2.inner.fresh :=
          chainN_fuel_eq hdec2 t.inner.fresh t2.inner.fresh (some pr0.1)
            (fun x hx => by injection hx with hx; omega)
            (fun x hx => by injection hx with hx; rw [hfresh2]; omega)
        rw [hfeq]
        show id ∈ chain t2.inner (some pr0.1)
        rw [hchainLift (some pr0.1) hseed]
        exact hch
    · refine Or.inr ⟨(al.1, r'), rfl, ?_⟩
      rw [hj]
      show al.1 ∈ chainN t2.inner (some al.1) t2.inner.fresh
      exact chainN_head_mem t2.inner hlt2

/-- The loop of `CallTree::insert` preserves well-formedness: a successful
run starting from a tree satisfying the loop invariant (with a fresh, live
pending predecessor) yields a fully well-formed tree. -/
theorem insertLoop_WF (hashC : C → Nat) (key : Nat) (value : T)
    (seq : CallSequence C) (t : CallTree C T)
    (cursor : Option Int) (pred : Option (Nat × Nat)) (t' : CallTree C T)
    (hLW : LoopWF t pred)
    (hstart : cursor = none → mlookup t.start key = none)
    (hpredE : ∀ pid r, pred = some (pid, r) → mlookup t.edges (pid, r) = none)
    (hpredH : ∀ pid r, pred = some (pid, r) → t.inner.holds pid = true)
    (hnc : ∀ pr, pred = some pr → cursor ≠ none)
    (h : insertLoop hashC t key value seq cursor pred = (t', none)) :
    WF t' := by
  rcases pred with _ | pr
  · rcases cursor with _ | pos
    · cases hnext : CallSequence.next seq with
      | none =>
          rw [insertLoop_stop hashC t key value seq none none (Or.inr rfl) hnext] at h
          injection h with h1 h2
          subst h1
          exact stop_WF t key value none (none : Option Int).isNone hLW
            (fun _ => hstart rfl)
            (by intro pid r hh; exact Option.noConfusion hh)
            (by intro pid r hh; exact Option.noConfusion hh)
            (fun _ => rfl)
      | some prs =>
          obtain ⟨prc, seq'⟩ := prs
          rw [insertLoop_build hashC t key value seq none none prc seq'
            (Or.inr rfl) hnext] at h
          obtain ⟨hLW2, hE2, hH2⟩ :=
            build_WF t key prc.1 none (none : Option Int).isNone prc.2 hLW
              (fun _ => hstart rfl)
              (by intro pid r hh; exact Option.noConfusion hh)
              (by intro pid r hh; exact Option.noConfusion hh)
              (fun _ => rfl)
          exact insertLoop_WF hashC key value seq' _ _ _ t' hLW2
            (by intro hc; exact Option.noConfusion hc)
            (by intro pid r hh
                injection hh with hh1
                injection hh1 with hh2 hh3
                subst hh2
                subst hh3
                exact hE2 _)
            (by intro pid r hh
                injection hh with hh1
                injection hh1 with hh2 hh3
                subst hh2
                exact hH2)
            (by intro pr2 hh hc; exact Option.noConfusion hc)
            h
    · cases hk : nodeKind pos with
      | leafK j =>
          rw [insertLoop_leaf hashC t key value seq pos j hk] at h
          simp at h
      | innerK id =>
          cases hg : t.inner.get id with
          | none =>
              rw [insertLoop_absent hashC t key value seq pos id hk hg] at h
              simp at h
          | some node =>
              cases hext : CallSequence.extract hashC seq node.call with
              | mk o s₂ =>
                  cases o with
                  | none =>
                      rw [insertLoop_noExtract hashC t key value seq pos id node s₂
                        hk hg hext] at h
                      simp at h
                  | some ret =>
                      cases hedge : mlookup t.edges (id, ret) with
                      | some next =>
                          rw [insertLoop_follow hashC t key value seq pos id node ret s₂
                            next hk hg hext hedge] at h
                          exact insertLoop_WF hashC key value s₂ t (some next) none t' hLW
                            (by intro hc; exact Option.noConfusion hc)
                            (by intro pid r hh; exact Option.noConfusion hh)
                            (by intro pid r hh; exact Option.noConfusion hh)
                            (by intro pr2 hh; exact Option.noConfusion hh)
                            h
                      | none =>
                          rw [insertLoop_diverge hashC t key value seq pos id node ret s₂
                            hk hg hext hedge] at h
                          exact insertLoop_WF hashC key value s₂ t (some pos)
                            (some (id, ret)) t' (hLW.weaken _)
                            (by intro hc; exact Option.noConfusion hc)
                            (by intro pid r hh
                                injection hh with hh1
                                injection hh1 with hh2 hh3
                                subst hh2
                                subst hh3
                                exact hedge)
                            (by intro pid r hh
                                injection hh with hh1
                                injection hh1 with hh2 hh3
                                subst hh2
                                show (t.inner.get id).isSome = true
                                rw [hg]
                                rfl)
                            (by intro pr2 hh hc; exact Option.noConfusion hc)
                            h
  · cases hnext : CallSequence.next seq with
    | none =>
        rw [insertLoop_stop hashC t key value seq cursor (some pr) (Or.inl rfl) hnext] at h
        injection h with h1 h2
        subst h1
        exact stop_WF t key value (some pr) cursor.isNone hLW
          (fun hc => hstart (Option.isNone_iff_eq_none.mp hc)) hpredE hpredH
          (fun hc => absurd (Option.isNone_iff_eq_none.mp hc) (hnc pr rfl))
    | some prs =>
        obtain ⟨prc, seq'⟩ := prs
        rw [insertLoop_build hashC t key value seq cursor (some pr) prc seq'
          (Or.inl rfl) hnext] at h
        obtain ⟨hLW2, hE2, hH2⟩ :=
          build_WF t key prc.1 (some pr) cursor.isNone prc.2 hLW
            (fun hc => hstart (Option.isNone_iff_eq_none.mp hc)) hpredE hpredH
            (fun hc => absurd (Option.isNone_iff_eq_none.mp hc) (hnc pr rfl))
        exact insertLoop_WF hashC key value seq' _ _ _ t' hLW2
          (by intro hc; exact Option.noConfusion hc)
          (by intro pid r hh
              injection hh with hh1
              injection hh1 with hh2 hh3
              subst hh2
              subst hh3
              exact hE2 _)
          (by intro pid r hh
              injection hh with hh1
              injection hh1 with hh2 hh3
              subst hh2
              exact hH2)
          (by intro pr2 hh hc; exact Option.noConfusion hc)
          h
termination_by seq.pend
decreasing_by
  all_goals first
  | exact CallSequence.extract_pend_lt hashC hext
  | exact CallSequence.next_pend_lt hnext

/-- `CallTree::insert` preserves the structural invariant, whether it
succeeds or fails. -/
theorem insertTree_WF (hashC : C → Nat) (t : CallTree C T) (key : Nat)
    (seq : CallSequence C) (value : T) (hWF : WF t) :
    WF (t.insertTree hashC key seq value).1 := by
  cases he : (t.insertTree hashC key seq value).2 with
  | some err =>
      rw [insertTree_error_unchanged hashC t key seq value err he]
      exact hWF
  | none =>
      have h2 : t.insertTree hashC key seq value =
          ((t.insertTree hashC key seq value).1, none) := by
        rw [← he]
      exact insertLoop_WF hashC key value seq t (mlookup t.start key) none _
        (LoopWF_of_WF hWF) (fun hc => hc)
        (by intro pid r hh; exact Option.noConfusion hh)
        (by intro pid r hh; exact Option.noConfusion hh)
        (by intro pr hh; exact Option.noConfusion hh)
        h2

/-- The empty call tree is well-formed. -/
theorem WF_empty : WF (empty : CallTree C T) := by
  refine ⟨List.nodup_nil, List.nodup_nil, ?_, ?_, List.nodup_nil, List.nodup_nil,
    ?_, ?_, ?_, ?_, ?_, ?_, ?_, ?_, ?_, ?_, ?_, ?_, ?_, ?_, ?_, ?_⟩
  · intro e he
    exact absurd he (List.not_mem_nil e)
  · intro e he
    exact absurd he (List.not_mem_nil e)
  · intro k n hs
    exact Option.noConfusion hs
  · intro pr n hs
    exact Option.noConfusion hs
  · intro pr n hs
    exact Option.noConfusion hs
  · intro pr j hs
    exact Option.noConfusion hs
  · intro id n hg
    exact Option.noConfusion hg
  · intro id n hg
    exact Option.noConfusion hg
  · intro pr j hs
    exact Option.noConfusion hs
  · intro pr j hs
    exact Option.noConfusion hs
  · intro j n p hg
    exact Option.noConfusion hg
  · intro j lf p hg
    exact Option.noConfusion hg
  · intro j n p hg
    exact Option.noConfusion hg
  · intro j lf p hg
    exact Option.noConfusion hg
  · intro k j nd hs
    exact Option.noConfusion hs
  · intro k j lf hs
    exact Option.noConfusion hs
  · intro pr₁ pr₂ n h1
    exact Option.noConfusion h1
  · intro id nd hg
    exact Option.noConfusion hg

/-- `WF` subsumes the specification-level consistency statement. -/
theorem WF.toConsistent {t : CallTree C T} (h : WF t) : Consistent t :=
  ⟨h.startLive, fun pr n hl => ⟨h.edgeLive pr n hl, h.edgeSrc pr n hl⟩,
    h.parentLiveInner, h.parentLiveLeaf, h.childrenEq⟩

/-- Parent chains of live leaves and inner nodes consist of live inner
nodes. -/
theorem WF.chainLive {t : CallTree C T} (h : WF t) :
    (∀ j lf, t.leaves.get j = some lf →
      ∀ a ∈ chain t.inner lf.parent, t.inner.holds a = true) ∧
    (∀ j n, t.inner.get j = some n →
      ∀ a ∈ chain t.inner n.parent, t.inner.holds a = true) := by
  constructor
  · intro j lf hg a ha
    exact chainN_live h.parentLiveInner t.inner.fresh lf.parent
      (fun x hx => h.parentLiveLeaf j lf x hg hx) a ha
  · intro j n hg a ha
    exact chainN_live h.parentLiveInner t.inner.fresh n.parent
      (fun x hx => h.parentLiveInner j n x hg hx) a ha

theorem applyOp_WF (hashC : C → Nat) (t : CallTree C T) (op : TreeOp C T)
    (hWF : WF t) : WF (applyOp hashC t op) := by
  cases op with
  | insertOp key pairs v => exact insertTree_WF hashC t key _ v hWF
  | retainOp f => exact WF_retain hWF f

/-- Every tree reachable from the empty tree by `insert` and `retain`
operations is well-formed. -/
theorem applyOps_WF (hashC : C → Nat) (ops : List (TreeOp C T)) :
    ∀ t : CallTree C T, WF t → WF (applyOps hashC t ops) := by
  induction ops with
  | nil =>
      intro t h
      exact h
  | cons op rest ih =>
      intro t h
      exact ih (applyOp hashC t op) (applyOp_WF hashC t op h)

end CallTree

/-- C7: structural consistency of every reachable call tree.  Every tree
obtained from the empty tree by any sequence of `insert` and `retain`
operations satisfies the consistency properties checked by
`assert_consistency`: every start entry and edge target refers to a node
that exists in its arena, every edge source exists, the parent chain of
every leaf and of every inner node consists only of existing inner nodes,
and every inner node's `children` counter equals its number of outgoing
edges. -/
theorem c7_consistency {C T : Type} (hashC : C → Nat) (ops : List (CallTree.TreeOp C T)) :
    CallTree.Consistent (CallTree.applyOps hashC CallTree.empty ops) ∧
    (∀ j lf, (CallTree.applyOps hashC CallTree.empty ops).leaves.get j = some lf →
      ∀ a ∈ CallTree.chain (CallTree.applyOps hashC CallTree.empty ops).inner lf.parent,
        (CallTree.applyOps hashC CallTree.empty ops).inner.holds a = true) ∧
    (∀ j n, (CallTree.applyOps hashC CallTree.empty ops).inner.get j = some n →
      ∀ a ∈ CallTree.chain (CallTree.applyOps hashC CallTree.empty ops).inner n.parent,
        (CallTree.applyOps hashC CallTree.empty ops).inner.holds a = true) := by
  have hWF := CallTree.applyOps_WF hashC ops CallTree.empty CallTree.WF_empty
  exact ⟨hWF.toConsistent, hWF.chainLive.1, hWF.chainLive.2⟩

/-! ## Eviction ageing (`CacheData::evict` / `CacheData::lookup`) -/

namespace CallTree

variable {C T : Type}

/-- A successful `get` returns the value of a live leaf. -/
theorem getLeaf_leaves_get {t : CallTree C T} {key : Nat} {oracle : C → Nat}
    {lid : Nat} {v : T} (h : t.getLeaf key oracle = some (lid, v)) :
    ∃ lf, t.leaves.get lid = some lf ∧ lf.value = v := by
  unfold getLeaf at h
  cases hs : mlookup t.start key with
  | none => rw [hs] at h; cases h
  | some root =>
      rw [hs] at h
      exact (getAux_reaches h).2

end CallTree

namespace CacheData

variable {C Out : Type}

/-- `evict` increments every entry's age and keeps exactly the entries whose
incremented age does not exceed `maxAge`. -/
theorem evict_entries (cd : CacheData C Out) (maxAge : Nat) :
    (cd.evict maxAge).tree.leaves.entries =
      (cd.tree.leaves.entries.filter
        (fun e => decide (e.2.value.age + 1 ≤ maxAge))).map
        (fun e => (e.1, ({ e.2 with value := { e.2.value with age := e.2.value.age + 1 } }
          : LeafNode (CacheEntry C Out)))) := by
  show (cd.tree.retain _).leaves.entries = _
  rw [CallTree.retain_leaves_entries]

/-- A successful `lookup` returns the found entry with age zero and stores
the age reset back into the cache. -/
theorem lookup_resets_age (cd : CacheData C Out) (key : Nat) (oracle : C → Nat)
    (entry : CacheEntry C Out) (cd' : CacheData C Out)
    (h : cd.lookup key oracle = some (entry, cd')) :
    entry.age = 0 ∧ ∃ lid e0 lf0, cd.tree.getLeaf key oracle = some (lid, e0) ∧
      entry = { e0 with age := 0 } ∧ cd.tree.leaves.get lid = some lf0 ∧
      cd'.tree.leaves.get lid =
        some { lf0 with value := { lf0.value with age := 0 } } := by
  unfold CacheData.lookup at h
  cases hgl : cd.tree.getLeaf key oracle with
  | none => rw [hgl] at h; cases h
  | some pr =>
      rw [hgl] at h
      obtain ⟨lid, e0⟩ := pr
      injection h with hh1
      injection hh1 with he1 he2
      obtain ⟨lf0, hlf0, hval⟩ := CallTree.getLeaf_leaves_get hgl
      refine ⟨?_, lid, e0, lf0, rfl, he1.symm, hlf0, ?_⟩
      · rw [← he1]
      · rw [← he2]
        show (cd.tree.leaves.modify lid
          (fun lf => { lf with value := { lf.value with age := 0 } })).get lid = _
        rw [Slab.modify_get_self _ hlf0]

/-- `evict 0` removes every entry. -/
theorem evict_zero (cd : CacheData C Out) :
    (cd.evict 0).tree.leaves.entries = [] := by
  rw [evict_entries]
  have hf : cd.tree.leaves.entries.filter
      (fun e => decide (e.2.value.age + 1 ≤ 0)) = [] := by
    rw [List.filter_eq_nil]
    intro e he
    simp
  rw [hf]
  rfl

theorem evictN_WF (cd : CacheData C Out) (maxAge : Nat)
    (hWF : CallTree.WF cd.tree) :
    ∀ k, CallTree.WF (CacheData.evictN cd maxAge k).tree := by
  intro k
  induction k with
  | zero => exact hWF
  | succ n ih => exact CallTree.WF_retain ih _

/-- An entry last hit at age zero stays hittable through `maxAge`
evictions, ageing by one at each. -/
theorem evictN_hit (cd : CacheData C Out) (maxAge : Nat)
    (key : Nat) (oracle : C → Nat) (lid : Nat) (e0 : CacheEntry C Out)
    (hWF : CallTree.WF cd.tree)
    (hget : cd.tree.getLeaf key oracle = some (lid, e0)) (hage : e0.age = 0) :
    ∀ k, k ≤ maxAge →
      (CacheData.evictN cd maxAge k).tree.getLeaf key oracle =
        some (lid, ⟨e0.output, e0.mutableCalls, k⟩) := by
  intro k
  induction k with
  | zero =>
      intro _
      show cd.tree.getLeaf key oracle = some (lid, ⟨e0.output, e0.mutableCalls, 0⟩)
      rw [← hage]
      exact hget
  | succ n ih =>
      intro hle
      have hprev := ih (by omega)
      have hWFn := evictN_WF cd maxAge hWF n
      obtain ⟨lf, hlf, hval⟩ := CallTree.getLeaf_leaves_get hprev
      have hpass : ((fun e => (({ e with age := e.age + 1 } : CacheEntry C Out),
          decide (e.age + 1 ≤ maxAge))) lf.value).2 = true := by
        rw [hval]
        show decide (n + 1 ≤ maxAge) = true
        rw [decide_eq_true_eq]
        omega
      have hget2 : (CacheData.evictN cd maxAge n).tree.getLeaf key oracle =
          some (lid, lf.value) := by
        rw [hval]
        exact hprev
      have hkeep := CallTree.retain_get_keep hWFn
        (fun e => (({ e with age := e.age + 1 } : CacheEntry C Out),
          decide (e.age + 1 ≤ maxAge))) hlf hpass hget2
      rw [hval] at hkeep
      exact hkeep

/-- After `maxAge + 1` evictions, the entry is gone from the leaf arena. -/
theorem evictN_kill (cd : CacheData C Out) (maxAge : Nat)
    (key : Nat) (oracle : C → Nat) (lid : Nat) (e0 : CacheEntry C Out)
    (hWF : CallTree.WF cd.tree)
    (hget : cd.tree.getLeaf key oracle = some (lid, e0)) (hage : e0.age = 0) :
    (CacheData.evictN cd maxAge (maxAge + 1)).tree.leaves.get lid = none := by
  have hprev := evictN_hit cd maxAge key oracle lid e0 hWF hget hage maxAge (le_refl _)
  have hWFn := evictN_WF cd maxAge hWF maxAge
  obtain ⟨lf, hlf, hval⟩ := CallTree.getLeaf_leaves_get hprev
  cases hg2 : (CacheData.evictN cd maxAge (maxAge + 1)).tree.leaves.get lid with
  | none => rfl
  | some lf2 =>
      exfalso
      have hg3 : ((CacheData.evictN cd maxAge maxAge).tree.retain
        (fun e => (({ e with age := e.age + 1 } : CacheEntry C Out),
          decide (e.age + 1 ≤ maxAge)))).leaves.get lid = some lf2 := hg2
      obtain ⟨lf0, hlf0, hpass, _⟩ := (CallTree.retain_leaves_get hWFn _).mp hg3
      rw [hlf] at hlf0
      have he := Option.some.inj hlf0
      rw [← he, hval] at hpass
      have hp2 : decide (maxAge + 1 ≤ maxAge) = true := hpass
      rw [decide_eq_true_eq] at hp2
      omega

end CacheData

/-- C2: eviction ageing.  `evict(max_age)` increments the age of every
cache entry and removes exactly the entries whose incremented age exceeds
`max_age`; a successful `lookup` returns the matching entry with its age
reset to zero and stores the reset back; `evict(0)` removes every entry;
and an entry hit at age zero remains hittable for exactly `max_age`
evictions: it is still retrievable (with age `k`) after `k ≤ max_age`
evictions and its leaf is gone after `max_age + 1` evictions. -/
theorem c2_eviction {C Out : Type} (cd : CacheData C Out) :
    (∀ maxAge : Nat, (cd.evict maxAge).tree.leaves.entries =
      (cd.tree.leaves.entries.filter
        (fun e => decide (e.2.value.age + 1 ≤ maxAge))).map
        (fun e => (e.1, ({ e.2 with value := { e.2.value with age := e.2.value.age + 1 } }
          : LeafNode (CacheEntry C Out))))) ∧
    (∀ key oracle entry cd', cd.lookup key oracle = some (entry, cd') →
      entry.age = 0 ∧ ∃ lid e0 lf0, cd.tree.getLeaf key oracle = some (lid, e0) ∧
        entry = { e0 with age := 0 } ∧ cd.tree.leaves.get lid = some lf0 ∧
        cd'.tree.leaves.get lid =
          some { lf0 with value := { lf0.value with age := 0 } }) ∧
    ((cd.evict 0).tree.leaves.entries = []) ∧
    (CallTree.WF cd.tree →
      ∀ maxAge key oracle lid e0,
        cd.tree.getLeaf key oracle = some (lid, e0) → e0.age = 0 →
        (∀ k, k ≤ maxAge →
          (CacheData.evictN cd maxAge k).tree.getLeaf key oracle =
            some (lid, ⟨e0.output, e0.mutableCalls, k⟩)) ∧
        (CacheData.evictN cd maxAge (maxAge + 1)).tree.leaves.get lid = none) :=
  ⟨fun maxAge => CacheData.evict_entries cd maxAge,
   fun key oracle entry cd' h => CacheData.lookup_resets_age cd key oracle entry cd' h,
   CacheData.evict_zero cd,
   fun hWF maxAge key oracle lid e0 hget hage =>
     ⟨fun k hk => CacheData.evictN_hit cd maxAge key oracle lid e0 hWF hget hage k hk,
      CacheData.evictN_kill cd maxAge key oracle lid e0 hWF hget hage⟩⟩

/-- Closed witness for the C2 theorem on the concrete one-entry cache:
`evict(0)` clears it, the entry is still hittable (with age 2) after two
`evict(2)` calls, its leaf is gone after the third, and a lookup returns
the entry with age zero. -/
theorem c2_witness :
    (CacheData.evict exCache 0).tree.leaves.entries = [] ∧
    (CacheData.evictN exCache 2 2).tree.getLeaf 7 (fun _ => 1) =
      some (0, ⟨42, [], 2⟩) ∧
    (CacheData.evictN exCache 2 3).tree.leaves.get 0 = none ∧
    ∃ entry cd', CacheData.lookup exCache 7 (fun _ => 1) = some (entry, cd') ∧
      entry.age = 0 := by
  have hc := c2_eviction exCache
  have hWF : CallTree.WF exCache.tree := CallTree.WF_of_dec (by decide)
  have h4 := hc.2.2.2 hWF 2 7 (fun _ => 1) 0 ⟨42, [], 0⟩ (by decide) (by decide)
  have hlsome : (CacheData.lookup exCache 7 (fun _ => 1)).isSome = true := by decide
  obtain ⟨prv, hl⟩ := Option.isSome_iff_exists.mp hlsome
  refine ⟨hc.2.2.1, h4.1 2 (by decide), h4.2,
    prv.1, prv.2, ?_, (hc.2.1 7 (fun _ => 1) prv.1 prv.2 ?_).1⟩
  · rw [hl]
  · rw [hl]

end Comemo